import Mathlib

/-!
Verification of a B-tree-shaped ordered container (files btree.h and
btree_iterator.h).  The C++ template is instantiated at integer elements:
values are modelled as Int, per-node capacity as Nat, null child pointers
as none, and node identity (the C++ shared_ptr compared by the iterator)
as the path of child-slot indices from the root.  All recursive functions
mirror the loops / recursion of the source; comments on each definition
name the source function it embeds.
-/

/-- A tree node: the member _childVals (sorted element buffer) and the
member _childTrees (fixed array of capacity+1 child slots, null slots
are none).  The weak back-pointer _parent is not stored: the parent of
a node is recovered from its path, which is how node identity is
modelled throughout. -/
inductive Bnode : Type where
  | mk (vals : List Int) (children : List (Option Bnode)) : Bnode

/-- Projection of the _childVals member. -/
def Bnode.vals : Bnode → List Int
  | .mk vs _ => vs

/-- Projection of the _childTrees member. -/
def Bnode.children : Bnode → List (Option Bnode)
  | .mk _ cs => cs

/-- The btree object: the capacity maxNodeElems (stored by the source in
the _size field of every node, identical for every node of one tree) and
the root node. -/
structure BTree where
  M : Nat
  root : Bnode

/-- The default constructor btree(maxNodeElems): a root with empty
_childVals and maxNodeElems+1 null child slots (bnode::bnode). -/
def mkBtree (M : Nat) : BTree :=
  ⟨M, .mk [] (List.replicate (M + 1) none)⟩

/-- The result of std::lower_bound over the sorted _childVals buffer:
the index of the first value not less than e. -/
def lowerB : List Int → Int → Nat
  | [], _ => 0
  | v :: vs, e => if v < e then lowerB vs e + 1 else 0

/-- Child slot j of a children array (the vector access _childTrees[j],
with none both for a null slot and for an out-of-range index). -/
def kidAt : List (Option Bnode) → Nat → Option Bnode
  | [], _ => none
  | c :: _, 0 => c
  | _ :: cs, j + 1 => kidAt cs j

/-- Child slot j of a node. -/
def childAt (n : Bnode) (j : Nat) : Option Bnode :=
  kidAt n.children j

mutual
/-- The node reached from n by following a path of child-slot indices;
none if some slot on the way is null or out of range.  Paths stand for
the C++ node pointers. -/
def nodeAt : Bnode → List Nat → Option Bnode
  | n, [] => some n
  | .mk _ cs, j :: p => nodeAtKids cs j p

/-- Helper walking the children list to slot j, then continuing with
nodeAt. -/
def nodeAtKids : List (Option Bnode) → Nat → List Nat → Option Bnode
  | [], _, _ => none
  | none :: _, 0, _ => none
  | some c :: _, 0, p => nodeAt c p
  | _ :: cs, j + 1, p => nodeAtKids cs j p
end

/-- A btree_iterator: the current node (as a path from the root), the
index of _currNode inside that node's _childVals buffer (an Int, because
findMax on an empty root yields index -1), and the _end flag.  Equality
of iterators compares all three components, as operator== does. -/
structure Iter where
  path : List Nat
  idx : Int
  endF : Bool
deriving DecidableEq, Repr

/-- The value a vector iterator (path, idx) points at, none when out of
range (dereferencing such an iterator is UB in the source). -/
def derefAt (root : Bnode) (p : List Nat) (idx : Int) : Option Int :=
  match nodeAt root p with
  | some n => if idx < 0 then none else n.vals.get? idx.toNat
  | none => none

/-- Dereference of an iterator (operator*). -/
def derefIter (root : Bnode) (it : Iter) : Option Int :=
  derefAt root it.path it.idx

mutual
/-- findMin: descend through child slot 0 while it is non-null; returns
the dt_tuple (index 0, node) with the node given as a path. -/
def findMinN : Bnode → Int × List Nat
  | .mk _ (some c :: _) => let r := findMinN c; (r.1, 0 :: r.2)
  | _ => (0, [])
end

mutual
/-- findMax: dist = number of values; descend through child slot dist
while non-null, else return (dist - 1, node).  On an empty root this
yields index -1 (the size_t subtraction dist - 1 underflows in the
source; the mathematical value -1 is used here). -/
def findMaxN : Bnode → Int × List Nat
  | .mk vs cs =>
    match findMaxKids vs.length cs with
    | some r => (r.1, vs.length :: r.2)
    | none => ((vs.length : Int) - 1, [])

/-- Helper walking the children list to slot dist. -/
def findMaxKids : Nat → List (Option Bnode) → Option (Int × List Nat)
  | _, [] => none
  | 0, none :: _ => none
  | 0, some c :: _ => some (findMaxN c)
  | j + 1, _ :: cs => findMaxKids j cs
end

/-- btree::begin / cbegin: the findMin position with the end flag clear
(the iterator constructor's end parameter defaults to false). -/
def beginT (t : BTree) : Iter :=
  let r := findMinN t.root
  ⟨r.2, r.1, false⟩

/-- btree::end / cend: the findMax position with the end flag set. -/
def endT (t : BTree) : Iter :=
  let r := findMaxN t.root
  ⟨r.2, r.1, true⟩

mutual
/-- The loop body of btree::insert(elem, node), in the form it takes for
capacity at least 1: binary-search _childVals; on an exact match return
(same tree, match position, false); if the node is not full insert at the
lower-bound position and return true; otherwise descend into child slot
j, materialising a new empty node there if the slot is null (that fresh
empty node then receives elem on the very next loop iteration, which the
none case below inlines).  insertLoop below is the fuel-indexed verbatim
loop; theorem insertLoop_eq_insertNode proves this function is its
semantics whenever 1 ≤ M. -/
def insertNode (M : Nat) (e : Int) : Bnode → Bnode × (List Nat × Nat) × Bool
  | .mk vs cs =>
    let j := lowerB vs e
    if j < vs.length ∧ vs.get? j = some e then (.mk vs cs, ([], j), false)
    else if vs.length < M then (.mk (List.insertIdx j e vs) cs, ([], j), true)
    else
      let r := insertKids M e j cs
      (.mk vs r.1, (j :: r.2.1.1, r.2.1.2), r.2.2)

/-- Helper walking the children list to the descent slot. -/
def insertKids (M : Nat) (e : Int) :
    Nat → List (Option Bnode) → List (Option Bnode) × (List Nat × Nat) × Bool
  | _, [] => ([], ([], 0), true)
  | 0, none :: cs =>
    (some (.mk [e] (List.replicate (M + 1) none)) :: cs, ([], 0), true)
  | 0, some c :: cs =>
    let r := insertNode M e c
    (some r.1 :: cs, r.2)
  | j + 1, c :: cs =>
    let r := insertKids M e j cs
    (c :: r.1, r.2)
end

/-- btree::insert(elem): runs the descent on the root; the returned pair
carries an iterator at the element (end flag false in both the found and
the inserted case) and the was-inserted flag. -/
def insertT (t : BTree) (e : Int) : BTree × Iter × Bool :=
  let r := insertNode t.M e t.root
  (⟨t.M, r.1⟩, ⟨r.2.1.1, (r.2.1.2 : Int), false⟩, r.2.2)

/-- The tree obtained from a sequence of insert calls on a freshly
constructed btree of capacity M. -/
def buildT (M : Nat) (es : List Int) : BTree :=
  es.foldl (fun t e => (insertT t e).1) (mkBtree M)

/-- The verbatim while-loop of btree::insert(elem, node), indexed by
fuel: one unit of fuel per loop iteration, none when the fuel runs out
before the loop returns.  Unlike insertNode it performs the null-child
materialisation exactly as the source does (create an empty node, then
re-enter the loop on it), so it is meaningful for capacity 0 as well. -/
def insertLoop : Nat → Nat → Int → Bnode → Option (Bnode × (List Nat × Nat) × Bool)
  | 0, _, _, _ => none
  | fuel + 1, M, e, .mk vs cs =>
    let j := lowerB vs e
    if j < vs.length ∧ vs.get? j = some e then some (.mk vs cs, ([], j), false)
    else if vs.length < M then some (.mk (List.insertIdx j e vs) cs, ([], j), true)
    else
      let c := match kidAt cs j with
        | some c => c
        | none => .mk [] (List.replicate (M + 1) none)
      match insertLoop fuel M e c with
      | some r => some (.mk vs (cs.set j (some r.1)), (j :: r.2.1.1, r.2.1.2), r.2.2)
      | none => none

mutual
/-- The descent part of btree::find(elem, node): binary-search the
current node, return the dt_tuple position on a match, descend on a
non-null child slot, and report none when the loop breaks on a null
slot (the source then falls through to findMax(_root)). -/
def findDesc (e : Int) : Bnode → Option (List Nat × Nat)
  | .mk vs cs =>
    let j := lowerB vs e
    if j < vs.length ∧ vs.get? j = some e then some ([], j)
    else
      match findKids e j cs with
      | some r => some (j :: r.1, r.2)
      | none => none

/-- Helper walking the children list to the descent slot. -/
def findKids (e : Int) : Nat → List (Option Bnode) → Option (List Nat × Nat)
  | _, [] => none
  | 0, none :: _ => none
  | 0, some c :: _ => findDesc e c
  | j + 1, _ :: cs => findKids e j cs
end

/-- btree::find(elem): on a hit the iterator at the match (its end flag
(*vec_it != elem) is then false); on a miss the findMax(_root) position
with end flag (*vec_it != elem), the comparison of the value stored at
that position with elem. -/
def findT (t : BTree) (e : Int) : Iter :=
  match findDesc e t.root with
  | some r => ⟨r.1, (r.2 : Int), false⟩
  | none =>
    let m := findMaxN t.root
    ⟨m.2, m.1, decide (derefAt t.root m.2 m.1 ≠ some e)⟩

/-- The ascent loop of btree_iterator::operator++: starting from a node
(given by its path) whose local iterator reached the end of _childVals,
walk the parent chain; at each parent take lower_bound(_childVals, v) of
the value v being left behind, stop there when it is in range, and at
the root (no parent) become the end-flagged findMax sentinel. -/
def ascendI (root : Bnode) (v : Int) (p : List Nat) : Iter :=
  match p with
  | [] => let r := findMaxN root; ⟨r.2, r.1, true⟩
  | i :: q =>
    let pp := (i :: q).dropLast
    match nodeAt root pp with
    | none => ⟨i :: q, 0, true⟩
    | some parent =>
      let j := lowerB parent.vals v
      if j < parent.vals.length then ⟨pp, (j : Int), false⟩
      else ascendI root v pp
termination_by p.length
decreasing_by simp [List.length_dropLast]

/-- btree_iterator::operator++: if the child slot right of the current
value is non-null, jump to the findMin position of that subtree; else if
another value follows in this node, step to it; else run the ascent
loop.  The source never reads the _end flag here (incrementing end() is
UB); the none fallbacks guard positions the source would read out of
range. -/
def incrI (root : Bnode) (it : Iter) : Iter :=
  match nodeAt root it.path with
  | none => it
  | some n =>
    match derefAt root it.path it.idx with
    | none => it
    | some v =>
      match childAt n (it.idx.toNat + 1) with
      | some c =>
        let r := findMinN c
        ⟨it.path ++ (it.idx.toNat + 1) :: r.2, r.1, false⟩
      | none =>
        if it.idx + 1 < (n.vals.length : Int) then ⟨it.path, it.idx + 1, false⟩
        else ascendI root v it.path

/-- The ascent loop of btree_iterator::operator--, entered with the
local iterator at index 0: walk the parent chain while the parent's
lower_bound of the leaving value v is 0; on exit the trailing
--_currNode of the source subtracts 1 from the stopping index.  At the
root the source jumps to the findMin position with the end flag set and
breaks, after which the same --_currNode still applies (this is the
undefined decrement of begin()). -/
def ascendD (root : Bnode) (v : Int) (p : List Nat) : Iter :=
  match p with
  | [] => let r := findMinN root; ⟨r.2, r.1 - 1, true⟩
  | i :: q =>
    let pp := (i :: q).dropLast
    match nodeAt root pp with
    | none => ⟨i :: q, 0, true⟩
    | some parent =>
      let j := lowerB parent.vals v
      if j = 0 then ascendD root v pp
      else ⟨pp, (j : Int) - 1, false⟩
termination_by p.length
decreasing_by simp [List.length_dropLast]

/-- btree_iterator::operator--: an end iterator just clears its _end
flag (its position already is the maximum); otherwise if the child slot
left of the current value is non-null, jump to the findMax position of
that subtree; else step left inside the node; else run the descending
ascent loop. -/
def decrI (root : Bnode) (it : Iter) : Iter :=
  if it.endF then ⟨it.path, it.idx, false⟩
  else
    match nodeAt root it.path with
    | none => it
    | some n =>
      match derefAt root it.path it.idx with
      | none => it
      | some v =>
        match childAt n it.idx.toNat with
        | some c =>
          let r := findMaxN c
          ⟨it.path ++ it.idx.toNat :: r.2, r.1, false⟩
        | none =>
          if 0 < it.idx then ⟨it.path, it.idx - 1, false⟩
          else ascendD root v it.path

/-- The forward traversal loop (for it = begin(); it != end(); ++it)
collecting the dereferenced values; it stops at the end-flagged
sentinel, and the fuel bounds the number of steps. -/
def fwdList (t : BTree) : Nat → Iter → List Int
  | 0, _ => []
  | fuel + 1, it =>
    if it.endF then []
    else
      match derefIter t.root it with
      | none => []
      | some v => v :: fwdList t fuel (incrI t.root it)

/-- std::reverse_iterator over btree_iterator (modelled from the C++
standard library: the adapter stores a base iterator; dereference yields
the element one step before the base; increment decrements the base). -/
structure RevIter where
  base : Iter
deriving DecidableEq, Repr

/-- btree::rbegin: the reverse adapter around end(). -/
def rbeginT (t : BTree) : RevIter := ⟨endT t⟩

/-- btree::rend: the reverse adapter around begin(). -/
def rendT (t : BTree) : RevIter := ⟨beginT t⟩

/-- Dereference of the reverse adapter: the value one step before the
wrapped forward iterator. -/
def revDeref (t : BTree) (r : RevIter) : Option Int :=
  derefIter t.root (decrI t.root r.base)

/-- Increment of the reverse adapter: decrement of the base. -/
def revIncr (t : BTree) (r : RevIter) : RevIter :=
  ⟨decrI t.root r.base⟩

/-- The reverse traversal loop (for rit = rbegin(); rit != rend(); ++rit)
collecting the dereferenced values. -/
def bwdList (t : BTree) : Nat → RevIter → List Int
  | 0, _ => []
  | fuel + 1, r =>
    if r = rendT t then []
    else
      match revDeref t r with
      | none => []
      | some v => v :: bwdList t fuel (revIncr t r)

mutual
/-- bnode::bfs: the node's values followed by the recursive listing of
each non-null child in slot order.  Despite its name this is a pre-order
depth-first enumeration, not a level-order one. -/
def bfsN : Bnode → List Int
  | .mk vs cs => vs ++ bfsKids cs

/-- Helper folding bfs over the children list, skipping null slots. -/
def bfsKids : List (Option Bnode) → List Int
  | [] => []
  | none :: cs => bfsKids cs
  | some c :: cs => bfsN c ++ bfsKids cs
end

/-- The stream-out friend operator<<: the first component is the element
sequence written (space-separated) to the supplied stream os, the second
the raw text the operator additionally prints to std::cout before the
elements. -/
def streamOut (t : BTree) : List Int × List Char :=
  (bfsN t.root,
   ['T', 'h', 'e', 'r', 'e', ' ', 'a', 'r', 'e', ' ']
     ++ Nat.toDigits 10 (bfsN t.root).length
     ++ [' ', 'n', 'o', 'd', 'e', 's', ' ', '\n'])

mutual
/-- Height of a tree (length of the longest non-null child chain). -/
def heightN : Bnode → Nat
  | .mk _ cs => heightKids cs

/-- Helper for heightN. -/
def heightKids : List (Option Bnode) → Nat
  | [] => 0
  | none :: cs => heightKids cs
  | some c :: cs => max (heightN c + 1) (heightKids cs)
end

mutual
/-- Values of all nodes at depth d below n, left to right. -/
def levelVals : Bnode → Nat → List Int
  | .mk vs _, 0 => vs
  | .mk _ cs, d + 1 => levelKids cs d

/-- Helper for levelVals. -/
def levelKids : List (Option Bnode) → Nat → List Int
  | [], _ => []
  | none :: cs, d => levelKids cs d
  | some c :: cs, d => levelVals c d ++ levelKids cs d
end

/-- Modelled from the spec: the level-order (breadth-first) sequence the
stream-out operator is documented to produce, in which nodes are visited
level by level and each node's values are emitted in stored order.  The
source has no correct implementation of this order (bnode::bfs is
pre-order); this definition follows the spec's words and is compared
against bfsN. -/
def levelOrderSpec (n : Bnode) : List Int :=
  ((List.range (heightN n + 1)).map (levelVals n)).flatten

/-- The copy constructor btree(const btree&): construct a fresh tree of
the same capacity (original._root->_size) and insert the bfs listing of
the original, element by element. -/
def copyT (t : BTree) : BTree :=
  buildT t.M (bfsN t.root)

/-- Copy assignment applied to the tree itself (t = t): the source builds
a copy of the right-hand side (reading it while *this is still intact)
and then move-assigns that copy's root into *this, so the resulting value
is the copy. -/
def selfAssignT (t : BTree) : BTree :=
  copyT t

mutual
/-- In-order enumeration of a node: child slot 0, value 0, child slot 1,
value 1, ..., last value, the child slot one past it.  This is the
abstraction the iterator traversal is proved against. -/
def inorderN : Bnode → List Int
  | .mk vs cs => inorderAux vs cs

/-- Helper interleaving a value suffix with the matching child slots. -/
def inorderAux : List Int → List (Option Bnode) → List Int
  | [], [] => []
  | [], c :: _ => inorderOpt c
  | v :: vs, [] => v :: inorderAux vs []
  | v :: vs, c :: cs => inorderOpt c ++ v :: inorderAux vs cs

/-- In-order enumeration of an optional child. -/
def inorderOpt : Option Bnode → List Int
  | none => []
  | some c => inorderN c
end

/-- The tree of a btree with all vals buffers empty (the only shape
reachable with capacity 0, where no insert call ever returns). -/
inductive AllEmpty : Bnode → Prop where
  | mk {cs : List (Option Bnode)} :
      (∀ c ∈ cs, ∀ b, c = some b → AllEmpty b) → AllEmpty (.mk [] cs)

/-- Repeated application of operator++ (the "repeated increment" of the
traversal). -/
def stepN (t : BTree) : Nat → Iter → Iter
  | 0, it => it
  | k + 1, it => stepN t k (incrI t.root it)

/-- Insertion of a value into a sorted list at its order position; the
effect of a successful insert call on the in-order enumeration. -/
def ordIns (e : Int) : List Int → List Int
  | [] => [e]
  | v :: vs => if v < e then v :: ordIns e vs else e :: v :: vs

/-- A sequence of insert calls applied to a node (the root-level effect
of repeated btree::insert). -/
def insList (M : Nat) (es : List Int) (n : Bnode) : Bnode :=
  es.foldl (fun m e => (insertNode M e m).1) n

/-- Membership of x in the open interval given by an optional lower and
upper bound (none meaning minus respectively plus infinity): the
sentinel convention of the node invariant. -/
def inB (lo hi : Option Int) (x : Int) : Prop :=
  (∀ l, lo = some l → l < x) ∧ (∀ h, hi = some h → x < h)

/-- Lower end of the interval of child slot j of a node with values vs
and outer lower bound lo. -/
def slotLo (lo : Option Int) (vs : List Int) (j : Nat) : Option Int :=
  if j = 0 then lo else vs.get? (j - 1)

/-- Upper end of the interval of child slot j of a node with values vs
and outer upper bound hi. -/
def slotHi (hi : Option Int) (vs : List Int) (j : Nat) : Option Int :=
  if j < vs.length then vs.get? j else hi

/-- The invariant of every node of a reachable tree of capacity M, all
of whose elements lie in the open interval (lo, hi): the value buffer is
strictly increasing, bounded, holds at most M values and at least one;
there are M+1 child slots; a node that has any child is full (a node
only ever gains a child once insertion finds it full, and it can never
lose values); children hang strictly between the adjacent values. -/
inductive WF (M : Nat) : Option Int → Option Int → Bnode → Prop where
  | mk {lo hi : Option Int} {vs : List Int} {cs : List (Option Bnode)}
      (hsort : List.Chain' (· < ·) vs)
      (hbd : ∀ x ∈ vs, inB lo hi x)
      (hlen : cs.length = M + 1)
      (hk : vs.length ≤ M)
      (hne : vs ≠ [])
      (hfull : (∃ j c, kidAt cs j = some c) → vs.length = M)
      (hsl : ∀ j c, kidAt cs j = some c → j ≤ vs.length)
      (hch : ∀ j c, kidAt cs j = some c → WF M (slotLo lo vs j) (slotHi hi vs j) c) :
      WF M lo hi (.mk vs cs)

/-- A well-formed btree state: either the freshly constructed empty root
or a root satisfying the node invariant with unbounded interval. -/
def WFt (t : BTree) : Prop :=
  t.root = .mk [] (List.replicate (t.M + 1) none) ∨ WF t.M none none t.root

/-! Basic facts about sorted lists and the lower-bound search. -/

theorem chain'_lt_nodup {l : List Int} (h : List.Chain' (· < ·) l) : l.Nodup := by
  have hp : l.Pairwise (· < ·) := List.chain'_iff_pairwise.mp h
  exact List.Pairwise.imp (fun hab => ne_of_lt hab) hp

theorem chain'_lt_get {l : List Int} (h : List.Chain' (· < ·) l) {i j : Nat} {a b : Int}
    (hij : i < j) (ha : l.get? i = some a) (hb : l.get? j = some b) : a < b := by
  have hp : l.Pairwise (· < ·) := List.chain'_iff_pairwise.mp h
  rw [List.get?_eq_some] at ha hb
  obtain ⟨hi, ha⟩ := ha
  obtain ⟨hj, hb⟩ := hb
  have := List.pairwise_iff_get.mp hp ⟨i, hi⟩ ⟨j, hj⟩ hij
  rwa [ha, hb] at this

theorem lowerB_le (vs : List Int) (e : Int) : lowerB vs e ≤ vs.length := by
  induction vs with
  | nil => simp [lowerB]
  | cons v vs ih =>
    simp only [lowerB]
    split
    · simpa using ih
    · simp

theorem lowerB_take_lt (vs : List Int) (e : Int) :
    ∀ w ∈ vs.take (lowerB vs e), w < e := by
  induction vs with
  | nil => simp [lowerB]
  | cons v vs ih =>
    simp only [lowerB]
    by_cases hv : v < e
    · rw [if_pos hv]
      intro w hw
      rw [List.take_succ_cons, List.mem_cons] at hw
      rcases hw with h | h
      · omega
      · exact ih w h
    · rw [if_neg hv]
      simp

theorem lowerB_get_ge (vs : List Int) (e : Int) {w : Int}
    (h : vs.get? (lowerB vs e) = some w) : e ≤ w := by
  induction vs with
  | nil => simp [lowerB] at h
  | cons v vs ih =>
    simp only [lowerB] at h
    by_cases hv : v < e
    · rw [if_pos hv] at h
      exact ih h
    · rw [if_neg hv] at h
      simp only [List.get?] at h
      cases h
      omega

theorem lowerB_eq_of (vs : List Int) (e : Int) {i : Nat} (hi : i ≤ vs.length)
    (h1 : ∀ w ∈ vs.take i, w < e) (h2 : ∀ w, vs.get? i = some w → e ≤ w) :
    lowerB vs e = i := by
  induction vs generalizing i with
  | nil =>
    have : i = 0 := by simpa using hi
    subst this
    simp [lowerB]
  | cons v vs ih =>
    cases i with
    | zero =>
      have := h2 v (by simp)
      simp only [lowerB]
      rw [if_neg (by omega)]
    | succ i =>
      have hv : v < e := h1 v (by simp [List.take_succ_cons])
      simp only [lowerB]
      rw [if_pos hv]
      have : lowerB vs e = i := by
        refine ih (by simpa using hi) ?_ ?_
        · intro w hw
          exact h1 w (by simp [List.take_succ_cons, hw])
        · intro w hw
          exact h2 w (by simpa using hw)
      omega

theorem lowerB_all_lt {vs : List Int} {e : Int} (h : ∀ w ∈ vs, w < e) :
    lowerB vs e = vs.length := by
  refine lowerB_eq_of vs e le_rfl (fun w hw => h w (List.mem_of_mem_take hw)) ?_
  intro w hw
  rw [List.get?_eq_some] at hw
  exact absurd hw.1 (lt_irrefl _)

theorem lowerB_of_mem {vs : List Int} {u : Int} (hs : List.Chain' (· < ·) vs)
    (hu : u ∈ vs) : vs.get? (lowerB vs u) = some u ∧ lowerB vs u < vs.length := by
  obtain ⟨⟨i, hilen⟩, hget⟩ := List.mem_iff_get.mp hu
  have hgi : vs.get? i = some u := by
    rw [List.get?_eq_some]; exact ⟨hilen, hget⟩
  have : lowerB vs u = i := by
    refine lowerB_eq_of vs u (le_of_lt hilen) ?_ ?_
    · intro w hw
      obtain ⟨jj, hjj, hgw⟩ := List.mem_take_iff_getElem.mp hw
      have hjlen : jj < vs.length := lt_of_lt_of_le hjj inf_le_right
      have hjlt : jj < i := lt_of_lt_of_le hjj inf_le_left
      have hg : vs.get? jj = some w := by
        rw [List.get?_eq_some]
        exact ⟨hjlen, by simpa [List.get_eq_getElem] using hgw⟩
      have := chain'_lt_get hs hjlt hg hgi
      omega
    · intro w hw
      rw [hgi] at hw
      cases hw
      exact le_rfl
  rw [this]
  exact ⟨hgi, hilen⟩

theorem lowerB_of_between {vs : List Int} {e : Int} {i : Nat}
    (hs : List.Chain' (· < ·) vs) (hi : i ≤ vs.length)
    (h1 : ∀ w, vs.get? (i - 1) = some w → 1 ≤ i → w < e)
    (h2 : ∀ w, vs.get? i = some w → e < w) :
    lowerB vs e = i := by
  refine lowerB_eq_of vs e hi ?_ (fun w hw => le_of_lt (h2 w hw))
  intro w hw
  obtain ⟨jj, hjj, hgw⟩ := List.mem_take_iff_getElem.mp hw
  have hjlen : jj < vs.length := lt_of_lt_of_le hjj inf_le_right
  have hjlt : jj < i := lt_of_lt_of_le hjj inf_le_left
  have hone : 1 ≤ i := by omega
  have hg : vs.get? jj = some w := by
    rw [List.get?_eq_some]
    exact ⟨hjlen, by simpa [List.get_eq_getElem] using hgw⟩
  have hri : i - 1 < vs.length := by omega
  have hgprev : vs.get? (i - 1) = some (vs.get ⟨i - 1, hri⟩) := by
    rw [List.get?_eq_some]; exact ⟨hri, rfl⟩
  have hlast : vs.get ⟨i - 1, hri⟩ < e := h1 _ hgprev hone
  rcases Nat.lt_or_ge jj (i - 1) with hlt | hge
  · have := chain'_lt_get hs hlt hg hgprev
    omega
  · have : jj = i - 1 := by omega
    subst this
    rw [hg] at hgprev
    cases hgprev
    omega

/-! Facts about child-slot access and paths. -/

theorem kidAt_eq_join (cs : List (Option Bnode)) (j : Nat) :
    kidAt cs j = (cs.get? j).join := by
  induction cs generalizing j with
  | nil => simp [kidAt]
  | cons c cs ih =>
    cases j with
    | zero => cases c <;> simp [kidAt]
    | succ j => simpa [kidAt] using ih j

theorem kidAt_replicate_none (m j : Nat) :
    kidAt (List.replicate m (none : Option Bnode)) j = none := by
  rw [kidAt_eq_join]
  rcases Nat.lt_or_ge j m with h | h
  · simp [List.get?_eq_getElem?, List.getElem?_replicate, h]
  · rw [List.get?_eq_getElem?, List.getElem?_eq_none (by simpa using h)]
    rfl

theorem kidAt_lt_length {cs : List (Option Bnode)} {j : Nat} {c : Bnode}
    (h : kidAt cs j = some c) : j < cs.length := by
  rw [kidAt_eq_join] at h
  by_contra hge
  rw [List.get?_eq_getElem?, List.getElem?_eq_none (by omega)] at h
  simp [Option.join] at h

theorem kidAt_set_same {cs : List (Option Bnode)} {j : Nat} (hj : j < cs.length)
    (c : Option Bnode) : kidAt (cs.set j c) j = c.join := by
  rw [kidAt_eq_join, List.get?_eq_getElem?, List.getElem?_set_self (by simpa using hj)]
  cases c <;> simp

theorem kidAt_set_ne {cs : List (Option Bnode)} {i j : Nat} (hij : i ≠ j)
    (c : Option Bnode) : kidAt (cs.set i c) j = kidAt cs j := by
  rw [kidAt_eq_join, kidAt_eq_join, List.get?_eq_getElem?, List.get?_eq_getElem?,
    List.getElem?_set_ne hij]

theorem nodeAtKids_eq (cs : List (Option Bnode)) (j : Nat) (p : List Nat) :
    nodeAtKids cs j p = (kidAt cs j).bind (fun c => nodeAt c p) := by
  induction cs generalizing j with
  | nil => simp [nodeAtKids, kidAt]
  | cons c cs ih =>
    cases j with
    | zero => cases c <;> simp [nodeAtKids, kidAt]
    | succ j => simpa [nodeAtKids, kidAt] using ih j

theorem nodeAt_nil (n : Bnode) : nodeAt n [] = some n := by
  cases n; simp [nodeAt]

theorem nodeAt_cons (n : Bnode) (j : Nat) (p : List Nat) :
    nodeAt n (j :: p) = (childAt n j).bind (fun c => nodeAt c p) := by
  cases n
  rw [nodeAt, nodeAtKids_eq]
  rfl

theorem nodeAt_append (n : Bnode) (p q : List Nat) :
    nodeAt n (p ++ q) = (nodeAt n p).bind (fun m => nodeAt m q) := by
  induction p generalizing n with
  | nil => simp [nodeAt_nil]
  | cons j p ih =>
    rw [List.cons_append, nodeAt_cons, nodeAt_cons]
    cases childAt n j with
    | none => simp
    | some c => simpa using ih c

theorem nodeAt_of_append_some {n : Bnode} {p q : List Nat} {m : Bnode}
    (h : nodeAt n (p ++ q) = some m) : ∃ m2, nodeAt n p = some m2 ∧ nodeAt m2 q = some m := by
  rw [nodeAt_append] at h
  cases hp : nodeAt n p with
  | none => rw [hp] at h; simp at h
  | some m2 => rw [hp] at h; exact ⟨m2, rfl, by simpa using h⟩

theorem derefAt_nat (root : Bnode) (p : List Nat) (d : Nat) :
    derefAt root p (d : Int) = (nodeAt root p).bind (fun n => n.vals.get? d) := by
  unfold derefAt
  cases nodeAt root p with
  | none => simp
  | some n =>
    simp only [Option.bind_some]
    rw [if_neg (by omega)]
    congr 1

/-! Facts about the in-order enumeration of well-formed nodes. -/

theorem inB_weaken_lo {lo hi : Option Int} {v x : Int} (h : inB (some v) hi x)
    (hv : ∀ l, lo = some l → l < v) : inB lo hi x := by
  obtain ⟨h1, h2⟩ := h
  refine ⟨fun l hl => ?_, h2⟩
  have := hv l hl
  have := h1 v rfl
  omega

theorem inB_weaken_hi {lo hi : Option Int} {v x : Int} (h : inB lo (some v) x)
    (hv : ∀ w, hi = some w → v < w) : inB lo hi x := by
  obtain ⟨h1, h2⟩ := h
  refine ⟨h1, fun w hw => ?_⟩
  have := hv w hw
  have := h2 v rfl
  omega

theorem slotLo_succ (lo : Option Int) (v : Int) (vs : List Int) (j : Nat) :
    slotLo lo (v :: vs) (j + 1) = slotLo (some v) vs j := by
  unfold slotLo
  cases j <;> simp

theorem slotHi_succ (hi : Option Int) (v : Int) (vs : List Int) (j : Nat) :
    slotHi hi (v :: vs) (j + 1) = slotHi hi vs j := by
  unfold slotHi
  by_cases h : j < vs.length
  · rw [if_pos (by simpa using h), if_pos h]
    simp
  · rw [if_neg (by simpa using h), if_neg h]

theorem inorderAux_ne {vs : List Int} (cs : List (Option Bnode)) (h : vs ≠ []) :
    inorderAux vs cs ≠ [] := by
  cases vs with
  | nil => exact absurd rfl h
  | cons v vs =>
    cases cs with
    | nil => simp [inorderAux]
    | cons c cs => simp [inorderAux]

theorem mem_inorderAux {x : Int} (vs : List Int) (cs : List (Option Bnode)) :
    x ∈ inorderAux vs cs ↔
      x ∈ vs ∨ ∃ j c, j ≤ vs.length ∧ kidAt cs j = some c ∧ x ∈ inorderN c := by
  induction vs generalizing cs with
  | nil =>
    cases cs with
    | nil => simp [inorderAux, kidAt]
    | cons c cs =>
      simp only [inorderAux, List.not_mem_nil, false_or]
      constructor
      · intro h
        cases c with
        | none => simp [inorderOpt] at h
        | some b => exact ⟨0, b, le_rfl, rfl, by simpa [inorderOpt] using h⟩
      · rintro ⟨j, c2, hj, hk, hx⟩
        have : j = 0 := by simpa using hj
        subst this
        cases c with
        | none => simp [kidAt] at hk
        | some b =>
          simp only [kidAt] at hk
          cases hk
          simpa [inorderOpt] using hx
  | cons v vs ih =>
    cases cs with
    | nil =>
      simp only [inorderAux, List.mem_cons]
      rw [ih]
      constructor
      · rintro (rfl | h | ⟨j, c, hj, hk, hx⟩)
        · exact Or.inl (by simp)
        · exact Or.inl (by simp [h])
        · simp [kidAt] at hk
      · rintro (h | ⟨j, c, hj, hk, hx⟩)
        · rcases h with rfl | h
          · exact Or.inl rfl
          · exact Or.inr (Or.inl h)
        · simp [kidAt] at hk
    | cons c cs =>
      simp only [inorderAux, List.mem_append, List.mem_cons]
      rw [ih]
      constructor
      · rintro (hc | rfl | h | ⟨j, c2, hj, hk, hx⟩)
        · cases c with
          | none => simp [inorderOpt] at hc
          | some b =>
            exact Or.inr ⟨0, b, by simp, rfl, by simpa [inorderOpt] using hc⟩
        · exact Or.inl (by simp)
        · exact Or.inl (by simp [h])
        · exact Or.inr ⟨j + 1, c2, by simp; omega, by simpa [kidAt] using hk, hx⟩
      · rintro (h | ⟨j, c2, hj, hk, hx⟩)
        · rcases h with rfl | h
          · exact Or.inr (Or.inl rfl)
          · exact Or.inr (Or.inr (Or.inl h))
        · cases j with
          | zero =>
            cases c with
            | none => simp [kidAt] at hk
            | some b =>
              simp only [kidAt] at hk
              cases hk
              exact Or.inl (by simpa [inorderOpt] using hx)
          | succ j =>
            refine Or.inr (Or.inr (Or.inr ⟨j, c2, ?_, by simpa [kidAt] using hk, hx⟩))
            simp at hj
            omega

theorem mem_inorderN {x : Int} (vs : List Int) (cs : List (Option Bnode)) :
    x ∈ inorderN (.mk vs cs) ↔
      x ∈ vs ∨ ∃ j c, j ≤ vs.length ∧ kidAt cs j = some c ∧ x ∈ inorderN c := by
  rw [inorderN]
  exact mem_inorderAux vs cs

theorem inorderAux_sorted (lo hi : Option Int) (vs : List Int) (cs : List (Option Bnode))
    (hsort : List.Chain' (· < ·) vs)
    (hbd : ∀ x ∈ vs, inB lo hi x)
    (hch : ∀ j c, kidAt cs j = some c → j ≤ vs.length ∧
        List.Chain' (· < ·) (inorderN c) ∧
        ∀ x ∈ inorderN c, inB (slotLo lo vs j) (slotHi hi vs j) x) :
    List.Chain' (· < ·) (inorderAux vs cs) ∧ ∀ x ∈ inorderAux vs cs, inB lo hi x := by
  induction vs generalizing cs lo with
  | nil =>
    cases cs with
    | nil => simp [inorderAux]
    | cons c cs =>
      rw [inorderAux]
      cases c with
      | none => simp [inorderOpt]
      | some b =>
        have := hch 0 b rfl
        simp only [inorderOpt]
        exact ⟨this.2.1, fun x hx => by simpa [slotLo, slotHi] using this.2.2 x hx⟩
  | cons v vs ih =>
    have hvbd : inB lo hi v := hbd v (by simp)
    have htail : List.Chain' (· < ·) (v :: inorderAux vs (cs.drop 1)) ∧
        ∀ x ∈ v :: inorderAux vs (cs.drop 1), inB lo hi x := by
      have hrec := ih (some v) (cs.drop 1) (List.Chain'.tail hsort)
        (fun x hx => by
          refine ⟨fun l hl => ?_, (hbd x (by simp [hx])).2⟩
          cases hl
          rcases List.chain'_cons'.mp hsort with ⟨hhd, -⟩
          have : List.Chain' (· < ·) (v :: vs) := hsort
          rw [List.chain'_iff_pairwise] at this
          rcases this with _ | ⟨hall, -⟩
          exact hall x hx)
        (fun j c hk => by
          have hk2 : kidAt cs (j + 1) = some c := by
            cases cs with
            | nil => simp [kidAt] at hk
            | cons c0 cs => simpa [kidAt] using hk
          obtain ⟨hj, hc1, hc2⟩ := hch (j + 1) c hk2
          refine ⟨by simpa using hj, hc1, fun x hx => ?_⟩
          have := hc2 x hx
          rwa [slotLo_succ, slotHi_succ] at this)
      refine ⟨List.chain'_cons'.mpr ⟨fun y hy => ?_, hrec.1⟩, fun x hx => ?_⟩
      · have hym := List.mem_of_mem_head? hy
        exact (hrec.2 y hym).1 v rfl
      · rcases List.mem_cons.mp hx with rfl | hx
        · exact hvbd
        · exact inB_weaken_lo (hrec.2 x hx) (fun l hl => (hvbd.1 l hl))
    cases cs with
    | nil =>
      rw [inorderAux]
      simpa using htail
    | cons c cs2 =>
      rw [inorderAux]
      have hcpart : List.Chain' (· < ·) (inorderOpt c) ∧
          ∀ x ∈ inorderOpt c, inB lo (some v) x := by
        cases c with
        | none => simp [inorderOpt]
        | some b =>
          have := hch 0 b rfl
          simp only [inorderOpt]
          refine ⟨this.2.1, fun x hx => ?_⟩
          have h2 := this.2.2 x hx
          rwa [show slotLo lo (v :: vs) 0 = lo by simp [slotLo],
               show slotHi hi (v :: vs) 0 = some v by simp [slotHi]] at h2
      rw [List.chain'_append]
      refine ⟨⟨hcpart.1, (by simpa using htail.1), fun y hy z hz => ?_⟩, fun x hx => ?_⟩
      · have hym := List.mem_of_mem_head? (by exact hz)
        have hz2 : z = v := by
          simp only [List.head?_cons] at hz
          cases hz
          rfl
        rw [hz2]
        exact (hcpart.2 y (List.mem_of_mem_getLast? hy)).2 v rfl
      · rcases List.mem_append.mp hx with hx | hx
        · exact inB_weaken_hi (hcpart.2 x hx) (fun w hw => (hvbd.2 w hw))
        · exact htail.2 x (by simpa using hx)

theorem wf_inorder {M : Nat} {lo hi : Option Int} {n : Bnode} (h : WF M lo hi n) :
    List.Chain' (· < ·) (inorderN n) ∧ (∀ x ∈ inorderN n, inB lo hi x) ∧ inorderN n ≠ [] := by
  induction h with
  | mk hsort hbd hlen hk hne hfull hsl hch ih =>
    rename_i lo hi vs cs
    have := inorderAux_sorted lo hi vs cs hsort hbd
      (fun j c hk2 => ⟨hsl j c hk2, (ih j c hk2).1, (ih j c hk2).2.1⟩)
    rw [inorderN]
    exact ⟨this.1, this.2, inorderAux_ne cs hne⟩

theorem lowerB_slot {M : Nat} {lo hi : Option Int} {vs : List Int}
    {cs : List (Option Bnode)} (h : WF M lo hi (.mk vs cs))
    {j : Nat} {c : Bnode} (hk : kidAt cs j = some c) {x : Int} (hx : x ∈ inorderN c) :
    lowerB vs x = j ∧ x ∉ vs := by
  cases h with
  | mk hsort hbd hlen hk2 hne hfull hsl hch =>
    have hj : j ≤ vs.length := hsl j c hk
    have hwfc := hch j c hk
    have hbx := (wf_inorder hwfc).2.1 x hx
    have hlb : lowerB vs x = j := by
      refine lowerB_of_between hsort hj ?_ ?_
      · intro w hw hj1
        have := hbx.1 w
        rw [slotLo, if_neg (by omega)] at this
        exact this hw
      · intro w hw
        have hjlen : j < vs.length := by
          rw [List.get?_eq_some] at hw
          obtain ⟨h1, -⟩ := hw
          exact h1
        have := hbx.2 w
        rw [slotHi, if_pos hjlen] at this
        exact this hw
    refine ⟨hlb, fun hmem => ?_⟩
    obtain ⟨hget, hlt⟩ := lowerB_of_mem hsort hmem
    rw [hlb] at hget hlt
    have := hbx.2 x
    rw [slotHi, if_pos hlt] at this
    exact absurd (this hget) (lt_irrefl x)

theorem findKids_eq (e : Int) (j : Nat) (cs : List (Option Bnode)) :
    findKids e j cs = (kidAt cs j).bind (fun c => findDesc e c) := by
  induction cs generalizing j with
  | nil => simp [findKids, kidAt]
  | cons c cs ih =>
    cases j with
    | zero => cases c <;> simp [findKids, kidAt]
    | succ j => simpa [findKids, kidAt] using ih j

theorem findMaxKids_eq (j : Nat) (cs : List (Option Bnode)) :
    findMaxKids j cs = (kidAt cs j).map (fun c => findMaxN c) := by
  induction cs generalizing j with
  | nil => simp [findMaxKids, kidAt]
  | cons c cs ih =>
    cases j with
    | zero => cases c <;> simp [findMaxKids, kidAt]
    | succ j => simpa [findMaxKids, kidAt] using ih j

theorem findDesc_mem {M : Nat} {lo hi : Option Int} {n : Bnode} (h : WF M lo hi n)
    (e : Int) :
    (e ∈ inorderN n → ∃ p d, findDesc e n = some (p, d) ∧
        (nodeAt n p).bind (fun m => m.vals.get? d) = some e) ∧
    (e ∉ inorderN n → findDesc e n = none) := by
  induction h with
  | mk hsort hbd hlen hk hne hfull hsl hch ih =>
    rename_i lo hi vs cs
    by_cases hhit : lowerB vs e < vs.length ∧ vs.get? (lowerB vs e) = some e
    · have hmem : e ∈ inorderN (.mk vs cs) := by
        rw [mem_inorderN]
        refine Or.inl ?_
        rw [List.get?_eq_some] at hhit
        obtain ⟨-, ⟨hl, hg⟩⟩ := hhit
        exact hg ▸ List.get_mem vs _ hl
      constructor
      · intro
        refine ⟨[], lowerB vs e, ?_, ?_⟩
        · rw [findDesc, if_pos hhit]
        · rw [nodeAt_nil]
          exact hhit.2
      · intro hnot
        exact absurd hmem hnot
    · have hnotvs : e ∉ vs := by
        intro hmem
        exact hhit ⟨(lowerB_of_mem hsort hmem).2, (lowerB_of_mem hsort hmem).1⟩
      have hunf : findDesc e (.mk vs cs) =
          (kidAt cs (lowerB vs e)).bind (fun c =>
            (findDesc e c).map (fun r => (lowerB vs e :: r.1, r.2))) := by
        rw [findDesc, if_neg hhit, findKids_eq]
        cases kidAt cs (lowerB vs e) with
        | none => simp
        | some c =>
          simp only [Option.some_bind]
          cases findDesc e c <;> simp
      cases hkid : kidAt cs (lowerB vs e) with
      | none =>
        have hnotmem : e ∉ inorderN (.mk vs cs) := by
          rw [mem_inorderN]
          rintro (hvs | ⟨j2, c2, hj2, hk2, hx2⟩)
          · exact hnotvs hvs
          · have := (lowerB_slot (WF.mk hsort hbd hlen hk hne hfull hsl hch) hk2 hx2).1
            rw [this] at hkid
            rw [hkid] at hk2
            cases hk2
        refine ⟨fun hmem => absurd hmem hnotmem, fun _ => ?_⟩
        rw [hunf, hkid]
        rfl
      | some c =>
        have hwfall := WF.mk hsort hbd hlen hk hne hfull hsl hch
        have hccase : e ∈ inorderN (.mk vs cs) ↔ e ∈ inorderN c := by
          rw [mem_inorderN]
          constructor
          · rintro (hvs | ⟨j2, c2, hj2, hk2, hx2⟩)
            · exact absurd hvs hnotvs
            · have := (lowerB_slot hwfall hk2 hx2).1
              rw [this] at hkid
              rw [hkid] at hk2
              cases hk2
              exact hx2
          · intro hc
            exact Or.inr ⟨lowerB vs e, c, hsl _ c hkid, hkid, hc⟩
        obtain ⟨ih1, ih2⟩ := ih (lowerB vs e) c hkid
        constructor
        · intro hmem
          obtain ⟨p, d, hfd, hder⟩ := ih1 (hccase.mp hmem)
          refine ⟨lowerB vs e :: p, d, ?_, ?_⟩
          · rw [hunf, hkid, Option.some_bind, hfd]
            rfl
          · rw [nodeAt_cons]
            have hca : childAt (Bnode.mk vs cs) (lowerB vs e) = some c := hkid
            rw [hca, Option.some_bind]
            exact hder
        · intro hnotmem
          rw [hunf, hkid, Option.some_bind, ih2 (fun hc => hnotmem (hccase.mpr hc))]
          rfl

/-! The findMin and findMax positions are the first and last in-order
positions of a well-formed tree. -/

theorem findMinN_eq (vs : List Int) (cs : List (Option Bnode)) :
    findMinN (.mk vs cs) = match kidAt cs 0 with
      | some c => ((findMinN c).1, 0 :: (findMinN c).2)
      | none => (0, []) := by
  cases cs with
  | nil => simp [findMinN, kidAt]
  | cons c cs => cases c <;> simp [findMinN, kidAt]

theorem findMaxN_eq (vs : List Int) (cs : List (Option Bnode)) :
    findMaxN (.mk vs cs) = match kidAt cs vs.length with
      | some c => ((findMaxN c).1, vs.length :: (findMaxN c).2)
      | none => ((vs.length : Int) - 1, []) := by
  rw [findMaxN, findMaxKids_eq]
  cases kidAt cs vs.length <;> simp

theorem getLast?_cons_ne {v : Int} {L : List Int} (h : L ≠ []) :
    (v :: L).getLast? = L.getLast? := by
  rw [List.getLast?_cons]
  cases hL : L.getLast? with
  | none => exact absurd (List.getLast?_eq_none_iff.mp hL) h
  | some a => simp


theorem inorderAux_nil (cs : List (Option Bnode)) :
    inorderAux [] cs = match kidAt cs 0 with
      | some c => inorderN c
      | none => [] := by
  cases cs with
  | nil => simp [inorderAux, kidAt]
  | cons c cs2 => cases c <;> simp [inorderAux, kidAt, inorderOpt]

theorem inorderAux_cons (v : Int) (vs : List Int) (cs : List (Option Bnode)) :
    inorderAux (v :: vs) cs =
      (match kidAt cs 0 with | some c => inorderN c | none => [])
        ++ v :: inorderAux vs (cs.drop 1) := by
  cases cs with
  | nil => simp [inorderAux, kidAt]
  | cons c cs2 => cases c <;> simp [inorderAux, kidAt, inorderOpt]

theorem kidAt_succ_drop (cs : List (Option Bnode)) (j : Nat) :
    kidAt cs (j + 1) = kidAt (cs.drop 1) j := by
  cases cs with
  | nil => simp [kidAt]
  | cons c cs2 => simp [kidAt]

theorem inorderAux_head (vs : List Int) (cs : List (Option Bnode)) (hne : vs ≠ [])
    (hk : ∀ c, kidAt cs 0 = some c → inorderN c ≠ []) :
    (inorderAux vs cs).head? = match kidAt cs 0 with
      | some c => (inorderN c).head?
      | none => vs.head? := by
  cases vs with
  | nil => exact absurd rfl hne
  | cons v vs2 =>
    rw [inorderAux_cons]
    cases hk0 : kidAt cs 0 with
    | none => simp
    | some c =>
      rw [List.head?_append, List.head?_eq_head (hk c hk0)]
      exact (List.head?_eq_head (hk c hk0)).symm

theorem inorderAux_getLast (vs : List Int) (cs : List (Option Bnode)) (hne : vs ≠ [])
    (hk : ∀ c, kidAt cs vs.length = some c → inorderN c ≠ []) :
    (inorderAux vs cs).getLast? = match kidAt cs vs.length with
      | some c => (inorderN c).getLast?
      | none => vs.getLast? := by
  induction vs generalizing cs with
  | nil => exact absurd rfl hne
  | cons v vs2 ih =>
    rw [inorderAux_cons]
    cases vs2 with
    | nil =>
      rw [inorderAux_nil]
      have h1 : kidAt cs (List.length [v]) = kidAt (List.drop 1 cs) 0 := by
        simp only [List.length_cons, List.length_nil]
        exact kidAt_succ_drop cs 0
      rw [h1]
      cases hk1 : kidAt (List.drop 1 cs) 0 with
      | some c2 =>
        have hc2 : inorderN c2 ≠ [] := hk c2 (by rw [h1]; exact hk1)
        rw [List.getLast?_append, getLast?_cons_ne hc2]
        cases hg : (inorderN c2).getLast? with
        | none => exact absurd (List.getLast?_eq_none_iff.mp hg) hc2
        | some a => simp [hg]
      | none =>
        rw [List.getLast?_append]
        simp
    | cons w vs3 =>
      have hkk2 : kidAt cs ((v :: w :: vs3).length) = kidAt (List.drop 1 cs) ((w :: vs3).length) := by
        simp only [List.length_cons]
        exact kidAt_succ_drop cs _
      have htne : inorderAux (w :: vs3) (List.drop 1 cs) ≠ [] := inorderAux_ne _ (by simp)
      rw [List.getLast?_append, getLast?_cons_ne htne]
      rw [ih (List.drop 1 cs) (by simp) (fun c2 hc2 => hk c2 (by rw [hkk2]; exact hc2))]
      rw [hkk2]
      cases hk2c : kidAt (List.drop 1 cs) ((w :: vs3).length) with
      | some c2 =>
        have hc2ne : inorderN c2 ≠ [] := hk c2 (by rw [hkk2]; exact hk2c)
        cases hg : (inorderN c2).getLast? with
        | none => exact absurd (List.getLast?_eq_none_iff.mp hg) hc2ne
        | some a => simp [hg]
      | none =>
        have ha : ∃ a, (w :: vs3).getLast? = some a := by
          cases hg : (w :: vs3).getLast? with
          | none => exact absurd (List.getLast?_eq_none_iff.mp hg) (by simp)
          | some a => exact ⟨a, rfl⟩
        obtain ⟨a, ha⟩ := ha
        rw [ha, show (v :: w :: vs3).getLast? = (w :: vs3).getLast? from
          getLast?_cons_ne (by simp), ha]
        rfl

theorem findMinN_fst (n : Bnode) : (findMinN n).1 = 0 := by
  induction n using findMinN.induct <;> simp_all [findMinN]

theorem minpos {M : Nat} {lo hi : Option Int} {n : Bnode} (h : WF M lo hi n) :
    ∃ mn, (inorderN n).head? = some mn ∧
      findDesc mn n = some ((findMinN n).2, 0) ∧
      (nodeAt n (findMinN n).2).bind (fun m => m.vals.get? 0) = some mn := by
  induction h with
  | mk hsort hbd hlen hk hne hfull hsl hch ih =>
    rename_i lo hi vs cs
    have hwfall := WF.mk hsort hbd hlen hk hne hfull hsl hch
    rw [inorderN, inorderAux_head vs cs hne (fun c hc => (wf_inorder (hch 0 c hc)).2.2),
      findMinN_eq]
    cases hk0 : kidAt cs 0 with
    | none =>
      cases vs with
      | nil => exact absurd rfl hne
      | cons v vs2 =>
        have hhit : lowerB (v :: vs2) v < (v :: vs2).length ∧
            (v :: vs2).get? (lowerB (v :: vs2) v) = some v := by
          have hlb : lowerB (v :: vs2) v = 0 := by simp [lowerB]
          rw [hlb]
          simp
        refine ⟨v, by simp, ?_, ?_⟩
        · rw [findDesc, if_pos hhit]
          have hlb : lowerB (v :: vs2) v = 0 := by simp [lowerB]
          rw [hlb]
        · rw [nodeAt_nil, Option.some_bind]
          rfl
    | some c =>
      obtain ⟨mn, hhd, hfd, hder⟩ := ih 0 c hk0
      have hmn_mem : mn ∈ inorderN c :=
        List.mem_of_mem_head? (by rw [hhd]; rfl)
      have hslot := lowerB_slot hwfall hk0 hmn_mem
      have hnohit : ¬(lowerB vs mn < vs.length ∧ vs.get? (lowerB vs mn) = some mn) := by
        rintro ⟨-, hg⟩
        rw [List.get?_eq_some] at hg
        obtain ⟨hh, hg⟩ := hg
        exact hslot.2 (hg ▸ List.get_mem _ _ _)
      refine ⟨mn, hhd, ?_, ?_⟩
      · rw [findDesc, if_neg hnohit, findKids_eq, hslot.1, hk0, Option.some_bind, hfd]
      · rw [nodeAt_cons, show childAt (Bnode.mk vs cs) 0 = some c from hk0,
          Option.some_bind]
        exact hder

theorem maxpos {M : Nat} {lo hi : Option Int} {n : Bnode} (h : WF M lo hi n) :
    ∃ mx, (inorderN n).getLast? = some mx ∧ 0 ≤ (findMaxN n).1 ∧
      findDesc mx n = some ((findMaxN n).2, (findMaxN n).1.toNat) ∧
      (nodeAt n (findMaxN n).2).bind
        (fun m => m.vals.get? (findMaxN n).1.toNat) = some mx := by
  induction h with
  | mk hsort hbd hlen hk hne hfull hsl hch ih =>
    rename_i lo hi vs cs
    have hwfall := WF.mk hsort hbd hlen hk hne hfull hsl hch
    have hlpos : 0 < vs.length := List.length_pos.mpr hne
    rw [inorderN, inorderAux_getLast vs cs hne
      (fun c hc => (wf_inorder (hch _ c hc)).2.2), findMaxN_eq]
    cases hkk : kidAt cs vs.length with
    | none =>
      obtain ⟨mx, hg⟩ : ∃ a, vs.getLast? = some a := by
        cases hgg : vs.getLast? with
        | none => exact absurd (List.getLast?_eq_none_iff.mp hgg) hne
        | some a => exact ⟨a, rfl⟩
      have hmem : mx ∈ vs := List.mem_of_mem_getLast? (by rw [hg]; rfl)
      have hgl : vs.get? (vs.length - 1) = some mx := by
        rw [List.get?_eq_getElem?, ← List.getLast?_eq_getElem?]
        exact hg
      have hlb : lowerB vs mx = vs.length - 1 := by
        obtain ⟨hgmem, hlt⟩ := lowerB_of_mem hsort hmem
        rcases Nat.lt_or_ge (lowerB vs mx) (vs.length - 1) with hlt2 | hge
        · have := chain'_lt_get hsort hlt2 hgmem hgl
          omega
        · omega
      have hidx : (((vs.length : Int)) - 1).toNat = vs.length - 1 := by omega
      refine ⟨mx, hg, by show (0:Int) ≤ (vs.length : Int) - 1; omega, ?_, ?_⟩
      · rw [findDesc, if_pos ⟨by omega, by rw [hlb]; exact hgl⟩, hlb, hidx]
      · rw [nodeAt_nil, Option.some_bind, hidx]
        exact hgl
    | some c =>
      obtain ⟨mx, hlast, hpos, hfd, hder⟩ := ih vs.length c hkk
      have hmx_mem : mx ∈ inorderN c :=
        List.mem_of_mem_getLast? (by rw [hlast]; rfl)
      have hslot := lowerB_slot hwfall hkk hmx_mem
      have hnohit : ¬(lowerB vs mx < vs.length ∧ vs.get? (lowerB vs mx) = some mx) := by
        rw [hslot.1]
        rintro ⟨h1, -⟩
        exact lt_irrefl _ h1
      refine ⟨mx, hlast, hpos, ?_, ?_⟩
      · rw [findDesc, if_neg hnohit, findKids_eq, hslot.1, hkk, Option.some_bind, hfd]
      · rw [nodeAt_cons, show childAt (Bnode.mk vs cs) vs.length = some c from hkk,
          Option.some_bind]
        exact hder

/-! Successor and predecessor search on sorted lists. -/

theorem find?_succ_some {L : List Int} (hs : List.Chain' (· < ·) L) (u v : Int) :
    L.find? (fun w => u < w) = some v ↔
      v ∈ L ∧ u < v ∧ ∀ w ∈ L, u < w → v ≤ w := by
  induction L with
  | nil => simp
  | cons a L ih =>
    have hpw : ∀ w ∈ L, a < w := by
      have := List.chain'_iff_pairwise.mp hs
      rcases this with _ | ⟨hall, -⟩
      exact hall
    by_cases hua : u < a
    · simp only [List.find?_cons, show decide (u < a) = true by simpa using hua]
      constructor
      · rintro h
        cases h
        refine ⟨by simp, hua, ?_⟩
        rintro w hw -
        rcases List.mem_cons.mp hw with rfl | hw
        · exact le_rfl
        · exact le_of_lt (hpw w hw)
      · rintro ⟨hmem, huv, hmin⟩
        rcases List.mem_cons.mp hmem with rfl | hmem
        · rfl
        · have h1 := hmin a (by simp) hua
          have h2 := hpw v hmem
          omega
    · simp only [List.find?_cons, show decide (u < a) = false by simpa using hua]
      rw [ih (List.Chain'.tail hs)]
      constructor
      · rintro ⟨hmem, huv, hmin⟩
        refine ⟨by simp [hmem], huv, ?_⟩
        rintro w hw huw
        rcases List.mem_cons.mp hw with rfl | hw
        · exact absurd huw hua
        · exact hmin w hw huw
      · rintro ⟨hmem, huv, hmin⟩
        rcases List.mem_cons.mp hmem with rfl | hmem
        · exact absurd huv hua
        · exact ⟨hmem, huv, fun w hw huw => hmin w (by simp [hw]) huw⟩

theorem find?_succ_none {L : List Int} (u : Int) :
    L.find? (fun w => u < w) = none ↔ ∀ w ∈ L, w ≤ u := by
  rw [List.find?_eq_none]
  constructor
  · intro h w hw
    have := h w hw
    simpa using this
  · intro h w hw
    simpa using h w hw

theorem find?_pred_some {L : List Int} (hs : List.Chain' (fun a b => b < a) L) (u v : Int) :
    L.find? (fun w => w < u) = some v ↔
      v ∈ L ∧ v < u ∧ ∀ w ∈ L, w < u → w ≤ v := by
  induction L with
  | nil => simp
  | cons a L ih =>
    have hpw : ∀ w ∈ L, w < a := by
      have := List.chain'_iff_pairwise.mp hs
      rcases this with _ | ⟨hall, -⟩
      exact hall
    by_cases hua : a < u
    · simp only [List.find?_cons, show decide (a < u) = true by simpa using hua]
      constructor
      · rintro h
        cases h
        refine ⟨by simp, hua, ?_⟩
        rintro w hw -
        rcases List.mem_cons.mp hw with rfl | hw
        · exact le_rfl
        · exact le_of_lt (hpw w hw)
      · rintro ⟨hmem, huv, hmin⟩
        rcases List.mem_cons.mp hmem with rfl | hmem
        · rfl
        · have h1 := hmin a (by simp) hua
          have h2 := hpw v hmem
          omega
    · simp only [List.find?_cons, show decide (a < u) = false by simpa using hua]
      rw [ih (List.Chain'.tail hs)]
      constructor
      · rintro ⟨hmem, huv, hmin⟩
        refine ⟨by simp [hmem], huv, ?_⟩
        rintro w hw huw
        rcases List.mem_cons.mp hw with rfl | hw
        · exact absurd huw hua
        · exact hmin w hw huw
      · rintro ⟨hmem, huv, hmin⟩
        rcases List.mem_cons.mp hmem with rfl | hmem
        · exact absurd huv hua
        · exact ⟨hmem, huv, fun w hw huw => hmin w (by simp [hw]) huw⟩

theorem find?_pred_none {L : List Int} (u : Int) :
    L.find? (fun w => w < u) = none ↔ ∀ w ∈ L, u ≤ w := by
  rw [List.find?_eq_none]
  constructor
  · intro h w hw
    have := h w hw
    simp at this
    omega
  · intro h w hw
    have := h w hw
    simp
    omega

/-! Lifting the iterator movement from a child subtree to its parent:
the model analogue of walking one parent pointer. -/

theorem nodeAt_dropLast_isSome {c : Bnode} {p : List Nat}
    (h : (nodeAt c p).isSome) : (nodeAt c p.dropLast).isSome := by
  by_cases hp : p = []
  · subst hp
    simp [nodeAt_nil]
  · have hsplit := List.dropLast_append_getLast hp
    have h2 : nodeAt c p = (nodeAt c p.dropLast).bind
        (fun m => nodeAt m [p.getLast hp]) := by
      conv_lhs => rw [← hsplit]
      rw [nodeAt_append]
    rw [h2] at h
    cases hd : nodeAt c p.dropLast with
    | none => rw [hd] at h; simp at h
    | some m => simp

theorem derefAt_cons {vs : List Int} {cs : List (Option Bnode)} {i : Nat} {c : Bnode}
    (hk : kidAt cs i = some c) (p : List Nat) (idx : Int) :
    derefAt (.mk vs cs) (i :: p) idx = derefAt c p idx := by
  unfold derefAt
  rw [nodeAt_cons, show childAt (Bnode.mk vs cs) i = some c from hk, Option.some_bind]

theorem ascendI_ne_nil (root : Bnode) (v : Int) {p : List Nat} (hp : p ≠ []) :
    ascendI root v p =
      (match nodeAt root p.dropLast with
       | none => ⟨p, 0, true⟩
       | some parent =>
         if lowerB parent.vals v < parent.vals.length
         then ⟨p.dropLast, (lowerB parent.vals v : Int), false⟩
         else ascendI root v p.dropLast) := by
  cases p with
  | nil => exact absurd rfl hp
  | cons i q => rw [ascendI]

theorem ascendI_child {vs : List Int} {cs : List (Option Bnode)} {i : Nat} {c : Bnode}
    (hk : kidAt cs i = some c) (v : Int) (p : List Nat)
    (hval : (nodeAt c p).isSome) :
    ascendI (.mk vs cs) v (i :: p) =
      if (ascendI c v p).endF then
        (if lowerB vs v < vs.length then ⟨[], (lowerB vs v : Int), false⟩
         else ⟨(findMaxN (.mk vs cs)).2, (findMaxN (.mk vs cs)).1, true⟩)
      else ⟨i :: (ascendI c v p).path, (ascendI c v p).idx, false⟩ := by
  induction p using List.reverseRecOn with
  | nil =>
    have h1 : ascendI c v [] = ⟨(findMaxN c).2, (findMaxN c).1, true⟩ := by rw [ascendI]
    have h2 : ascendI (.mk vs cs) v [i] =
        (if lowerB vs v < vs.length then ⟨[], (lowerB vs v : Int), false⟩
         else ascendI (.mk vs cs) v []) := by
      rw [ascendI_ne_nil _ _ (show [i] ≠ [] by simp), List.dropLast_single, nodeAt_nil]
      rfl
    rw [h1, h2,
      show ascendI (.mk vs cs) v [] =
        ⟨(findMaxN (.mk vs cs)).2, (findMaxN (.mk vs cs)).1, true⟩ from by rw [ascendI]]
    simp [Bnode.vals]
  | append_singleton q a ih =>
    have hql : (q ++ [a]).dropLast = q := by simp
    have hqval : (nodeAt c q).isSome := by
      have := nodeAt_dropLast_isSome hval
      rwa [hql] at this
    obtain ⟨m2, hm2⟩ : ∃ m2, nodeAt c q = some m2 := by
      cases hq : nodeAt c q with
      | none => rw [hq] at hqval; simp at hqval
      | some m2 => exact ⟨m2, rfl⟩
    have hdl : (i :: (q ++ [a])).dropLast = i :: q := by
      rw [← List.cons_append, List.dropLast_concat]
    have hm2b : nodeAt (.mk vs cs) (i :: q) = some m2 := by
      rw [nodeAt_cons, show childAt (Bnode.mk vs cs) i = some c from hk,
        Option.some_bind]
      exact hm2
    have hLHS : ascendI (.mk vs cs) v (i :: (q ++ [a])) =
        (if lowerB m2.vals v < m2.vals.length
         then ⟨i :: q, (lowerB m2.vals v : Int), false⟩
         else ascendI (.mk vs cs) v (i :: q)) := by
      rw [ascendI_ne_nil _ _ (show i :: (q ++ [a]) ≠ [] by simp), hdl, hm2b]
    have hRHS : ascendI c v (q ++ [a]) =
        (if lowerB m2.vals v < m2.vals.length
         then ⟨q, (lowerB m2.vals v : Int), false⟩
         else ascendI c v q) := by
      rw [ascendI_ne_nil _ _ (show q ++ [a] ≠ [] by simp), hql, hm2]
    rw [hLHS, hRHS]
    by_cases hj : lowerB m2.vals v < m2.vals.length
    · rw [if_pos hj, if_pos hj]
      simp
    · rw [if_neg hj, if_neg hj]
      exact ih hqval

theorem incrI_child {vs : List Int} {cs : List (Option Bnode)} {i : Nat} {c : Bnode}
    (hk : kidAt cs i = some c) (p : List Nat) (d : Int) {v : Int}
    (hder : derefAt c p d = some v) :
    incrI (.mk vs cs) ⟨i :: p, d, false⟩ =
      if (incrI c ⟨p, d, false⟩).endF then
        (if lowerB vs v < vs.length then ⟨[], (lowerB vs v : Int), false⟩
         else ⟨(findMaxN (.mk vs cs)).2, (findMaxN (.mk vs cs)).1, true⟩)
      else ⟨i :: (incrI c ⟨p, d, false⟩).path, (incrI c ⟨p, d, false⟩).idx, false⟩ := by
  obtain ⟨m, hm⟩ : ∃ m, nodeAt c p = some m := by
    unfold derefAt at hder
    cases hq : nodeAt c p with
    | none => rw [hq] at hder; simp at hder
    | some m => exact ⟨m, rfl⟩
  have hm2 : nodeAt (.mk vs cs) (i :: p) = some m := by
    rw [nodeAt_cons, show childAt (Bnode.mk vs cs) i = some c from hk, Option.some_bind]
    exact hm
  have hder2 : derefAt (.mk vs cs) (i :: p) d = some v := by
    rw [derefAt_cons hk]
    exact hder
  have hL0 : incrI (.mk vs cs) ⟨i :: p, d, false⟩ =
      (match childAt m (d.toNat + 1) with
       | some c2 =>
         ⟨(i :: p) ++ (d.toNat + 1) :: (findMinN c2).2, (findMinN c2).1, false⟩
       | none =>
         if d + 1 < (m.vals.length : Int) then ⟨i :: p, d + 1, false⟩
         else ascendI (.mk vs cs) v (i :: p)) := by
    simp only [incrI, hm2, hder2]
  have hR0 : incrI c ⟨p, d, false⟩ =
      (match childAt m (d.toNat + 1) with
       | some c2 => ⟨p ++ (d.toNat + 1) :: (findMinN c2).2, (findMinN c2).1, false⟩
       | none =>
         if d + 1 < (m.vals.length : Int) then ⟨p, d + 1, false⟩
         else ascendI c v p) := by
    simp only [incrI, hm, hder]
  rw [hL0, hR0]
  cases hc2 : childAt m (d.toNat + 1) with
  | some c2 => simp
  | none =>
    by_cases hlt : d + 1 < (m.vals.length : Int)
    · rw [if_pos hlt, if_pos hlt]
      simp
    · rw [if_neg hlt, if_neg hlt]
      exact ascendI_child hk v p (by rw [hm]; rfl)

/-! Small consequences of sortedness used by the successor argument. -/

theorem head_min {L : List Int} (hs : List.Chain' (· < ·) L) {mn : Int}
    (hh : L.head? = some mn) : ∀ w ∈ L, mn ≤ w := by
  intro w hw
  cases L with
  | nil => simp at hw
  | cons a L =>
    simp only [List.head?_cons] at hh
    cases hh
    rcases List.mem_cons.mp hw with rfl | hw
    · exact le_rfl
    · have := List.chain'_iff_pairwise.mp hs
      rcases this with _ | ⟨hall, -⟩
      exact le_of_lt (hall w hw)

theorem lowerB_of_get {vs : List Int} (hs : List.Chain' (· < ·) vs) {i : Nat} {x : Int}
    (hg : vs.get? i = some x) : lowerB vs x = i := by
  have hmem : x ∈ vs := by
    rw [List.get?_eq_some] at hg
    obtain ⟨hl, hg⟩ := hg
    exact hg ▸ List.get_mem _ _ _
  obtain ⟨hgl, hlt⟩ := lowerB_of_mem hs hmem
  rcases Nat.lt_trichotomy (lowerB vs x) i with hlt2 | heq | hgt2
  · have := chain'_lt_get hs hlt2 hgl hg
    omega
  · exact heq
  · have := chain'_lt_get hs hgt2 hg hgl
    omega

theorem lowerB_get_lt {vs : List Int} {e : Int} {i : Nat} {w : Int}
    (hi : i < lowerB vs e) (hg : vs.get? i = some w) : w < e := by
  refine lowerB_take_lt vs e w ?_
  rw [List.mem_take_iff_getElem]
  rw [List.get?_eq_some] at hg
  obtain ⟨hl, hg⟩ := hg
  exact ⟨i, by omega, by simpa [List.get_eq_getElem] using hg⟩

theorem vs_mono {vs : List Int} (hs : List.Chain' (· < ·) vs) {i i2 : Nat} {a b : Int}
    (hle : i ≤ i2) (ha : vs.get? i = some a) (hb : vs.get? i2 = some b) : a ≤ b := by
  rcases Nat.lt_or_ge i i2 with hlt | hge
  · exact le_of_lt (chain'_lt_get hs hlt ha hb)
  · have : i = i2 := by omega
    subst this
    rw [ha] at hb
    cases hb
    exact le_rfl

theorem wf_child_bounds {M : Nat} {lo hi : Option Int} {vs : List Int}
    {cs : List (Option Bnode)} (h : WF M lo hi (.mk vs cs)) {j : Nat} {c : Bnode}
    (hk : kidAt cs j = some c) {x : Int} (hx : x ∈ inorderN c) :
    (∀ w, vs.get? (j - 1) = some w → 1 ≤ j → w < x) ∧
    (∀ w, vs.get? j = some w → x < w) := by
  cases h with
  | mk hsort hbd hlen hk2 hne hfull hsl hch =>
    have hbx := (wf_inorder (hch j c hk)).2.1 x hx
    constructor
    · intro w hw hj1
      have := hbx.1 w
      rw [slotLo, if_neg (by omega)] at this
      exact this hw
    · intro w hw
      have hjlen : j < vs.length := by
        rw [List.get?_eq_some] at hw
        obtain ⟨h1, -⟩ := hw
        exact h1
      have := hbx.2 w
      rw [slotHi, if_pos hjlen] at this
      exact this hw

theorem wf_sorted {M : Nat} {lo hi : Option Int} {vs : List Int}
    {cs : List (Option Bnode)} (h : WF M lo hi (.mk vs cs)) :
    List.Chain' (· < ·) vs := by
  cases h with
  | mk hsort hbd hlen hk2 hne hfull hsl hch => exact hsort

theorem wf_kid {M : Nat} {lo hi : Option Int} {vs : List Int}
    {cs : List (Option Bnode)} (h : WF M lo hi (.mk vs cs)) {j : Nat} {c : Bnode}
    (hk : kidAt cs j = some c) :
    WF M (slotLo lo vs j) (slotHi hi vs j) c ∧ j ≤ vs.length := by
  cases h with
  | mk hsort hbd hlen hk2 hne hfull hsl hch => exact ⟨hch j c hk, hsl j c hk⟩

theorem get?_of_mem {vs : List Int} {w : Int} (h : w ∈ vs) :
    ∃ i, vs.get? i = some w := by
  obtain ⟨⟨i, hi⟩, hg⟩ := List.mem_iff_get.mp h
  exact ⟨i, by rw [List.get?_eq_some]; exact ⟨hi, hg⟩⟩

theorem findDesc_hit {vs : List Int} {cs : List (Option Bnode)} {i : Nat} {x : Int}
    (hsort : List.Chain' (· < ·) vs) (hg : vs.get? i = some x) :
    findDesc x (.mk vs cs) = some ([], i) := by
  have hlb := lowerB_of_get hsort hg
  have hlen : i < vs.length := by
    rw [List.get?_eq_some] at hg
    obtain ⟨h1, -⟩ := hg
    exact h1
  rw [findDesc, if_pos ⟨by omega, by rw [hlb]; exact hg⟩, hlb]

theorem findDesc_descend {M : Nat} {lo hi : Option Int} {vs : List Int}
    {cs : List (Option Bnode)} (h : WF M lo hi (.mk vs cs)) {j2 : Nat} {c : Bnode}
    {x : Int} {pv : List Nat × Nat}
    (hk : kidAt cs j2 = some c) (hx : x ∈ inorderN c) (hfdc : findDesc x c = some pv) :
    findDesc x (.mk vs cs) = some (j2 :: pv.1, pv.2) := by
  have hslot := lowerB_slot h hk hx
  have hnohit : ¬(lowerB vs x < vs.length ∧ vs.get? (lowerB vs x) = some x) := by
    rintro ⟨-, hg⟩
    rw [List.get?_eq_some] at hg
    obtain ⟨hh, hg⟩ := hg
    exact hslot.2 (hg ▸ List.get_mem _ _ _)
  rw [findDesc, if_neg hnohit, findKids_eq, hslot.1, hk, Option.some_bind, hfdc]

theorem findDesc_deref {M : Nat} {lo hi : Option Int} {n : Bnode} (h : WF M lo hi n)
    {u : Int} {pu : List Nat × Nat} (hfd : findDesc u n = some pu) :
    u ∈ inorderN n ∧ derefAt n pu.1 (pu.2 : Int) = some u := by
  have hmem : u ∈ inorderN n := by
    by_contra hno
    rw [(findDesc_mem h u).2 hno] at hfd
    cases hfd
  obtain ⟨p, d, hfd2, hder⟩ := (findDesc_mem h u).1 hmem
  rw [hfd2] at hfd
  cases hfd
  refine ⟨hmem, ?_⟩
  rw [derefAt_nat]
  exact hder

theorem findDesc_nohit_decomp {vs : List Int} {cs : List (Option Bnode)} {u : Int}
    {pu : List Nat × Nat}
    (hnohit : ¬(lowerB vs u < vs.length ∧ vs.get? (lowerB vs u) = some u))
    (hfd : findDesc u (.mk vs cs) = some pu) :
    ∃ c pu2, kidAt cs (lowerB vs u) = some c ∧ findDesc u c = some pu2 ∧
      pu = (lowerB vs u :: pu2.1, pu2.2) := by
  rw [findDesc, if_neg hnohit, findKids_eq] at hfd
  cases hkid : kidAt cs (lowerB vs u) with
  | none => rw [hkid] at hfd; simp at hfd
  | some c =>
    rw [hkid, Option.some_bind] at hfd
    cases hfdc : findDesc u c with
    | none => rw [hfdc] at hfd; simp at hfd
    | some pu2 =>
      rw [hfdc] at hfd
      cases hfd
      exact ⟨c, pu2, rfl, hfdc, rfl⟩

/-- The central step theorem for operator++: at the position found for a
value u in a well-formed tree, the increment moves to the position of
the least element greater than u, or to the end sentinel when u is the
maximum. -/
theorem incr_succ {M : Nat} {lo hi : Option Int} {n : Bnode} (h : WF M lo hi n)
    {u : Int} (pu : List Nat × Nat) (hfd : findDesc u n = some pu) :
    (∀ v, (inorderN n).find? (fun w => u < w) = some v →
      ∃ pv, findDesc v n = some pv ∧
        incrI n ⟨pu.1, (pu.2 : Int), false⟩ = ⟨pv.1, (pv.2 : Int), false⟩) ∧
    ((inorderN n).find? (fun w => u < w) = none →
      incrI n ⟨pu.1, (pu.2 : Int), false⟩ = ⟨(findMaxN n).2, (findMaxN n).1, true⟩) := by
  induction h generalizing pu with
  | mk hsort hbd hlen hk hne hfull hsl hch ih =>
    rename_i lo hi vs cs
    have hwfall := WF.mk hsort hbd hlen hk hne hfull hsl hch
    have hio : List.Chain' (· < ·) (inorderN (.mk vs cs)) := (wf_inorder hwfall).1
    by_cases hhit : lowerB vs u < vs.length ∧ vs.get? (lowerB vs u) = some u
    · -- the position of u is inside this node's value buffer
      have hpu : pu = ([], lowerB vs u) := by
        rw [findDesc, if_pos hhit] at hfd
        cases hfd
        rfl
      subst hpu
      have hderef : derefAt (.mk vs cs) [] ((lowerB vs u : Nat) : Int) = some u := by
        rw [derefAt_nat, nodeAt_nil, Option.some_bind]
        exact hhit.2
      have hL0 : incrI (.mk vs cs) ⟨[], (lowerB vs u : Int), false⟩ =
          (match kidAt cs (lowerB vs u + 1) with
           | some c2 => ⟨(lowerB vs u + 1) :: (findMinN c2).2, (findMinN c2).1, false⟩
           | none =>
             if (lowerB vs u : Int) + 1 < (vs.length : Int)
             then ⟨[], (lowerB vs u : Int) + 1, false⟩
             else ascendI (.mk vs cs) u []) := by
        simp only [incrI, nodeAt_nil, hderef, Int.toNat_ofNat, childAt, Bnode.children,
          Bnode.vals, List.nil_append]
      cases hc2 : kidAt cs (lowerB vs u + 1) with
      | some c2 =>
        -- descend to the minimum of the right-hand child subtree
        have hwfc2 := (wf_kid hwfall hc2).1
        obtain ⟨mn, hmn_head, hmn_fd, hmn_der⟩ := minpos hwfc2
        have hmn_mem : mn ∈ inorderN c2 :=
          List.mem_of_mem_head? (by rw [hmn_head]; rfl)
        have humn : u < mn := by
          refine (wf_child_bounds hwfall hc2 hmn_mem).1 u ?_ (by omega)
          simpa using hhit.2
        have hfindq : (inorderN (.mk vs cs)).find? (fun w => u < w) = some mn := by
          rw [find?_succ_some hio]
          refine ⟨?_, humn, ?_⟩
          · rw [mem_inorderN]
            exact Or.inr ⟨_, c2, hsl _ _ hc2, hc2, hmn_mem⟩
          · rintro w hw huw
            rw [mem_inorderN] at hw
            rcases hw with hwvs | ⟨j2, cc, hj2, hkk2, hwc⟩
            · obtain ⟨iw, hgw⟩ := get?_of_mem hwvs
              have hiwlen : iw < vs.length := by
                rw [List.get?_eq_some] at hgw
                obtain ⟨h1, -⟩ := hgw
                exact h1
              have hiwge : lowerB vs u + 1 ≤ iw := by
                by_contra hlt
                have hle : iw ≤ lowerB vs u := by omega
                have := vs_mono hsort hle hgw hhit.2
                omega
              obtain ⟨z, hz⟩ : ∃ z, vs.get? (lowerB vs u + 1) = some z := by
                have : lowerB vs u + 1 < vs.length := by omega
                exact ⟨vs.get ⟨_, this⟩, by rw [List.get?_eq_some]; exact ⟨this, rfl⟩⟩
              have h1 : mn < z := (wf_child_bounds hwfall hc2 hmn_mem).2 z hz
              have h2 : z ≤ w := vs_mono hsort hiwge hz hgw
              omega
            · rcases Nat.lt_trichotomy j2 (lowerB vs u + 1) with hcase | hcase | hcase
              · have hj2j : j2 ≤ lowerB vs u := by omega
                obtain ⟨z, hz⟩ : ∃ z, vs.get? j2 = some z := by
                  have : j2 < vs.length := by omega
                  exact ⟨vs.get ⟨_, this⟩, by rw [List.get?_eq_some]; exact ⟨this, rfl⟩⟩
                have h1 : w < z := (wf_child_bounds hwfall hkk2 hwc).2 z hz
                have h2 : z ≤ u := vs_mono hsort hj2j hz hhit.2
                omega
              · subst hcase
                rw [hc2] at hkk2
                cases hkk2
                exact head_min (wf_inorder hwfc2).1 hmn_head w hwc
              · have hj2len : j2 ≤ vs.length := hsl _ _ hkk2
                obtain ⟨z1, hz1⟩ : ∃ z1, vs.get? (j2 - 1) = some z1 := by
                  have : j2 - 1 < vs.length := by omega
                  exact ⟨vs.get ⟨_, this⟩, by rw [List.get?_eq_some]; exact ⟨this, rfl⟩⟩
                have h1 : z1 < w :=
                  (wf_child_bounds hwfall hkk2 hwc).1 z1 hz1 (by omega)
                obtain ⟨z0, hz0⟩ : ∃ z0, vs.get? (lowerB vs u + 1) = some z0 := by
                  have : lowerB vs u + 1 < vs.length := by omega
                  exact ⟨vs.get ⟨_, this⟩, by rw [List.get?_eq_some]; exact ⟨this, rfl⟩⟩
                have h2 : z0 ≤ z1 := vs_mono hsort (by omega) hz0 hz1
                have h3 : mn < z0 := (wf_child_bounds hwfall hc2 hmn_mem).2 z0 hz0
                omega
        constructor
        · intro v hv
          rw [hfindq] at hv
          cases hv
          refine ⟨((lowerB vs u + 1) :: (findMinN c2).2, 0), ?_, ?_⟩
          · exact findDesc_descend hwfall hc2 hmn_mem hmn_fd
          · rw [hL0, hc2]
            simp [findMinN_fst]
        · intro hnone
          rw [hfindq] at hnone
          cases hnone
      | none =>
        by_cases hlt : lowerB vs u + 1 < vs.length
        · -- step to the next value inside this node
          obtain ⟨z, hz⟩ : ∃ z, vs.get? (lowerB vs u + 1) = some z := by
            exact ⟨vs.get ⟨_, hlt⟩, by rw [List.get?_eq_some]; exact ⟨hlt, rfl⟩⟩
          have huz : u < z := chain'_lt_get hsort (by omega) hhit.2 hz
          have hfindq : (inorderN (.mk vs cs)).find? (fun w => u < w) = some z := by
            rw [find?_succ_some hio]
            refine ⟨?_, huz, ?_⟩
            · rw [mem_inorderN]
              refine Or.inl ?_
              rw [List.get?_eq_some] at hz
              obtain ⟨h1, hz⟩ := hz
              exact hz ▸ List.get_mem _ _ _
            · rintro w hw huw
              rw [mem_inorderN] at hw
              rcases hw with hwvs | ⟨j2, cc, hj2, hkk2, hwc⟩
              · obtain ⟨iw, hgw⟩ := get?_of_mem hwvs
                have hiwge : lowerB vs u + 1 ≤ iw := by
                  by_contra hlt2
                  have hle : iw ≤ lowerB vs u := by omega
                  have := vs_mono hsort hle hgw hhit.2
                  omega
                exact vs_mono hsort hiwge hz hgw
              · rcases Nat.lt_trichotomy j2 (lowerB vs u + 1) with hcase | hcase | hcase
                · have hj2j : j2 ≤ lowerB vs u := by omega
                  obtain ⟨z2, hz2⟩ : ∃ z2, vs.get? j2 = some z2 := by
                    have : j2 < vs.length := by omega
                    exact ⟨vs.get ⟨_, this⟩, by rw [List.get?_eq_some]; exact ⟨this, rfl⟩⟩
                  have h1 : w < z2 := (wf_child_bounds hwfall hkk2 hwc).2 z2 hz2
                  have h2 : z2 ≤ u := vs_mono hsort hj2j hz2 hhit.2
                  omega
                · subst hcase
                  rw [hc2] at hkk2
                  cases hkk2
                · have hj2len : j2 ≤ vs.length := hsl _ _ hkk2
                  obtain ⟨z1, hz1⟩ : ∃ z1, vs.get? (j2 - 1) = some z1 := by
                    have : j2 - 1 < vs.length := by omega
                    exact ⟨vs.get ⟨_, this⟩, by rw [List.get?_eq_some]; exact ⟨this, rfl⟩⟩
                  have h1 : z1 < w :=
                    (wf_child_bounds hwfall hkk2 hwc).1 z1 hz1 (by omega)
                  have h2 : z ≤ z1 := vs_mono hsort (by omega) hz hz1
                  omega
          constructor
          · intro v hv
            rw [hfindq] at hv
            cases hv
            refine ⟨([], lowerB vs u + 1), findDesc_hit hsort hz, ?_⟩
            rw [hL0, hc2, if_pos (by omega)]
            simp
          · intro hnone
            rw [hfindq] at hnone
            cases hnone
        · -- u is the last value of this node and there is no right child:
          -- u is the maximum of the whole subtree
          have hfindq : (inorderN (.mk vs cs)).find? (fun w => u < w) = none := by
            rw [find?_succ_none]
            intro w hw
            rw [mem_inorderN] at hw
            rcases hw with hwvs | ⟨j2, cc, hj2, hkk2, hwc⟩
            · obtain ⟨iw, hgw⟩ := get?_of_mem hwvs
              have hiwlen : iw < vs.length := by
                rw [List.get?_eq_some] at hgw
                obtain ⟨h1, -⟩ := hgw
                exact h1
              exact vs_mono hsort (by omega) hgw hhit.2
            · rcases Nat.lt_or_ge j2 (lowerB vs u + 1) with hcase | hcase
              · obtain ⟨z2, hz2⟩ : ∃ z2, vs.get? j2 = some z2 := by
                  have : j2 < vs.length := by omega
                  exact ⟨vs.get ⟨_, this⟩, by rw [List.get?_eq_some]; exact ⟨this, rfl⟩⟩
                have h1 : w < z2 := (wf_child_bounds hwfall hkk2 hwc).2 z2 hz2
                have h2 : z2 ≤ u := vs_mono hsort (by omega) hz2 hhit.2
                omega
              · have : j2 = lowerB vs u + 1 := by omega
                subst this
                rw [hc2] at hkk2
                cases hkk2
          constructor
          · intro v hv
            rw [hfindq] at hv
            cases hv
          · intro hnone
            rw [hL0, hc2, if_neg (by omega)]
            rw [ascendI]
    · -- the position of u lies below child slot (lowerB vs u)
      obtain ⟨c, pu2, hkid, hfdc, hpu⟩ := findDesc_nohit_decomp hhit hfd
      subst hpu
      dsimp only
      have hwfc := (wf_kid hwfall hkid).1
      obtain ⟨humem, huder⟩ := findDesc_deref hwfc hfdc
      have hslot := lowerB_slot hwfall hkid humem
      obtain ⟨ihs, ihn⟩ := ih _ c hkid pu2 hfdc
      have hchild := @incrI_child vs cs (lowerB vs u) c hkid pu2.1 (pu2.2 : Int) u huder
      have hlenpos : 0 < vs.length := List.length_pos.mpr hne
      cases hfq : (inorderN c).find? (fun w => u < w) with
      | some v2 =>
        obtain ⟨pv2, hfdv2, hincr⟩ := ihs v2 hfq
        obtain ⟨hv2mem, huv2, hminc⟩ :=
          (find?_succ_some (wf_inorder hwfc).1 u v2).mp hfq
        have hfindq : (inorderN (.mk vs cs)).find? (fun w => u < w) = some v2 := by
          rw [find?_succ_some hio]
          refine ⟨?_, huv2, ?_⟩
          · rw [mem_inorderN]
            exact Or.inr ⟨_, c, hsl _ _ hkid, hkid, hv2mem⟩
          · rintro w hw huw
            rw [mem_inorderN] at hw
            rcases hw with hwvs | ⟨j2, cc, hj2, hkk2, hwc⟩
            · obtain ⟨iw, hgw⟩ := get?_of_mem hwvs
              have hiwlen : iw < vs.length := by
                rw [List.get?_eq_some] at hgw
                obtain ⟨h1, -⟩ := hgw
                exact h1
              have hiwge : lowerB vs u ≤ iw := by
                by_contra hlt2
                have := lowerB_get_lt (by omega : iw < lowerB vs u) hgw
                omega
              obtain ⟨z, hz⟩ : ∃ z, vs.get? (lowerB vs u) = some z := by
                have : lowerB vs u < vs.length := by omega
                exact ⟨vs.get ⟨_, this⟩, by rw [List.get?_eq_some]; exact ⟨this, rfl⟩⟩
              have h1 : v2 < z := (wf_child_bounds hwfall hkid hv2mem).2 z hz
              have h2 : z ≤ w := vs_mono hsort hiwge hz hgw
              omega
            · rcases Nat.lt_trichotomy j2 (lowerB vs u) with hcase | hcase | hcase
              · obtain ⟨z2, hz2⟩ : ∃ z2, vs.get? j2 = some z2 := by
                  have hjl : j2 < vs.length := by
                    have := lowerB_le vs u
                    omega
                  exact ⟨vs.get ⟨_, hjl⟩, by rw [List.get?_eq_some]; exact ⟨hjl, rfl⟩⟩
                have h1 : w < z2 := (wf_child_bounds hwfall hkk2 hwc).2 z2 hz2
                have h2 : z2 < u := lowerB_get_lt hcase hz2
                omega
              · subst hcase
                rw [hkid] at hkk2
                cases hkk2
                exact hminc w hwc huw
              · have hj2len : j2 ≤ vs.length := hsl _ _ hkk2
                obtain ⟨z1, hz1⟩ : ∃ z1, vs.get? (j2 - 1) = some z1 := by
                  have : j2 - 1 < vs.length := by omega
                  exact ⟨vs.get ⟨_, this⟩, by rw [List.get?_eq_some]; exact ⟨this, rfl⟩⟩
                have h1 : z1 < w :=
                  (wf_child_bounds hwfall hkk2 hwc).1 z1 hz1 (by omega)
                obtain ⟨z0, hz0⟩ : ∃ z0, vs.get? (lowerB vs u) = some z0 := by
                  have : lowerB vs u < vs.length := by omega
                  exact ⟨vs.get ⟨_, this⟩, by rw [List.get?_eq_some]; exact ⟨this, rfl⟩⟩
                have h2 : z0 ≤ z1 := vs_mono hsort (by omega) hz0 hz1
                have h3 : v2 < z0 := (wf_child_bounds hwfall hkid hv2mem).2 z0 hz0
                omega
        constructor
        · intro v hv
          rw [hfindq] at hv
          cases hv
          refine ⟨(lowerB vs u :: pv2.1, pv2.2),
            findDesc_descend hwfall hkid hv2mem hfdv2, ?_⟩
          rw [hchild, hincr]
          simp
        · intro hnone
          rw [hfindq] at hnone
          cases hnone
      | none =>
        have hmaxc : ∀ w ∈ inorderN c, w ≤ u := (find?_succ_none u).mp hfq
        have hincr := ihn hfq
        by_cases hjlt : lowerB vs u < vs.length
        · obtain ⟨z, hz⟩ : ∃ z, vs.get? (lowerB vs u) = some z := by
            exact ⟨vs.get ⟨_, hjlt⟩, by rw [List.get?_eq_some]; exact ⟨hjlt, rfl⟩⟩
          have huz : u < z := by
            have h1 : u ≤ z := lowerB_get_ge vs u hz
            have h2 : u ≠ z := by
              intro heq
              refine hslot.2 ?_
              rw [List.get?_eq_some] at hz
              obtain ⟨hh, hz⟩ := hz
              exact heq ▸ hz ▸ List.get_mem _ _ _
            omega
          have hfindq : (inorderN (.mk vs cs)).find? (fun w => u < w) = some z := by
            rw [find?_succ_some hio]
            refine ⟨?_, huz, ?_⟩
            · rw [mem_inorderN]
              refine Or.inl ?_
              rw [List.get?_eq_some] at hz
              obtain ⟨hh, hz⟩ := hz
              exact hz ▸ List.get_mem _ _ _
            · rintro w hw huw
              rw [mem_inorderN] at hw
              rcases hw with hwvs | ⟨j2, cc, hj2, hkk2, hwc⟩
              · obtain ⟨iw, hgw⟩ := get?_of_mem hwvs
                have hiwge : lowerB vs u ≤ iw := by
                  by_contra hlt2
                  have := lowerB_get_lt (by omega : iw < lowerB vs u) hgw
                  omega
                exact vs_mono hsort hiwge hz hgw
              · rcases Nat.lt_trichotomy j2 (lowerB vs u) with hcase | hcase | hcase
                · obtain ⟨z2, hz2⟩ : ∃ z2, vs.get? j2 = some z2 := by
                    have hjl : j2 < vs.length := by omega
                    exact ⟨vs.get ⟨_, hjl⟩, by rw [List.get?_eq_some]; exact ⟨hjl, rfl⟩⟩
                  have h1 : w < z2 := (wf_child_bounds hwfall hkk2 hwc).2 z2 hz2
                  have h2 : z2 < u := lowerB_get_lt hcase hz2
                  omega
                · subst hcase
                  rw [hkid] at hkk2
                  cases hkk2
                  exact absurd huw (by have := hmaxc w hwc; omega)
                · have hj2len : j2 ≤ vs.length := hsl _ _ hkk2
                  obtain ⟨z1, hz1⟩ : ∃ z1, vs.get? (j2 - 1) = some z1 := by
                    have : j2 - 1 < vs.length := by omega
                    exact ⟨vs.get ⟨_, this⟩, by rw [List.get?_eq_some]; exact ⟨this, rfl⟩⟩
                  have h1 : z1 < w :=
                    (wf_child_bounds hwfall hkk2 hwc).1 z1 hz1 (by omega)
                  have h2 : z ≤ z1 := vs_mono hsort (by omega) hz hz1
                  omega
          constructor
          · intro v hv
            rw [hfindq] at hv
            cases hv
            refine ⟨([], lowerB vs u), findDesc_hit hsort hz, ?_⟩
            rw [hchild, hincr]
            simp only [show (⟨(findMaxN c).2, (findMaxN c).1, true⟩ : Iter).endF = true
              from rfl, if_true]
            rw [if_pos hjlt]
          · intro hnone
            rw [hfindq] at hnone
            cases hnone
        · have hfindq : (inorderN (.mk vs cs)).find? (fun w => u < w) = none := by
            rw [find?_succ_none]
            intro w hw
            rw [mem_inorderN] at hw
            rcases hw with hwvs | ⟨j2, cc, hj2, hkk2, hwc⟩
            · obtain ⟨iw, hgw⟩ := get?_of_mem hwvs
              have hiwlen : iw < vs.length := by
                rw [List.get?_eq_some] at hgw
                obtain ⟨h1, -⟩ := hgw
                exact h1
              have := lowerB_get_lt (by omega : iw < lowerB vs u) hgw
              omega
            · rcases Nat.lt_or_ge j2 (lowerB vs u) with hcase | hcase
              · obtain ⟨z2, hz2⟩ : ∃ z2, vs.get? j2 = some z2 := by
                  have hjl : j2 < vs.length := by
                    have := lowerB_le vs u
                    omega
                  exact ⟨vs.get ⟨_, hjl⟩, by rw [List.get?_eq_some]; exact ⟨hjl, rfl⟩⟩
                have h1 : w < z2 := (wf_child_bounds hwfall hkk2 hwc).2 z2 hz2
                have h2 : z2 < u := lowerB_get_lt hcase hz2
                omega
              · have : j2 = lowerB vs u := by
                  have := hsl _ _ hkk2
                  have := lowerB_le vs u
                  omega
                subst this
                rw [hkid] at hkk2
                cases hkk2
                exact hmaxc w hwc
          constructor
          · intro v hv
            rw [hfindq] at hv
            cases hv
          · intro hnone
            rw [hchild, hincr]
            simp only [show (⟨(findMaxN c).2, (findMaxN c).1, true⟩ : Iter).endF = true
              from rfl, if_true]
            rw [if_neg hjlt]

theorem sorted_split {A B : List Int} {u : Int}
    (hs : List.Chain' (· < ·) (A ++ u :: B)) :
    (∀ a ∈ A, a < u) ∧ (∀ b ∈ B, u < b) ∧ List.Chain' (· < ·) (u :: B) := by
  have hp := List.chain'_iff_pairwise.mp hs
  rw [List.pairwise_append] at hp
  obtain ⟨hA, hB, hAB⟩ := hp
  refine ⟨fun a ha => hAB a ha u (by simp), ?_, ?_⟩
  · rcases hB with - | ⟨hall, -⟩
    exact hall
  · exact List.chain'_iff_pairwise.mpr hB

theorem find?_decomp {A B : List Int} {u : Int}
    (hs : List.Chain' (· < ·) (A ++ u :: B)) :
    (A ++ u :: B).find? (fun w => u < w) = B.head? := by
  obtain ⟨hA, hB, hUB⟩ := sorted_split hs
  cases B with
  | nil =>
    rw [List.head?_nil, find?_succ_none]
    intro w hw
    rcases List.mem_append.mp hw with hw | hw
    · exact le_of_lt (hA w hw)
    · rcases List.mem_cons.mp hw with rfl | hw
      · exact le_rfl
      · simp at hw
  | cons v B2 =>
    rw [List.head?_cons, find?_succ_some hs]
    refine ⟨by simp, hB v (by simp), ?_⟩
    intro w hw huw
    rcases List.mem_append.mp hw with hw | hw
    · exact absurd huw (by have := hA w hw; omega)
    · rcases List.mem_cons.mp hw with rfl | hw
      · exact absurd huw (lt_irrefl _)
      · rcases List.mem_cons.mp hw with rfl | hw
        · exact le_rfl
        · have := List.chain'_iff_pairwise.mp hUB
          rcases this with - | ⟨-, hvb⟩
          rcases hvb with - | ⟨hall, -⟩
          exact le_of_lt (hall w hw)

theorem fwdList_zero (t : BTree) (it : Iter) : fwdList t 0 it = [] := rfl

theorem fwdList_succ (t : BTree) (fuel : Nat) (it : Iter) :
    fwdList t (fuel + 1) it =
      (if it.endF then []
       else match derefIter t.root it with
         | none => []
         | some v => v :: fwdList t fuel (incrI t.root it)) := by
  rw [fwdList]

theorem stepN_zero (t : BTree) (it : Iter) : stepN t 0 it = it := rfl

theorem stepN_succ (t : BTree) (k : Nat) (it : Iter) :
    stepN t (k + 1) it = stepN t k (incrI t.root it) := by
  rw [stepN]

theorem fwd_walk {M : Nat} {lo hi : Option Int} {n : Bnode} (h : WF M lo hi n)
    (B : List Int) : ∀ (A : List Int) (u : Int), inorderN n = A ++ u :: B →
    ∀ pu : List Nat × Nat, findDesc u n = some pu →
    fwdList ⟨M, n⟩ (B.length + 1) ⟨pu.1, (pu.2 : Int), false⟩ = u :: B ∧
    stepN ⟨M, n⟩ (B.length + 1) ⟨pu.1, (pu.2 : Int), false⟩ =
      ⟨(findMaxN n).2, (findMaxN n).1, true⟩ := by
  induction B with
  | nil =>
    intro A u hio pu hfd
    obtain ⟨humem, huder⟩ := findDesc_deref h hfd
    have hsorted : List.Chain' (· < ·) (inorderN n) := (wf_inorder h).1
    have hfq : (inorderN n).find? (fun w => u < w) = none := by
      rw [hio]
      rw [hio] at hsorted
      rw [find?_decomp hsorted]
      rfl
    have hstep := (incr_succ h pu hfd).2 hfq
    constructor
    · rw [List.length_nil, fwdList_succ]
      simp only [Bool.false_eq_true, if_false]
      rw [show derefIter (⟨M, n⟩ : BTree).root ⟨pu.1, (pu.2 : Int), false⟩ = some u
        from huder]
      rw [fwdList_zero]
    · rw [List.length_nil, stepN_succ, stepN_zero]
      exact hstep
  | cons v B2 ihB =>
    intro A u hio pu hfd
    obtain ⟨humem, huder⟩ := findDesc_deref h hfd
    have hsorted : List.Chain' (· < ·) (inorderN n) := (wf_inorder h).1
    have hfq : (inorderN n).find? (fun w => u < w) = some v := by
      rw [hio]
      rw [hio] at hsorted
      rw [find?_decomp hsorted]
      rfl
    obtain ⟨pv, hfdv, hstep⟩ := (incr_succ h pu hfd).1 v hfq
    have hio2 : inorderN n = (A ++ [u]) ++ v :: B2 := by
      rw [hio]
      simp
    obtain ⟨ih1, ih2⟩ := ihB (A ++ [u]) v hio2 pv hfdv
    constructor
    · rw [List.length_cons, fwdList_succ]
      simp only [Bool.false_eq_true, if_false]
      rw [show derefIter (⟨M, n⟩ : BTree).root ⟨pu.1, (pu.2 : Int), false⟩ = some u
        from huder]
      rw [show incrI (⟨M, n⟩ : BTree).root ⟨pu.1, (pu.2 : Int), false⟩ =
        ⟨pv.1, (pv.2 : Int), false⟩ from hstep]
      rw [ih1]
    · rw [List.length_cons, stepN_succ]
      rw [show incrI (⟨M, n⟩ : BTree).root ⟨pu.1, (pu.2 : Int), false⟩ =
        ⟨pv.1, (pv.2 : Int), false⟩ from hstep]
      exact ih2

/-! The insert layer: ordered insertion into sorted lists, and the
decomposition of the in-order enumeration around one child slot. -/

theorem mem_ordIns {x e : Int} (vs : List Int) :
    x ∈ ordIns e vs ↔ x = e ∨ x ∈ vs := by
  induction vs with
  | nil => simp [ordIns]
  | cons v vs ih =>
    rw [ordIns]
    by_cases hv : v < e
    · rw [if_pos hv]
      simp only [List.mem_cons, ih]
      tauto
    · rw [if_neg hv]
      simp only [List.mem_cons]

theorem ordIns_length (e : Int) (vs : List Int) :
    (ordIns e vs).length = vs.length + 1 := by
  induction vs with
  | nil => simp [ordIns]
  | cons v vs ih =>
    rw [ordIns]
    by_cases hv : v < e
    · rw [if_pos hv]
      simp [ih]
    · rw [if_neg hv]
      simp

theorem ordIns_sorted {vs : List Int} {e : Int} (hs : List.Chain' (· < ·) vs)
    (hn : e ∉ vs) : List.Chain' (· < ·) (ordIns e vs) := by
  rw [List.chain'_iff_pairwise] at hs ⊢
  induction vs with
  | nil => simp [ordIns]
  | cons v vs ih =>
    rcases List.pairwise_cons.mp hs with ⟨hall, htl⟩
    rw [ordIns]
    by_cases hv : v < e
    · rw [if_pos hv]
      refine List.pairwise_cons.mpr ⟨?_, ih htl (fun hm => hn (by simp [hm]))⟩
      intro w hw
      rcases (mem_ordIns vs).mp hw with rfl | hw
      · exact hv
      · exact hall w hw
    · rw [if_neg hv]
      have hne2 : e ≠ v := fun h2 => hn (by simp [h2])
      have hev : e < v := lt_of_le_of_ne (not_lt.mp hv) hne2
      refine List.pairwise_cons.mpr ⟨?_, hs⟩
      intro w hw
      rcases List.mem_cons.mp hw with rfl | hw
      · exact hev
      · exact lt_trans hev (hall w hw)

theorem insertIdx_lowerB (vs : List Int) (e : Int) :
    List.insertIdx (lowerB vs e) e vs = ordIns e vs := by
  induction vs with
  | nil => simp [lowerB, ordIns]
  | cons v vs ih =>
    rw [lowerB, ordIns]
    by_cases hv : v < e
    · rw [if_pos hv, if_pos hv, List.insertIdx_succ_cons, ih]
    · rw [if_neg hv, if_neg hv]
      rfl

theorem ordIns_get (vs : List Int) (e : Int) :
    (ordIns e vs).get? (lowerB vs e) = some e := by
  induction vs with
  | nil => simp [lowerB, ordIns]
  | cons v vs ih =>
    rw [lowerB, ordIns]
    by_cases hv : v < e
    · rw [if_pos hv, if_pos hv]
      simpa using ih
    · rw [if_neg hv, if_neg hv]
      rfl

theorem ordIns_all_lt {P : List Int} {e : Int} (h : ∀ w ∈ P, w < e) (Y : List Int) :
    ordIns e (P ++ Y) = P ++ ordIns e Y := by
  induction P with
  | nil => simp
  | cons v P ih =>
    rw [List.cons_append, ordIns, if_pos (h v (by simp)),
      ih (fun w hw => h w (by simp [hw]))]
    rfl

theorem ordIns_append_gt {S : List Int} {e : Int} (h : ∀ w ∈ S, e < w) (X : List Int) :
    ordIns e (X ++ S) = ordIns e X ++ S := by
  induction X with
  | nil =>
    cases S with
    | nil => rfl
    | cons s S =>
      simp only [List.nil_append, ordIns]
      rw [if_neg (not_lt.mpr (le_of_lt (h s (by simp))))]
      rfl
  | cons x X ih =>
    rw [List.cons_append, ordIns, ordIns]
    by_cases hx : x < e
    · rw [if_pos hx, if_pos hx, ih]
      rfl
    · rw [if_neg hx, if_neg hx]
      rfl

theorem ordIns_middle {P X S : List Int} {e : Int} (hP : ∀ w ∈ P, w < e)
    (hS : ∀ w ∈ S, e < w) : ordIns e (P ++ X ++ S) = P ++ ordIns e X ++ S := by
  rw [List.append_assoc, ordIns_all_lt hP, ordIns_append_gt hS, List.append_assoc]

theorem ordIns_of_sorted {P S : List Int} {e : Int}
    (h : List.Chain' (· < ·) (P ++ e :: S)) : ordIns e (P ++ S) = P ++ e :: S := by
  rw [List.chain'_iff_pairwise, List.pairwise_append] at h
  obtain ⟨hP, hQ, hPQ⟩ := h
  rcases List.pairwise_cons.mp hQ with ⟨hS, -⟩
  have hP2 : ∀ w ∈ P, w < e := fun w hw => hPQ w hw e (by simp)
  have h3 := ordIns_middle (X := []) hP2 hS
  simpa using h3

theorem sorted_append_bounds {P Q S : List Int} {e : Int}
    (h : List.Chain' (· < ·) (P ++ Q ++ S)) (he : e ∈ Q) :
    (∀ w ∈ P, w < e) ∧ ∀ w ∈ S, e < w := by
  rw [List.chain'_iff_pairwise, List.append_assoc, List.pairwise_append] at h
  obtain ⟨hP, hQS, hPQS⟩ := h
  rw [List.pairwise_append] at hQS
  obtain ⟨hQ, hS, hQS2⟩ := hQS
  exact ⟨fun w hw => hPQS w hw e (by simp [he]), fun w hw => hQS2 e he w hw⟩

theorem all_none_of_no_kid {cs : List (Option Bnode)}
    (h : ∀ j c, kidAt cs j ≠ some c) : ∀ c ∈ cs, c = none := by
  intro c hc
  obtain ⟨⟨i, hi⟩, rfl⟩ := List.mem_iff_get.mp hc
  cases hcg : cs.get ⟨i, hi⟩ with
  | none => rfl
  | some b =>
    exfalso
    have hg : cs.get? i = some (some b) := by
      rw [List.get?_eq_some]
      exact ⟨hi, hcg⟩
    exact h i b (by rw [kidAt_eq_join, hg]; rfl)

theorem inorderAux_all_none (vs : List Int) {cs : List (Option Bnode)}
    (h : ∀ c ∈ cs, c = none) : inorderAux vs cs = vs := by
  induction vs generalizing cs with
  | nil =>
    cases cs with
    | nil => rw [inorderAux]
    | cons c cs =>
      rw [h c (by simp), inorderAux, inorderOpt]
  | cons v vs ih =>
    cases cs with
    | nil =>
      rw [inorderAux, ih (by simp)]
    | cons c cs =>
      rw [h c (by simp), inorderAux, ih (fun c2 hc2 => h c2 (by simp [hc2])),
        inorderOpt, List.nil_append]

theorem set_kidAt_self {cs : List (Option Bnode)} {j : Nat} {c : Bnode}
    (h : kidAt cs j = some c) : cs.set j (some c) = cs := by
  induction cs generalizing j with
  | nil => rfl
  | cons c0 cs ih =>
    cases j with
    | zero =>
      rw [kidAt] at h
      rw [h]
      rfl
    | succ j =>
      rw [kidAt] at h
      show c0 :: cs.set j (some c) = c0 :: cs
      rw [ih h]

theorem inorder_set_decomp (vs : List Int) (cs : List (Option Bnode)) :
    ∀ j : Nat, j ≤ vs.length → j < cs.length →
    ∃ P S, inorderAux vs cs = P ++ inorderOpt (kidAt cs j) ++ S ∧
      ∀ x, inorderAux vs (cs.set j x) = P ++ inorderOpt x ++ S := by
  induction vs generalizing cs with
  | nil =>
    intro j hj hjc
    have hj0 : j = 0 := by simpa using hj
    subst hj0
    cases cs with
    | nil => simp at hjc
    | cons c cs =>
      refine ⟨[], [], ?_, ?_⟩
      · simp [inorderAux, kidAt]
      · intro x
        simp [inorderAux]
  | cons v vs ih =>
    intro j hj hjc
    cases cs with
    | nil => simp at hjc
    | cons c cs =>
      cases j with
      | zero =>
        refine ⟨[], v :: inorderAux vs cs, ?_, ?_⟩
        · simp [inorderAux, kidAt]
        · intro x
          simp [inorderAux]
      | succ j =>
        obtain ⟨P, S, h1, h2⟩ := ih cs j (by simpa using hj) (by simpa using hjc)
        refine ⟨inorderOpt c ++ [v] ++ P, S, ?_, ?_⟩
        · rw [inorderAux, show kidAt (c :: cs) (j + 1) = kidAt cs j from rfl, h1]
          simp
        · intro x
          rw [show (c :: cs).set (j + 1) x = c :: cs.set j x from rfl, inorderAux, h2 x]
          simp

theorem lowerB_slot_mem {lo hi : Option Int} {vs : List Int} {e : Int}
    (hsort : List.Chain' (· < ·) vs) (he : inB lo hi e)
    (hnohit : ¬(lowerB vs e < vs.length ∧ vs.get? (lowerB vs e) = some e)) :
    inB (slotLo lo vs (lowerB vs e)) (slotHi hi vs (lowerB vs e)) e := by
  constructor
  · intro l hl
    rw [slotLo] at hl
    by_cases hj : lowerB vs e = 0
    · rw [if_pos hj] at hl
      exact he.1 l hl
    · rw [if_neg hj] at hl
      have hmem : l ∈ vs.take (lowerB vs e) := by
        rw [List.get?_eq_some] at hl
        obtain ⟨hlen, hget⟩ := hl
        rw [List.mem_take_iff_getElem]
        exact ⟨lowerB vs e - 1, by omega, by simpa [List.get_eq_getElem] using hget⟩
      exact lowerB_take_lt vs e l hmem
  · intro hb hbl
    rw [slotHi] at hbl
    by_cases hj : lowerB vs e < vs.length
    · rw [if_pos hj] at hbl
      have hge := lowerB_get_ge vs e hbl
      have hne : e ≠ hb := by
        intro hEq
        exact hnohit ⟨hj, by rw [hbl, hEq]⟩
      exact lt_of_le_of_ne hge hne
    · rw [if_neg hj] at hbl
      exact he.2 hb hbl

theorem insertKids_eq (M : Nat) (e : Int) (j : Nat) (cs : List (Option Bnode))
    (hj : j < cs.length) :
    insertKids M e j cs = match kidAt cs j with
      | none => (cs.set j (some (.mk [e] (List.replicate (M + 1) none))), ([], 0), true)
      | some c => (cs.set j (some (insertNode M e c).1), (insertNode M e c).2) := by
  induction cs generalizing j with
  | nil => simp at hj
  | cons c0 cs ih =>
    cases j with
    | zero =>
      cases c0 with
      | none => rfl
      | some c => rfl
    | succ j =>
      rw [insertKids, ih j (by simpa using hj),
        show kidAt (c0 :: cs) (j + 1) = kidAt cs j from rfl]
      cases kidAt cs j <;> rfl

theorem insertNode_spec {M : Nat} {lo hi : Option Int} {n : Bnode} (h : WF M lo hi n)
    (hM : 1 ≤ M) : ∀ e : Int, inB lo hi e →
    WF M lo hi (insertNode M e n).1 ∧
    (e ∈ inorderN n → (insertNode M e n).1 = n ∧ (insertNode M e n).2.2 = false) ∧
    (e ∉ inorderN n → inorderN (insertNode M e n).1 = ordIns e (inorderN n) ∧
      (insertNode M e n).2.2 = true) ∧
    (nodeAt (insertNode M e n).1 (insertNode M e n).2.1.1).bind
      (fun m => m.vals.get? (insertNode M e n).2.1.2) = some e := by
  induction h with
  | mk hsort hbd hlen hk hne hfull hsl hch ih =>
    rename_i lo hi vs cs
    intro e he
    have hwfall : WF M lo hi (.mk vs cs) := WF.mk hsort hbd hlen hk hne hfull hsl hch
    by_cases hhit : lowerB vs e < vs.length ∧ vs.get? (lowerB vs e) = some e
    · have hres : insertNode M e (.mk vs cs) = (.mk vs cs, ([], lowerB vs e), false) := by
        rw [insertNode, if_pos hhit]
      have hmem : e ∈ inorderN (.mk vs cs) := by
        rw [mem_inorderN]
        refine Or.inl ?_
        rw [List.get?_eq_some] at hhit
        obtain ⟨-, hl, hg⟩ := hhit
        exact hg ▸ List.get_mem vs _ hl
      refine ⟨?_, fun _ => ⟨?_, ?_⟩, fun hq => absurd hmem hq, ?_⟩
      · rw [hres]
        exact hwfall
      · rw [hres]
      · rw [hres]
      · rw [hres]
        show (nodeAt (Bnode.mk vs cs) []).bind (fun m => m.vals.get? (lowerB vs e)) = some e
        rw [nodeAt_nil, Option.some_bind]
        exact hhit.2
    · have hnotvs : e ∉ vs := fun hmem =>
        hhit ⟨(lowerB_of_mem hsort hmem).2, (lowerB_of_mem hsort hmem).1⟩
      by_cases hroom : vs.length < M
      · have hres : insertNode M e (.mk vs cs) =
            (.mk (List.insertIdx (lowerB vs e) e vs) cs, ([], lowerB vs e), true) := by
          rw [insertNode, if_neg hhit, if_pos hroom]
        have hnokid : ∀ j c, kidAt cs j ≠ some c := by
          intro j c hkc
          exact absurd (hfull ⟨j, c, hkc⟩) (by omega)
        have hallnone : ∀ c ∈ cs, c = none := all_none_of_no_kid hnokid
        have hio : inorderN (.mk vs cs) = vs := by
          rw [inorderN]
          exact inorderAux_all_none vs hallnone
        have hnotmem : e ∉ inorderN (.mk vs cs) := by
          rw [hio]
          exact hnotvs
        have hwf2 : WF M lo hi (.mk (ordIns e vs) cs) := by
          refine WF.mk (ordIns_sorted hsort hnotvs) ?_ hlen ?_ ?_ ?_ ?_ ?_
          · intro x hx
            rcases (mem_ordIns vs).mp hx with rfl | hx
            · exact he
            · exact hbd x hx
          · rw [ordIns_length]
            omega
          · intro hq
            have hlq := ordIns_length e vs
            rw [hq] at hlq
            simp at hlq
          · rintro ⟨j, c, hkc⟩
            exact absurd hkc (hnokid j c)
          · intro j c hkc
            exact absurd hkc (hnokid j c)
          · intro j c hkc
            exact absurd hkc (hnokid j c)
        have hio2 : inorderN (Bnode.mk (ordIns e vs) cs) =
            ordIns e (inorderN (Bnode.mk vs cs)) := by
          rw [hio, inorderN]
          exact inorderAux_all_none _ hallnone
        have hderef : (nodeAt (Bnode.mk (ordIns e vs) cs) []).bind
            (fun m => m.vals.get? (lowerB vs e)) = some e := by
          rw [nodeAt_nil, Option.some_bind]
          show (ordIns e vs).get? (lowerB vs e) = some e
          exact ordIns_get vs e
        refine ⟨?_, fun hq => absurd hq hnotmem, fun _ => ⟨?_, ?_⟩, ?_⟩
        · rw [hres, insertIdx_lowerB]
          exact hwf2
        · rw [hres, insertIdx_lowerB]
          exact hio2
        · rw [hres]
        · rw [hres, insertIdx_lowerB]
          exact hderef
      · have hfM : vs.length = M := le_antisymm hk (not_lt.mp hroom)
        have hj : lowerB vs e ≤ vs.length := lowerB_le vs e
        have hjc : lowerB vs e < cs.length := by omega
        have hres0 : insertNode M e (.mk vs cs) =
            (.mk vs (insertKids M e (lowerB vs e) cs).1,
             (lowerB vs e :: (insertKids M e (lowerB vs e) cs).2.1.1,
              (insertKids M e (lowerB vs e) cs).2.1.2),
             (insertKids M e (lowerB vs e) cs).2.2) := by
          rw [insertNode, if_neg hhit, if_neg hroom]
        have hslotmem := lowerB_slot_mem hsort he hhit
        obtain ⟨P, S, hdec1, hdec2⟩ := inorder_set_decomp vs cs (lowerB vs e) hj hjc
        cases hkid : kidAt cs (lowerB vs e) with
        | none =>
          have hres : insertNode M e (.mk vs cs) =
              (.mk vs (cs.set (lowerB vs e)
                  (some (.mk [e] (List.replicate (M + 1) none)))),
               ([lowerB vs e], 0), true) := by
            rw [hres0, insertKids_eq M e _ cs hjc, hkid]
          have hwfnew : WF M (slotLo lo vs (lowerB vs e)) (slotHi hi vs (lowerB vs e))
              (.mk [e] (List.replicate (M + 1) none)) := by
            refine WF.mk (by simp) ?_ (by simp) (by simpa using hM) (by simp) ?_ ?_ ?_
            · intro x hx
              rw [List.mem_singleton] at hx
              subst hx
              exact hslotmem
            · rintro ⟨j2, c2, hk2⟩
              rw [kidAt_replicate_none] at hk2
              cases hk2
            · intro j2 c2 hk2
              rw [kidAt_replicate_none] at hk2
              cases hk2
            · intro j2 c2 hk2
              rw [kidAt_replicate_none] at hk2
              cases hk2
          have hwf2 : WF M lo hi (.mk vs (cs.set (lowerB vs e)
              (some (.mk [e] (List.replicate (M + 1) none))))) := by
            refine WF.mk hsort hbd (by rw [List.length_set]; exact hlen) hk hne
              (fun _ => hfM) ?_ ?_
            · intro j2 c2 hk2
              by_cases hj2 : lowerB vs e = j2
              · subst hj2
                exact hj
              · rw [kidAt_set_ne hj2] at hk2
                exact hsl j2 c2 hk2
            · intro j2 c2 hk2
              by_cases hj2 : lowerB vs e = j2
              · subst hj2
                rw [kidAt_set_same hjc] at hk2
                have hc2 : Bnode.mk [e] (List.replicate (M + 1) none) = c2 := by
                  simpa using hk2
                rw [← hc2]
                exact hwfnew
              · rw [kidAt_set_ne hj2] at hk2
                exact hch j2 c2 hk2
          have hnotmem : e ∉ inorderN (.mk vs cs) := by
            rw [mem_inorderN]
            rintro (hvs | ⟨j2, c2, hj2, hk2, hx2⟩)
            · exact hnotvs hvs
            · have hsl2 := (lowerB_slot hwfall hk2 hx2).1
              rw [hsl2] at hkid
              rw [hkid] at hk2
              cases hk2
          have hone : inorderOpt (some (Bnode.mk [e] (List.replicate (M + 1) none))) =
              [e] := by
            rw [inorderOpt, inorderN]
            exact inorderAux_all_none [e]
              (fun c hc => List.eq_of_mem_replicate hc)
          have hil : inorderN (.mk vs (cs.set (lowerB vs e)
              (some (.mk [e] (List.replicate (M + 1) none))))) = P ++ [e] ++ S := by
            rw [inorderN, hdec2, hone]
          have hio0 : inorderN (.mk vs cs) = P ++ S := by
            rw [inorderN, hdec1, hkid, inorderOpt]
            simp
          have hio2 : inorderN (.mk vs (cs.set (lowerB vs e)
              (some (.mk [e] (List.replicate (M + 1) none))))) =
              ordIns e (inorderN (.mk vs cs)) := by
            have hsorted2 : List.Chain' (· < ·) (P ++ [e] ++ S) := by
              rw [← hil]
              exact (wf_inorder hwf2).1
            rw [hil, hio0, ordIns_of_sorted (by simpa using hsorted2)]
            simp
          have hca : childAt (Bnode.mk vs (cs.set (lowerB vs e)
              (some (Bnode.mk [e] (List.replicate (M + 1) none))))) (lowerB vs e) =
              some (Bnode.mk [e] (List.replicate (M + 1) none)) := by
            show kidAt (cs.set (lowerB vs e)
              (some (Bnode.mk [e] (List.replicate (M + 1) none)))) (lowerB vs e) = _
            rw [kidAt_set_same hjc]
            rfl
          have hderef : (nodeAt (Bnode.mk vs (cs.set (lowerB vs e)
              (some (Bnode.mk [e] (List.replicate (M + 1) none))))) [lowerB vs e]).bind
              (fun m => m.vals.get? 0) = some e := by
            rw [nodeAt_cons, hca, Option.some_bind, nodeAt_nil, Option.some_bind]
            rfl
          refine ⟨?_, fun hq => absurd hq hnotmem, fun _ => ⟨?_, ?_⟩, ?_⟩
          · rw [hres]
            exact hwf2
          · rw [hres]
            exact hio2
          · rw [hres]
          · rw [hres]
            exact hderef
        | some c =>
          have hres : insertNode M e (.mk vs cs) =
              (.mk vs (cs.set (lowerB vs e) (some (insertNode M e c).1)),
               (lowerB vs e :: (insertNode M e c).2.1.1, (insertNode M e c).2.1.2),
               (insertNode M e c).2.2) := by
            rw [hres0, insertKids_eq M e _ cs hjc, hkid]
          obtain ⟨ihwf, ihfound, ihabs, ihder⟩ := ih _ c hkid e hslotmem
          have hccase : e ∈ inorderN (.mk vs cs) ↔ e ∈ inorderN c := by
            rw [mem_inorderN]
            constructor
            · rintro (hvs | ⟨j2, c2, hj2, hk2, hx2⟩)
              · exact absurd hvs hnotvs
              · have hsl2 := (lowerB_slot hwfall hk2 hx2).1
                rw [hsl2] at hkid
                rw [hkid] at hk2
                cases hk2
                exact hx2
            · intro hc
              exact Or.inr ⟨lowerB vs e, c, hj, hkid, hc⟩
          have hioT : inorderN (.mk vs cs) = P ++ inorderN c ++ S := by
            rw [inorderN, hdec1, hkid, inorderOpt]
          have hioT2 : inorderN (.mk vs (cs.set (lowerB vs e)
              (some (insertNode M e c).1))) =
              P ++ inorderN (insertNode M e c).1 ++ S := by
            rw [inorderN, hdec2, inorderOpt]
          have hwf2 : WF M lo hi (.mk vs (cs.set (lowerB vs e)
              (some (insertNode M e c).1))) := by
            refine WF.mk hsort hbd (by rw [List.length_set]; exact hlen) hk hne
              (fun _ => hfM) ?_ ?_
            · intro j2 c2 hk2
              by_cases hj2 : lowerB vs e = j2
              · subst hj2
                exact hj
              · rw [kidAt_set_ne hj2] at hk2
                exact hsl j2 c2 hk2
            · intro j2 c2 hk2
              by_cases hj2 : lowerB vs e = j2
              · subst hj2
                rw [kidAt_set_same hjc] at hk2
                have hc2 : (insertNode M e c).1 = c2 := by simpa using hk2
                rw [← hc2]
                exact ihwf
              · rw [kidAt_set_ne hj2] at hk2
                exact hch j2 c2 hk2
          refine ⟨?_, ?_, ?_, ?_⟩
          · rw [hres]
            exact hwf2
          · intro hq
            obtain ⟨hceq, hcflag⟩ := ihfound (hccase.mp hq)
            have hset : cs.set (lowerB vs e) (some (insertNode M e c).1) = cs := by
              rw [hceq]
              exact set_kidAt_self hkid
            constructor
            · rw [hres, hset]
            · rw [hres]
              exact hcflag
          · intro hq
            obtain ⟨hcio, hcflag⟩ := ihabs (fun hc => hq (hccase.mpr hc))
            constructor
            · rw [hres]
              show inorderN (Bnode.mk vs (cs.set (lowerB vs e)
                (some (insertNode M e c).1))) = ordIns e (inorderN (Bnode.mk vs cs))
              rw [hioT2, hioT, hcio]
              have hsorted2 : List.Chain' (· < ·)
                  (P ++ ordIns e (inorderN c) ++ S) := by
                rw [← hcio, ← hioT2]
                exact (wf_inorder hwf2).1
              have hbounds := sorted_append_bounds hsorted2
                ((mem_ordIns _).mpr (Or.inl rfl))
              rw [ordIns_middle hbounds.1 hbounds.2]
            · rw [hres]
              exact hcflag
          · rw [hres]
            show (nodeAt (Bnode.mk vs (cs.set (lowerB vs e) (some (insertNode M e c).1)))
                (lowerB vs e :: (insertNode M e c).2.1.1)).bind
                (fun m => m.vals.get? (insertNode M e c).2.1.2) = some e
            have hca : childAt (Bnode.mk vs (cs.set (lowerB vs e)
                (some (insertNode M e c).1))) (lowerB vs e) =
                some (insertNode M e c).1 := by
              show kidAt (cs.set (lowerB vs e) (some (insertNode M e c).1))
                (lowerB vs e) = _
              rw [kidAt_set_same hjc]
              rfl
            rw [nodeAt_cons, hca, Option.some_bind]
            exact ihder

/-! Trees reachable by sequences of insert calls. -/

theorem insert_empty (M : Nat) (hM : 1 ≤ M) (e : Int) :
    insertNode M e (.mk [] (List.replicate (M + 1) none)) =
      (.mk [e] (List.replicate (M + 1) none), ([], 0), true) := by
  rw [insertNode, if_neg (by simp [lowerB]), if_pos (by simpa using hM)]
  rfl

theorem wf_single (M : Nat) (hM : 1 ≤ M) (e : Int) :
    WF M none none (.mk [e] (List.replicate (M + 1) none)) := by
  refine WF.mk (by simp) (by simp [inB]) (by simp) (by simpa using hM) (by simp) ?_ ?_ ?_
  · rintro ⟨j, c, hkc⟩
    rw [kidAt_replicate_none] at hkc
    cases hkc
  · intro j c hkc
    rw [kidAt_replicate_none] at hkc
    cases hkc
  · intro j c hkc
    rw [kidAt_replicate_none] at hkc
    cases hkc

theorem foldl_insert_spec (M : Nat) (hM : 1 ≤ M) :
    ∀ (es : List Int) (n : Bnode), WF M none none n →
    WF M none none (insList M es n) ∧
    ∀ x, (x ∈ inorderN (insList M es n) ↔ x ∈ inorderN n ∨ x ∈ es) := by
  intro es
  induction es with
  | nil =>
    intro n hwf
    exact ⟨hwf, by simp [insList]⟩
  | cons e es ih =>
    intro n hwf
    have hin : inB none none e := ⟨fun l hl => (nomatch hl), fun b hb => nomatch hb⟩
    obtain ⟨hwf1, hfound, habs, -⟩ := insertNode_spec hwf hM e hin
    have hstep : insList M (e :: es) n = insList M es (insertNode M e n).1 := rfl
    obtain ⟨hwf2, hmem2⟩ := ih (insertNode M e n).1 hwf1
    refine ⟨by rw [hstep]; exact hwf2, ?_⟩
    intro x
    rw [hstep, hmem2 x]
    by_cases hmem : e ∈ inorderN n
    · obtain ⟨heq, -⟩ := hfound hmem
      rw [heq]
      simp only [List.mem_cons]
      constructor
      · rintro (hx | hx)
        · exact Or.inl hx
        · exact Or.inr (Or.inr hx)
      · rintro (hx | rfl | hx)
        · exact Or.inl hx
        · exact Or.inl hmem
        · exact Or.inr hx
    · obtain ⟨hio, -⟩ := habs hmem
      rw [hio, mem_ordIns]
      simp only [List.mem_cons]
      tauto

theorem buildT_root (M : Nat) (es : List Int) :
    ∀ t : BTree, t.M = M → (es.foldl (fun t e => (insertT t e).1) t).M = M ∧
      (es.foldl (fun t e => (insertT t e).1) t).root = insList M es t.root := by
  induction es with
  | nil =>
    intro t ht
    exact ⟨ht, rfl⟩
  | cons e es ih =>
    intro t ht
    have h1 : ((insertT t e).1).M = M := by rw [← ht]; rfl
    have h2 := ih (insertT t e).1 h1
    refine ⟨h2.1, ?_⟩
    rw [List.foldl_cons, h2.2]
    show insList M es (insertNode t.M e t.root).1 = insList M (e :: es) t.root
    rw [ht]
    rfl

theorem inorder_single (M : Nat) (e : Int) :
    inorderN (Bnode.mk [e] (List.replicate (M + 1) none)) = [e] := by
  rw [inorderN]
  exact inorderAux_all_none [e] (fun c hc => List.eq_of_mem_replicate hc)

theorem buildT_spec (M : Nat) (hM : 1 ≤ M) (e0 : Int) (es : List Int) :
    (buildT M (e0 :: es)).M = M ∧ WF M none none (buildT M (e0 :: es)).root ∧
    ∀ x, (x ∈ inorderN (buildT M (e0 :: es)).root ↔ x ∈ e0 :: es) := by
  have hroot := buildT_root M (e0 :: es) (mkBtree M) rfl
  have hfirst : insList M (e0 :: es) (mkBtree M).root =
      insList M es (.mk [e0] (List.replicate (M + 1) none)) := by
    show insList M es (insertNode M e0 (mkBtree M).root).1 = _
    rw [show (mkBtree M).root = Bnode.mk [] (List.replicate (M + 1) none) from rfl,
      insert_empty M hM e0]
  have hspec := foldl_insert_spec M hM es (.mk [e0] (List.replicate (M + 1) none))
    (wf_single M hM e0)
  refine ⟨?_, ?_, ?_⟩
  · rw [buildT]
    exact hroot.1
  · rw [buildT, hroot.2, hfirst]
    exact hspec.1
  · intro x
    rw [buildT, hroot.2, hfirst, hspec.2 x, inorder_single]
    simp

theorem walk_all {M : Nat} {n : Bnode} (h : WF M none none n) :
    fwdList ⟨M, n⟩ (inorderN n).length (beginT ⟨M, n⟩) = inorderN n ∧
    stepN ⟨M, n⟩ (inorderN n).length (beginT ⟨M, n⟩) = endT ⟨M, n⟩ := by
  obtain ⟨mn, hhd, hfd, -⟩ := minpos h
  obtain ⟨B, hio⟩ : ∃ B, inorderN n = mn :: B := by
    cases hL : inorderN n with
    | nil =>
      rw [hL] at hhd
      cases hhd
    | cons a B =>
      rw [hL] at hhd
      simp only [List.head?_cons, Option.some.injEq] at hhd
      exact ⟨B, by rw [hhd]⟩
  have hw := fwd_walk h B [] mn (by simpa using hio) ((findMinN n).2, 0) hfd
  have hbegin : beginT ⟨M, n⟩ = ⟨(findMinN n).2, ((0 : Nat) : Int), false⟩ := by
    rw [beginT]
    rw [show (findMinN (⟨M, n⟩ : BTree).root).1 = 0 from findMinN_fst n]
    rfl
  rw [hio, List.length_cons, hbegin]
  refine ⟨hw.1, ?_⟩
  rw [show endT ⟨M, n⟩ = ⟨(findMaxN n).2, (findMaxN n).1, true⟩ from rfl]
  exact hw.2

/-! The pre-order bfs listing enumerates the same elements as the
in-order enumeration (as a permutation). -/

theorem perm_shuffle (a : Int) (A B C : List Int) :
    (A ++ (a :: (B ++ C))).Perm ((a :: B) ++ (A ++ C)) := by
  rw [List.perm_iff_count]
  intro x
  simp only [List.count_append, List.count_cons]
  omega

theorem bfsKids_all_none {cs : List (Option Bnode)} (h : ∀ c ∈ cs, c = none) :
    bfsKids cs = [] := by
  induction cs with
  | nil => rw [bfsKids]
  | cons c cs ih =>
    rw [h c (by simp), bfsKids]
    exact ih (fun c2 hc2 => h c2 (by simp [hc2]))

theorem inorderAux_perm (vs : List Int) (cs : List (Option Bnode))
    (hsl : ∀ j c, kidAt cs j = some c → j ≤ vs.length)
    (hrec : ∀ j c, kidAt cs j = some c → (inorderN c).Perm (bfsN c)) :
    (inorderAux vs cs).Perm (vs ++ bfsKids cs) := by
  induction vs generalizing cs with
  | nil =>
    cases cs with
    | nil =>
      rw [inorderAux, bfsKids]
      exact List.Perm.refl []
    | cons c cs =>
      have htail : ∀ c2 ∈ cs, c2 = none := by
        intro c2 hc2
        cases hcc : c2 with
        | none => rfl
        | some b =>
          subst hcc
          obtain ⟨⟨i, hi⟩, hgi⟩ := List.mem_iff_get.mp hc2
          have hki : kidAt (c :: cs) (i + 1) = some b := by
            rw [show kidAt (c :: cs) (i + 1) = kidAt cs i from rfl, kidAt_eq_join,
              List.get?_eq_some.mpr ⟨hi, hgi⟩]
            rfl
          have := hsl (i + 1) b hki
          simp at this
      rw [inorderAux]
      cases c with
      | none =>
        rw [inorderOpt, show bfsKids (none :: cs) = bfsKids cs from by rw [bfsKids],
          bfsKids_all_none htail]
        exact List.Perm.refl []
      | some b =>
        rw [inorderOpt, show bfsKids (some b :: cs) = bfsN b ++ bfsKids cs from
          by rw [bfsKids], bfsKids_all_none htail]
        simpa using hrec 0 b rfl
  | cons v vs ih =>
    cases cs with
    | nil =>
      rw [inorderAux]
      have h0 := (ih [] (fun j c hk => by rw [kidAt] at hk; cases hk)
        (fun j c hk => by rw [kidAt] at hk; cases hk)).cons v
      rw [show bfsKids ([] : List (Option Bnode)) = [] from by rw [bfsKids]] at h0 ⊢
      rw [List.append_nil] at h0 ⊢
      exact h0
    | cons c cs =>
      have hsl2 : ∀ j c2, kidAt cs j = some c2 → j ≤ vs.length := by
        intro j c2 hk
        have := hsl (j + 1) c2 (by rw [show kidAt (c :: cs) (j + 1) = kidAt cs j from rfl]; exact hk)
        simpa using this
      have hrec2 : ∀ j c2, kidAt cs j = some c2 → (inorderN c2).Perm (bfsN c2) := by
        intro j c2 hk
        exact hrec (j + 1) c2 (by rw [show kidAt (c :: cs) (j + 1) = kidAt cs j from rfl]; exact hk)
      have hmid := ih cs hsl2 hrec2
      rw [inorderAux]
      cases c with
      | none =>
        rw [inorderOpt, bfsKids, List.nil_append]
        exact ((hmid.cons v).append_left []).trans
          (by rw [List.nil_append, ← List.cons_append])
      | some b =>
        rw [inorderOpt, bfsKids]
        have h1 : (inorderN b ++ v :: inorderAux vs cs).Perm
            (bfsN b ++ (v :: (vs ++ bfsKids cs))) :=
          (hrec 0 b rfl).append (hmid.cons v)
        refine h1.trans ?_
        have h2 := perm_shuffle v (bfsN b) vs (bfsKids cs)
        refine h2.trans ?_
        exact List.Perm.refl _

theorem wf_bfs_perm {M : Nat} {lo hi : Option Int} {n : Bnode} (h : WF M lo hi n) :
    (inorderN n).Perm (bfsN n) := by
  induction h with
  | mk hsort hbd hlen hk hne hfull hsl hch ih =>
    rename_i lo hi vs cs
    rw [inorderN, bfsN]
    exact inorderAux_perm vs cs hsl (fun j c hk2 => ih j c hk2)

/-! Every node reachable by a path of child slots from a well-formed
root is itself well-formed for some interval. -/

theorem wf_nodeAt {M : Nat} :
    ∀ (p : List Nat) {lo hi : Option Int} {n : Bnode}, WF M lo hi n →
    ∀ m, nodeAt n p = some m → ∃ lo2 hi2, WF M lo2 hi2 m := by
  intro p
  induction p with
  | nil =>
    intro lo hi n h m hm
    rw [nodeAt_nil] at hm
    cases hm
    exact ⟨lo, hi, h⟩
  | cons j p ih =>
    intro lo hi n h m hm
    cases h with
    | mk hsort hbd hlen hk hne hfull hsl hch =>
      rename_i vs cs
      rw [nodeAt_cons] at hm
      cases hc : childAt (Bnode.mk vs cs) j with
      | none =>
        rw [hc] at hm
        cases hm
      | some c =>
        rw [hc, Option.some_bind] at hm
        exact ih (hch j c hc) m hm

theorem derefAt_nonneg (root : Bnode) (p : List Nat) {idx : Int} (h : 0 ≤ idx) :
    derefAt root p idx = (nodeAt root p).bind (fun m => m.vals.get? idx.toNat) := by
  unfold derefAt
  cases nodeAt root p with
  | none => simp
  | some m =>
    simp only [Option.some_bind]
    rw [if_neg (by omega)]

/-! The verbatim insert loop: with capacity at least 1 it terminates and
computes insertNode; with capacity 0 it never returns. -/

theorem insertLoop_step (f M : Nat) (e : Int) (vs : List Int) (cs : List (Option Bnode))
    (hhit : ¬(lowerB vs e < vs.length ∧ vs.get? (lowerB vs e) = some e))
    (hroom : ¬vs.length < M) {c : Bnode}
    (hc : kidAt cs (lowerB vs e) = some c ∨
          (kidAt cs (lowerB vs e) = none ∧ c = .mk [] (List.replicate (M + 1) none))) :
    insertLoop (f + 1) M e (.mk vs cs) =
      match insertLoop f M e c with
      | some r => some (.mk vs (cs.set (lowerB vs e) (some r.1)),
          (lowerB vs e :: r.2.1.1, r.2.1.2), r.2.2)
      | none => none := by
  rcases hc with hk | ⟨hk, hceq⟩
  · rw [insertLoop, if_neg hhit, if_neg hroom, hk]
  · subst hceq
    rw [insertLoop, if_neg hhit, if_neg hroom, hk]

theorem insertLoop_eq {M : Nat} {lo hi : Option Int} {n : Bnode} (h : WF M lo hi n) :
    ∀ e : Int, 1 ≤ M → ∃ f, insertLoop f M e n = some (insertNode M e n) := by
  induction h with
  | mk hsort hbd hlen hk hne hfull hsl hch ih =>
    rename_i lo hi vs cs
    intro e hM
    by_cases hhit : lowerB vs e < vs.length ∧ vs.get? (lowerB vs e) = some e
    · refine ⟨1, ?_⟩
      rw [show (1 : Nat) = 0 + 1 from rfl, insertLoop, if_pos hhit, insertNode,
        if_pos hhit]
    · by_cases hroom : vs.length < M
      · refine ⟨1, ?_⟩
        rw [show (1 : Nat) = 0 + 1 from rfl, insertLoop, if_neg hhit, if_pos hroom,
          insertNode, if_neg hhit, if_pos hroom]
      · have hfM : vs.length = M := le_antisymm hk (not_lt.mp hroom)
        have hjc : lowerB vs e < cs.length := by
          have := lowerB_le vs e
          omega
        cases hkid : kidAt cs (lowerB vs e) with
        | some c =>
          obtain ⟨f, hf⟩ := ih _ c hkid e hM
          refine ⟨f + 1, ?_⟩
          rw [insertLoop_step f M e vs cs hhit hroom (Or.inl hkid), hf, insertNode,
            if_neg hhit, if_neg hroom, insertKids_eq M e _ cs hjc, hkid]
        | none =>
          have hstep1 : insertLoop (0 + 1) M e (Bnode.mk [] (List.replicate (M + 1) none)) =
              some (Bnode.mk [e] (List.replicate (M + 1) none), ([], 0), true) := by
            rw [insertLoop, if_neg (by simp [lowerB]), if_pos (by simpa using hM)]
            rfl
          refine ⟨0 + 1 + 1, ?_⟩
          rw [insertLoop_step (0 + 1) M e vs cs hhit hroom (Or.inr ⟨hkid, rfl⟩), hstep1,
            insertNode, if_neg hhit, if_neg hroom, insertKids_eq M e _ cs hjc, hkid]

theorem allEmpty_fresh : AllEmpty (Bnode.mk [] (List.replicate (0 + 1) none)) :=
  AllEmpty.mk (fun c hc b hcb => by
    rw [List.eq_of_mem_replicate hc] at hcb
    cases hcb)

theorem insertLoop_zeroM {e : Int} :
    ∀ (f : Nat) (n : Bnode), AllEmpty n → insertLoop f 0 e n = none := by
  intro f
  induction f with
  | zero =>
    intro n h
    rw [insertLoop]
  | succ f ih =>
    intro n h
    cases h with
    | mk hcs =>
      rename_i cs
      cases hkid : kidAt cs (lowerB [] e) with
      | none =>
        rw [insertLoop_step f 0 e [] cs (by simp [lowerB]) (by simp)
          (Or.inr ⟨hkid, rfl⟩), ih _ allEmpty_fresh]
      | some c =>
        have hcmem : AllEmpty c := by
          have hjoin := hkid
          rw [kidAt_eq_join] at hjoin
          have hmem : some c ∈ cs := by
            cases hg : cs.get? (lowerB [] e) with
            | none =>
              rw [hg] at hjoin
              cases hjoin
            | some o =>
              rw [hg] at hjoin
              cases o with
              | none => cases hjoin
              | some b =>
                simp only [Option.join] at hjoin
                cases hjoin
                exact List.get?_mem hg
          exact hcs (some c) hmem c rfl
        rw [insertLoop_step f 0 e [] cs (by simp [lowerB]) (by simp) (Or.inl hkid),
          ih _ hcmem]

/-! The copy constructor: re-inserting the bfs listing of a well-formed
tree into a fresh tree of the same capacity rebuilds the tree value
exactly. -/

theorem kidAt_append_len (Q L : List (Option Bnode)) :
    kidAt (Q ++ L) Q.length = kidAt L 0 := by
  induction Q with
  | nil => rfl
  | cons q Q ih =>
    show kidAt (Q ++ L) Q.length = kidAt L 0
    exact ih

theorem set_append_len (Q L : List (Option Bnode)) (x : Option Bnode) :
    (Q ++ L).set Q.length x = Q ++ L.set 0 x := by
  induction Q with
  | nil => rfl
  | cons q Q ih =>
    show q :: (Q ++ L).set Q.length x = q :: (Q ++ L.set 0 x)
    rw [ih]

theorem insList_append (M : Nat) (xs ys : List Int) (n : Bnode) :
    insList M (xs ++ ys) n = insList M ys (insList M xs n) := by
  simp only [insList, List.foldl_append]

theorem fill_sorted (M : Nat) :
    ∀ (xs A : List Int), List.Chain' (· < ·) (A ++ xs) → (A ++ xs).length ≤ M →
    A ≠ [] →
    insList M xs (.mk A (List.replicate (M + 1) none)) =
      .mk (A ++ xs) (List.replicate (M + 1) none) := by
  intro xs
  induction xs with
  | nil =>
    intro A hS hL hA
    rw [List.append_nil]
    rfl
  | cons x xs ih =>
    intro A hS hL hA
    have hpw := List.chain'_iff_pairwise.mp hS
    rw [List.pairwise_append] at hpw
    have hAx : ∀ w ∈ A, w < x := fun w hw => hpw.2.2 w hw x (by simp)
    have hlb : lowerB A x = A.length := lowerB_all_lt hAx
    have hhit : ¬(lowerB A x < A.length ∧ A.get? (lowerB A x) = some x) := by
      rw [hlb]
      rintro ⟨hc, -⟩
      exact lt_irrefl _ hc
    have hroom : A.length < M := by
      have := hL
      simp only [List.length_append, List.length_cons] at this
      omega
    have hres : insertNode M x (.mk A (List.replicate (M + 1) none)) =
        (.mk (List.insertIdx (lowerB A x) x A) (List.replicate (M + 1) none),
         ([], lowerB A x), true) := by
      rw [insertNode, if_neg hhit, if_pos hroom]
    have hord : List.insertIdx (lowerB A x) x A = A ++ [x] := by
      rw [insertIdx_lowerB]
      have h2 := ordIns_all_lt hAx ([] : List Int)
      rw [List.append_nil] at h2
      rw [h2, show ordIns x [] = [x] from by rw [ordIns]]
    show insList M xs (insertNode M x (.mk A (List.replicate (M + 1) none))).1 =
      .mk (A ++ x :: xs) (List.replicate (M + 1) none)
    rw [hres, hord]
    show insList M xs (.mk (A ++ [x]) (List.replicate (M + 1) none)) =
      .mk (A ++ x :: xs) (List.replicate (M + 1) none)
    rw [ih (A ++ [x]) (by rw [List.append_assoc]; exact hS)
      (by have := hL; simp only [List.length_append, List.length_cons,
        List.length_nil] at this ⊢; omega) (by simp), List.append_assoc]
    rfl

theorem fold_slot (M : Nat) (vs : List Int) (hfull : vs.length = M) :
    ∀ (xs : List Int) (Q R : List (Option Bnode)) (cur : Bnode),
    (∀ x ∈ xs, lowerB vs x = Q.length ∧ x ∉ vs) →
    insList M xs (.mk vs (Q ++ some cur :: R)) =
      .mk vs (Q ++ some (insList M xs cur) :: R) := by
  intro xs
  induction xs with
  | nil =>
    intro Q R cur hx
    show Bnode.mk vs (Q ++ some cur :: R) = .mk vs (Q ++ some cur :: R)
    rfl
  | cons x xs ih =>
    intro Q R cur hx
    obtain ⟨hlb, hnx⟩ := hx x (by simp)
    have hhit : ¬(lowerB vs x < vs.length ∧ vs.get? (lowerB vs x) = some x) := by
      rintro ⟨-, hg⟩
      rw [List.get?_eq_some] at hg
      obtain ⟨hl, hgg⟩ := hg
      exact hnx (hgg ▸ List.get_mem vs _ hl)
    have hroom : ¬vs.length < M := by omega
    have hjlen : lowerB vs x < (Q ++ some cur :: R).length := by
      rw [hlb]
      simp
    have hkid : kidAt (Q ++ some cur :: R) Q.length = some cur := by
      rw [kidAt_append_len]
      rfl
    have hres : insertNode M x (.mk vs (Q ++ some cur :: R)) =
        (.mk vs (Q ++ some (insertNode M x cur).1 :: R),
         (Q.length :: (insertNode M x cur).2.1.1, (insertNode M x cur).2.1.2),
         (insertNode M x cur).2.2) := by
      rw [insertNode, if_neg hhit, if_neg hroom, insertKids_eq M x _ _ hjlen, hlb,
        hkid]
      simp only [set_append_len, List.set_cons_zero]
    show insList M xs (insertNode M x (.mk vs (Q ++ some cur :: R))).1 =
      .mk vs (Q ++ some (insList M xs (insertNode M x cur).1) :: R)
    rw [hres]
    show insList M xs (.mk vs (Q ++ some (insertNode M x cur).1 :: R)) =
      .mk vs (Q ++ some (insList M xs (insertNode M x cur).1) :: R)
    rw [ih Q R (insertNode M x cur).1 (fun y hy => hx y (by simp [hy]))]

theorem rebuild_kids (M : Nat) (vs : List Int) (hfull : vs.length = M) :
    ∀ (cs2 Q : List (Option Bnode)),
    (∀ i c, kidAt cs2 i = some c →
      (∀ x ∈ bfsN c, lowerB vs x = Q.length + i ∧ x ∉ vs) ∧
      (∃ w ws, c.vals = w :: ws) ∧
      (∀ w ws, c.vals = w :: ws →
        insList M (ws ++ bfsKids c.children) (.mk [w] (List.replicate (M + 1) none)) = c)) →
    insList M (bfsKids cs2) (.mk vs (Q ++ List.replicate cs2.length none)) =
      .mk vs (Q ++ cs2) := by
  intro cs2
  induction cs2 with
  | nil =>
    intro Q hyp
    rw [show bfsKids [] = [] from by rw [bfsKids]]
    show Bnode.mk vs (Q ++ []) = .mk vs (Q ++ [])
    rfl
  | cons c cs2 ih =>
    intro Q hyp
    cases c with
    | none =>
      rw [show bfsKids (none :: cs2) = bfsKids cs2 from by rw [bfsKids],
        show Q ++ List.replicate ((none :: cs2 : List (Option Bnode)).length) none =
          (Q ++ [none]) ++ List.replicate cs2.length none from by
            simp [List.replicate_succ]]
      rw [ih (Q ++ [none]) ?_]
      · rw [show (Q ++ [none]) ++ cs2 = Q ++ none :: cs2 from by simp]
      · intro i c hk
        have h2 := hyp (i + 1) c (by
          rw [show kidAt (none :: cs2) (i + 1) = kidAt cs2 i from rfl]
          exact hk)
        refine ⟨fun x hx => ?_, h2.2.1, h2.2.2⟩
        have h3 := h2.1 x hx
        refine ⟨?_, h3.2⟩
        rw [h3.1]
        simp only [List.length_append, List.length_cons, List.length_nil]
        omega
    | some b =>
      obtain ⟨hbnd, ⟨w, ws, hwv⟩, hRB⟩ := hyp 0 b rfl
      cases b with
      | mk bvs bcs =>
        have hbv : bvs = w :: ws := hwv
        subst hbv
        have hbfs : bfsN (Bnode.mk (w :: ws) bcs) = w :: (ws ++ bfsKids bcs) := by
          rw [bfsN]
          rfl
        rw [show bfsKids (some (Bnode.mk (w :: ws) bcs) :: cs2) =
            bfsN (Bnode.mk (w :: ws) bcs) ++ bfsKids cs2 from by rw [bfsKids], hbfs,
          List.cons_append]
        obtain ⟨hwlb, hwnot⟩ := hbnd w (by rw [hbfs]; simp)
        rw [Nat.add_zero] at hwlb
        have hhit : ¬(lowerB vs w < vs.length ∧ vs.get? (lowerB vs w) = some w) := by
          rintro ⟨-, hg⟩
          rw [List.get?_eq_some] at hg
          obtain ⟨hl, hgg⟩ := hg
          exact hwnot (hgg ▸ List.get_mem vs _ hl)
        have hroom : ¬vs.length < M := by omega
        have hjlen : lowerB vs w <
            (Q ++ List.replicate ((some (Bnode.mk (w :: ws) bcs) :: cs2 :
              List (Option Bnode)).length) none).length := by
          rw [hwlb]
          simp
        have hkid0 : kidAt (Q ++ List.replicate ((some (Bnode.mk (w :: ws) bcs) :: cs2 :
            List (Option Bnode)).length) none) Q.length = none := by
          rw [kidAt_append_len]
          rfl
        have hres : insertNode M w (.mk vs (Q ++ List.replicate
              ((some (Bnode.mk (w :: ws) bcs) :: cs2 : List (Option Bnode)).length) none)) =
            (.mk vs (Q ++ some (.mk [w] (List.replicate (M + 1) none)) ::
                List.replicate cs2.length none),
             ([Q.length], 0), true) := by
          rw [insertNode, if_neg hhit, if_neg hroom, insertKids_eq M w _ _ hjlen, hwlb,
            hkid0]
          simp only [show List.replicate ((some (Bnode.mk (w :: ws) bcs) :: cs2 :
              List (Option Bnode)).length) none =
            none :: List.replicate cs2.length none from rfl, set_append_len,
            List.set_cons_zero]
        show insList M (ws ++ bfsKids bcs ++ bfsKids cs2)
            (insertNode M w (.mk vs (Q ++ List.replicate
              ((some (Bnode.mk (w :: ws) bcs) :: cs2 :
                List (Option Bnode)).length) none))).1 =
          .mk vs (Q ++ some (Bnode.mk (w :: ws) bcs) :: cs2)
        rw [hres]
        show insList M (ws ++ bfsKids bcs ++ bfsKids cs2)
            (.mk vs (Q ++ some (.mk [w] (List.replicate (M + 1) none)) ::
              List.replicate cs2.length none)) =
          .mk vs (Q ++ some (Bnode.mk (w :: ws) bcs) :: cs2)
        rw [insList_append]
        rw [fold_slot M vs hfull (ws ++ bfsKids bcs) Q (List.replicate cs2.length none)
          (.mk [w] (List.replicate (M + 1) none)) ?_]
        · have hRB2 : insList M (ws ++ bfsKids bcs)
              (.mk [w] (List.replicate (M + 1) none)) = Bnode.mk (w :: ws) bcs :=
            hRB w ws rfl
          rw [hRB2,
            show Q ++ some (Bnode.mk (w :: ws) bcs) :: List.replicate cs2.length none =
              (Q ++ [some (Bnode.mk (w :: ws) bcs)]) ++ List.replicate cs2.length none
              from by simp]
          rw [ih (Q ++ [some (Bnode.mk (w :: ws) bcs)]) ?_]
          · rw [show (Q ++ [some (Bnode.mk (w :: ws) bcs)]) ++ cs2 =
              Q ++ some (Bnode.mk (w :: ws) bcs) :: cs2 from by simp]
          · intro i c hk
            have h2 := hyp (i + 1) c (by
              rw [show kidAt (some (Bnode.mk (w :: ws) bcs) :: cs2) (i + 1) =
                kidAt cs2 i from rfl]
              exact hk)
            refine ⟨fun x hx => ?_, h2.2.1, h2.2.2⟩
            have h3 := h2.1 x hx
            refine ⟨?_, h3.2⟩
            rw [h3.1]
            simp only [List.length_append, List.length_cons, List.length_nil]
            omega
        · intro x hx
          have hxb : x ∈ bfsN (Bnode.mk (w :: ws) bcs) := by
            rw [hbfs]
            simp only [List.mem_cons, List.mem_append]
            rcases List.mem_append.mp hx with h | h
            · exact Or.inr (Or.inl h)
            · exact Or.inr (Or.inr h)
          have h3 := hbnd x hxb
          rw [Nat.add_zero] at h3
          exact h3

theorem rebuild_node {M : Nat} {lo hi : Option Int} {c : Bnode} (h : WF M lo hi c) :
    ∀ v vs2, c.vals = v :: vs2 →
    insList M (vs2 ++ bfsKids c.children) (.mk [v] (List.replicate (M + 1) none)) = c := by
  induction h with
  | mk hsort hbd hlen hk hne hfull hsl hch ih =>
    rename_i lo hi vs cs
    intro v vs2 hv
    have hv2 : vs = v :: vs2 := hv
    subst hv2
    show insList M (vs2 ++ bfsKids cs) (.mk [v] (List.replicate (M + 1) none)) =
      .mk (v :: vs2) cs
    by_cases hkids : ∃ j c2, kidAt cs j = some c2
    · have hfM : (v :: vs2).length = M := hfull hkids
      have hfill : insList M vs2 (.mk [v] (List.replicate (M + 1) none)) =
          .mk (v :: vs2) (List.replicate (M + 1) none) := by
        have h2 := fill_sorted M vs2 [v] (by simpa using hsort) (by simpa using hk)
          (by simp)
        simpa using h2
      rw [insList_append, hfill,
        show List.replicate (M + 1) (none : Option Bnode) =
          [] ++ List.replicate cs.length none from by rw [List.nil_append, hlen]]
      rw [rebuild_kids M (v :: vs2) hfM cs [] ?_]
      · rw [List.nil_append]
      · intro i c2 hki
        have hwfc := hch i c2 hki
        have hperm := wf_bfs_perm hwfc
        refine ⟨?_, ?_, ?_⟩
        · intro x hx
          have hxio : x ∈ inorderN c2 := hperm.mem_iff.mpr hx
          have h4 := lowerB_slot (WF.mk hsort hbd hlen hk hne hfull hsl hch) hki hxio
          refine ⟨?_, h4.2⟩
          rw [h4.1]
          simp
        · cases hwfc with
          | mk h1 h2 h3 h4 hne2 h6 h7 h8 =>
            rename_i vs' cs'
            cases vs' with
            | nil => exact absurd rfl hne2
            | cons a l => exact ⟨a, l, rfl⟩
        · intro w ws hw
          exact ih i c2 hki w ws hw
    · have hallnone : ∀ c2 ∈ cs, c2 = none :=
        all_none_of_no_kid (fun j c2 hk2 => hkids ⟨j, c2, hk2⟩)
      have hcs : cs = List.replicate (M + 1) none :=
        List.eq_replicate.mpr ⟨hlen, hallnone⟩
      rw [bfsKids_all_none hallnone, List.append_nil,
        fill_sorted M vs2 [v] (by simpa using hsort) (by simpa using hk) (by simp), hcs]
      rfl

theorem copyT_eq {t : BTree} (h : WFt t) : copyT t = t := by
  obtain ⟨M, root⟩ := t
  rcases h with hempty | hwf
  · have hroot : root = Bnode.mk [] (List.replicate (M + 1) none) := hempty
    have hb : bfsN root = [] := by
      rw [hroot, bfsN, bfsKids_all_none (fun c hc => List.eq_of_mem_replicate hc)]
      rfl
    show buildT M (bfsN root) = ⟨M, root⟩
    rw [hb]
    show mkBtree M = ⟨M, root⟩
    rw [hroot]
    rfl
  · have hM : 1 ≤ M := by
      cases hwf with
      | mk h1 h2 h3 hk hne h6 h7 h8 =>
        rename_i vs cs
        cases vs with
        | nil => exact absurd rfl hne
        | cons a l =>
          simp only [List.length_cons] at hk
          omega
    obtain ⟨v, vs2, hv⟩ : ∃ v vs2, root.vals = v :: vs2 := by
      cases hwf with
      | mk h1 h2 h3 h4 hne h6 h7 h8 =>
        rename_i vs cs
        cases vs with
        | nil => exact absurd rfl hne
        | cons a l => exact ⟨a, l, rfl⟩
    have hRB := rebuild_node hwf v vs2 hv
    have hbfs : bfsN root = v :: (vs2 ++ bfsKids root.children) := by
      cases root with
      | mk vs cs =>
        have hv3 : vs = v :: vs2 := hv
        subst hv3
        rw [bfsN]
        rfl
    have hroot2 := buildT_root M (bfsN root) (mkBtree M) rfl
    have hm2 : (buildT M (bfsN root)).M = M := by
      rw [buildT]
      exact hroot2.1
    have hr2 : (buildT M (bfsN root)).root = root := by
      rw [buildT, hroot2.2, hbfs]
      show insList M (vs2 ++ bfsKids root.children)
        (insertNode M v (mkBtree M).root).1 = root
      rw [show (mkBtree M).root = Bnode.mk [] (List.replicate (M + 1) none) from rfl,
        insert_empty M hM v]
      exact hRB
    show buildT M (bfsN root) = ⟨M, root⟩
    calc buildT M (bfsN root) =
        ⟨(buildT M (bfsN root)).M, (buildT M (bfsN root)).root⟩ := rfl
      _ = ⟨M, root⟩ := by rw [hm2, hr2]

/-! The decrement mirror: lifting operator-- movement from a child
subtree to its parent. -/

theorem getLast_max {L : List Int} (hs : List.Chain' (· < ·) L) {mx : Int}
    (hl : L.getLast? = some mx) : ∀ w ∈ L, w ≤ mx := by
  have hrev : List.Chain' (fun a b => b < a) L.reverse := by
    rw [List.chain'_reverse]
    simpa [flip] using hs
  have hh : L.reverse.head? = some mx := by
    rw [List.head?_reverse]
    exact hl
  intro w hw
  have hwr : w ∈ L.reverse := by simpa using hw
  cases hL : L.reverse with
  | nil =>
    rw [hL] at hwr
    simp at hwr
  | cons a L2 =>
    rw [hL] at hh hwr
    simp only [List.head?_cons, Option.some.injEq] at hh
    subst hh
    rcases List.mem_cons.mp hwr with rfl | hw2
    · exact le_rfl
    · rw [hL] at hrev
      have := List.chain'_iff_pairwise.mp hrev
      rcases this with _ | ⟨hall, -⟩
      exact le_of_lt (hall w hw2)

theorem find?_pred_iff {L : List Int} (hs : List.Chain' (· < ·) L) (u v : Int) :
    L.reverse.find? (fun w => w < u) = some v ↔
      v ∈ L ∧ v < u ∧ ∀ w ∈ L, w < u → w ≤ v := by
  have hrev : List.Chain' (fun a b => b < a) L.reverse := by
    rw [List.chain'_reverse]
    simpa [flip] using hs
  rw [find?_pred_some hrev]
  simp only [List.mem_reverse]

theorem find?_pred_none_iff (L : List Int) (u : Int) :
    L.reverse.find? (fun w => w < u) = none ↔ ∀ w ∈ L, u ≤ w := by
  rw [find?_pred_none]
  simp only [List.mem_reverse]

theorem ascendD_ne_nil (root : Bnode) (v : Int) {p : List Nat} (hp : p ≠ []) :
    ascendD root v p =
      (match nodeAt root p.dropLast with
       | none => ⟨p, 0, true⟩
       | some parent =>
         if lowerB parent.vals v = 0 then ascendD root v p.dropLast
         else ⟨p.dropLast, (lowerB parent.vals v : Int) - 1, false⟩) := by
  cases p with
  | nil => exact absurd rfl hp
  | cons i q => rw [ascendD]

theorem ascendD_child {vs : List Int} {cs : List (Option Bnode)} {i : Nat} {c : Bnode}
    (hk : kidAt cs i = some c) (v : Int) (p : List Nat)
    (hval : (nodeAt c p).isSome) :
    ascendD (.mk vs cs) v (i :: p) =
      if (ascendD c v p).endF then
        (if lowerB vs v = 0
         then ⟨(findMinN (.mk vs cs)).2, (findMinN (.mk vs cs)).1 - 1, true⟩
         else ⟨[], (lowerB vs v : Int) - 1, false⟩)
      else ⟨i :: (ascendD c v p).path, (ascendD c v p).idx, false⟩ := by
  induction p using List.reverseRecOn with
  | nil =>
    have h1 : ascendD c v [] = ⟨(findMinN c).2, (findMinN c).1 - 1, true⟩ := by
      rw [ascendD]
    have h2 : ascendD (.mk vs cs) v [i] =
        (if lowerB vs v = 0 then ascendD (.mk vs cs) v []
         else ⟨[], (lowerB vs v : Int) - 1, false⟩) := by
      rw [ascendD_ne_nil _ _ (show [i] ≠ [] by simp), List.dropLast_single, nodeAt_nil]
      rfl
    rw [h1, h2,
      show ascendD (.mk vs cs) v [] =
        ⟨(findMinN (.mk vs cs)).2, (findMinN (.mk vs cs)).1 - 1, true⟩ from by
          rw [ascendD]]
    simp [Bnode.vals]
  | append_singleton q a ih =>
    have hql : (q ++ [a]).dropLast = q := by simp
    have hqval : (nodeAt c q).isSome := by
      have := nodeAt_dropLast_isSome hval
      rwa [hql] at this
    obtain ⟨m2, hm2⟩ : ∃ m2, nodeAt c q = some m2 := by
      cases hq : nodeAt c q with
      | none => rw [hq] at hqval; simp at hqval
      | some m2 => exact ⟨m2, rfl⟩
    have hdl : (i :: (q ++ [a])).dropLast = i :: q := by
      rw [← List.cons_append, List.dropLast_concat]
    have hm2b : nodeAt (.mk vs cs) (i :: q) = some m2 := by
      rw [nodeAt_cons, show childAt (Bnode.mk vs cs) i = some c from hk,
        Option.some_bind]
      exact hm2
    have hLHS : ascendD (.mk vs cs) v (i :: (q ++ [a])) =
        (if lowerB m2.vals v = 0 then ascendD (.mk vs cs) v (i :: q)
         else ⟨i :: q, (lowerB m2.vals v : Int) - 1, false⟩) := by
      rw [ascendD_ne_nil _ _ (show i :: (q ++ [a]) ≠ [] by simp), hdl, hm2b]
    have hRHS : ascendD c v (q ++ [a]) =
        (if lowerB m2.vals v = 0 then ascendD c v q
         else ⟨q, (lowerB m2.vals v : Int) - 1, false⟩) := by
      rw [ascendD_ne_nil _ _ (show q ++ [a] ≠ [] by simp), hql, hm2]
    rw [hLHS, hRHS]
    by_cases hj : lowerB m2.vals v = 0
    · rw [if_pos hj, if_pos hj]
      exact ih hqval
    · rw [if_neg hj, if_neg hj]
      simp

theorem decrI_child {vs : List Int} {cs : List (Option Bnode)} {i : Nat} {c : Bnode}
    (hk : kidAt cs i = some c) (p : List Nat) (d : Int) {v : Int}
    (hder : derefAt c p d = some v) :
    decrI (.mk vs cs) ⟨i :: p, d, false⟩ =
      if (decrI c ⟨p, d, false⟩).endF then
        (if lowerB vs v = 0
         then ⟨(findMinN (.mk vs cs)).2, (findMinN (.mk vs cs)).1 - 1, true⟩
         else ⟨[], (lowerB vs v : Int) - 1, false⟩)
      else ⟨i :: (decrI c ⟨p, d, false⟩).path, (decrI c ⟨p, d, false⟩).idx, false⟩ := by
  obtain ⟨m, hm⟩ : ∃ m, nodeAt c p = some m := by
    unfold derefAt at hder
    cases hq : nodeAt c p with
    | none => rw [hq] at hder; simp at hder
    | some m => exact ⟨m, rfl⟩
  have hm2 : nodeAt (.mk vs cs) (i :: p) = some m := by
    rw [nodeAt_cons, show childAt (Bnode.mk vs cs) i = some c from hk, Option.some_bind]
    exact hm
  have hder2 : derefAt (.mk vs cs) (i :: p) d = some v := by
    rw [derefAt_cons hk]
    exact hder
  have hL0 : decrI (.mk vs cs) ⟨i :: p, d, false⟩ =
      (match childAt m d.toNat with
       | some c2 =>
         ⟨(i :: p) ++ d.toNat :: (findMaxN c2).2, (findMaxN c2).1, false⟩
       | none =>
         if 0 < d then ⟨i :: p, d - 1, false⟩
         else ascendD (.mk vs cs) v (i :: p)) := by
    rw [decrI, if_neg (show ¬((⟨i :: p, d, false⟩ : Iter).endF = true) from
      Bool.false_ne_true)]
    simp only [hm2, hder2]
  have hR0 : decrI c ⟨p, d, false⟩ =
      (match childAt m d.toNat with
       | some c2 => ⟨p ++ d.toNat :: (findMaxN c2).2, (findMaxN c2).1, false⟩
       | none =>
         if 0 < d then ⟨p, d - 1, false⟩
         else ascendD c v p) := by
    rw [decrI, if_neg (show ¬((⟨p, d, false⟩ : Iter).endF = true) from
      Bool.false_ne_true)]
    simp only [hm, hder]
  rw [hL0, hR0]
  cases hc2 : childAt m d.toNat with
  | some c2 => simp
  | none =>
    by_cases hlt : 0 < d
    · rw [if_pos hlt, if_pos hlt]
      simp
    · rw [if_neg hlt, if_neg hlt]
      exact ascendD_child hk v p (by rw [hm]; rfl)

/-- The central step theorem for operator--: at the position found for a
value u in a well-formed tree, the decrement moves to the position of
the greatest element smaller than u, or to the decremented findMin
sentinel when u is the minimum (the undefined decrement of begin()). -/
theorem decr_pred {M : Nat} {lo hi : Option Int} {n : Bnode} (h : WF M lo hi n)
    {u : Int} (pu : List Nat × Nat) (hfd : findDesc u n = some pu) :
    (∀ v, (inorderN n).reverse.find? (fun w => w < u) = some v →
      ∃ pv, findDesc v n = some pv ∧
        decrI n ⟨pu.1, (pu.2 : Int), false⟩ = ⟨pv.1, (pv.2 : Int), false⟩) ∧
    ((inorderN n).reverse.find? (fun w => w < u) = none →
      decrI n ⟨pu.1, (pu.2 : Int), false⟩ =
        ⟨(findMinN n).2, (findMinN n).1 - 1, true⟩) := by
  induction h generalizing pu with
  | mk hsort hbd hlen hk hne hfull hsl hch ih =>
    rename_i lo hi vs cs
    have hwfall := WF.mk hsort hbd hlen hk hne hfull hsl hch
    have hio : List.Chain' (· < ·) (inorderN (.mk vs cs)) := (wf_inorder hwfall).1
    by_cases hhit : lowerB vs u < vs.length ∧ vs.get? (lowerB vs u) = some u
    · -- the position of u is inside this node's value buffer
      have hpu : pu = ([], lowerB vs u) := by
        rw [findDesc, if_pos hhit] at hfd
        cases hfd
        rfl
      subst hpu
      have hderef : derefAt (.mk vs cs) [] ((lowerB vs u : Nat) : Int) = some u := by
        rw [derefAt_nat, nodeAt_nil, Option.some_bind]
        exact hhit.2
      have hL0 : decrI (.mk vs cs) ⟨[], (lowerB vs u : Int), false⟩ =
          (match kidAt cs (lowerB vs u) with
           | some c2 => ⟨(lowerB vs u) :: (findMaxN c2).2, (findMaxN c2).1, false⟩
           | none =>
             if 0 < ((lowerB vs u : Nat) : Int)
             then ⟨[], ((lowerB vs u : Nat) : Int) - 1, false⟩
             else ascendD (.mk vs cs) u []) := by
        rw [decrI, if_neg (show ¬((⟨[], ((lowerB vs u : Nat) : Int), false⟩ :
          Iter).endF = true) from Bool.false_ne_true)]
        simp only [nodeAt_nil, hderef, Int.toNat_ofNat, childAt, Bnode.children,
          Bnode.vals, List.nil_append]
      cases hc2 : kidAt cs (lowerB vs u) with
      | some c2 =>
        -- descend to the maximum of the left-hand child subtree
        have hwfc2 := (wf_kid hwfall hc2).1
        obtain ⟨mx, hmx_last, hmx_pos, hmx_fd, hmx_der⟩ := maxpos hwfc2
        have hmx_mem : mx ∈ inorderN c2 :=
          List.mem_of_mem_getLast? (by rw [hmx_last]; rfl)
        have hmxu : mx < u := (wf_child_bounds hwfall hc2 hmx_mem).2 u hhit.2
        have hfindq : (inorderN (.mk vs cs)).reverse.find? (fun w => w < u) =
            some mx := by
          rw [find?_pred_iff hio]
          refine ⟨?_, hmxu, ?_⟩
          · rw [mem_inorderN]
            exact Or.inr ⟨_, c2, hsl _ _ hc2, hc2, hmx_mem⟩
          · rintro w hw hwu
            rw [mem_inorderN] at hw
            rcases hw with hwvs | ⟨j2, cc, hj2, hkk2, hwc⟩
            · obtain ⟨iw, hgw⟩ := get?_of_mem hwvs
              have hiwlen : iw < vs.length := by
                rw [List.get?_eq_some] at hgw
                obtain ⟨h1, -⟩ := hgw
                exact h1
              rcases Nat.lt_or_ge iw (lowerB vs u) with hlt | hge
              · obtain ⟨z1, hz1⟩ : ∃ z1, vs.get? (lowerB vs u - 1) = some z1 := by
                  have hl1 : lowerB vs u - 1 < vs.length := by omega
                  exact ⟨vs.get ⟨_, hl1⟩, by rw [List.get?_eq_some]; exact ⟨hl1, rfl⟩⟩
                have h1 : w ≤ z1 := vs_mono hsort (by omega) hgw hz1
                have h2 : z1 < mx :=
                  (wf_child_bounds hwfall hc2 hmx_mem).1 z1 hz1 (by omega)
                omega
              · have := vs_mono hsort hge hhit.2 hgw
                omega
            · rcases Nat.lt_trichotomy j2 (lowerB vs u) with hcase | hcase | hcase
              · obtain ⟨z2, hz2⟩ : ∃ z2, vs.get? j2 = some z2 := by
                  have hjl : j2 < vs.length := by omega
                  exact ⟨vs.get ⟨_, hjl⟩, by rw [List.get?_eq_some]; exact ⟨hjl, rfl⟩⟩
                obtain ⟨z1, hz1⟩ : ∃ z1, vs.get? (lowerB vs u - 1) = some z1 := by
                  have hl1 : lowerB vs u - 1 < vs.length := by omega
                  exact ⟨vs.get ⟨_, hl1⟩, by rw [List.get?_eq_some]; exact ⟨hl1, rfl⟩⟩
                have h1 : w < z2 := (wf_child_bounds hwfall hkk2 hwc).2 z2 hz2
                have h2 : z2 ≤ z1 := vs_mono hsort (by omega) hz2 hz1
                have h3 : z1 < mx :=
                  (wf_child_bounds hwfall hc2 hmx_mem).1 z1 hz1 (by omega)
                omega
              · subst hcase
                rw [hc2] at hkk2
                cases hkk2
                exact getLast_max (wf_inorder hwfc2).1 hmx_last w hwc
              · have hj2len : j2 ≤ vs.length := hsl _ _ hkk2
                obtain ⟨z1, hz1⟩ : ∃ z1, vs.get? (j2 - 1) = some z1 := by
                  have hl1 : j2 - 1 < vs.length := by omega
                  exact ⟨vs.get ⟨_, hl1⟩, by rw [List.get?_eq_some]; exact ⟨hl1, rfl⟩⟩
                have h1 : z1 < w :=
                  (wf_child_bounds hwfall hkk2 hwc).1 z1 hz1 (by omega)
                have h2 : u ≤ z1 := vs_mono hsort (by omega) hhit.2 hz1
                omega
        constructor
        · intro v hv
          rw [hfindq] at hv
          cases hv
          refine ⟨(lowerB vs u :: (findMaxN c2).2, (findMaxN c2).1.toNat),
            findDesc_descend hwfall hc2 hmx_mem hmx_fd, ?_⟩
          rw [hL0, hc2]
          simp [Int.toNat_of_nonneg hmx_pos]
        · intro hnone
          rw [hfindq] at hnone
          cases hnone
      | none =>
        by_cases hj0 : 0 < lowerB vs u
        · -- step to the previous value inside this node
          obtain ⟨z, hz⟩ : ∃ z, vs.get? (lowerB vs u - 1) = some z := by
            have hl1 : lowerB vs u - 1 < vs.length := by omega
            exact ⟨vs.get ⟨_, hl1⟩, by rw [List.get?_eq_some]; exact ⟨hl1, rfl⟩⟩
          have hzu : z < u := chain'_lt_get hsort (by omega) hz hhit.2
          have hfindq : (inorderN (.mk vs cs)).reverse.find? (fun w => w < u) =
              some z := by
            rw [find?_pred_iff hio]
            refine ⟨?_, hzu, ?_⟩
            · rw [mem_inorderN]
              refine Or.inl ?_
              rw [List.get?_eq_some] at hz
              obtain ⟨h1, hz⟩ := hz
              exact hz ▸ List.get_mem _ _ _
            · rintro w hw hwu
              rw [mem_inorderN] at hw
              rcases hw with hwvs | ⟨j2, cc, hj2, hkk2, hwc⟩
              · obtain ⟨iw, hgw⟩ := get?_of_mem hwvs
                rcases Nat.lt_or_ge iw (lowerB vs u) with hlt | hge
                · exact vs_mono hsort (by omega) hgw hz
                · have := vs_mono hsort hge hhit.2 hgw
                  omega
              · rcases Nat.lt_trichotomy j2 (lowerB vs u) with hcase | hcase | hcase
                · obtain ⟨z2, hz2⟩ : ∃ z2, vs.get? j2 = some z2 := by
                    have hjl : j2 < vs.length := by omega
                    exact ⟨vs.get ⟨_, hjl⟩, by rw [List.get?_eq_some]; exact ⟨hjl, rfl⟩⟩
                  have h1 : w < z2 := (wf_child_bounds hwfall hkk2 hwc).2 z2 hz2
                  have h2 : z2 ≤ z := vs_mono hsort (by omega) hz2 hz
                  omega
                · subst hcase
                  rw [hc2] at hkk2
                  cases hkk2
                · have hj2len : j2 ≤ vs.length := hsl _ _ hkk2
                  obtain ⟨z1, hz1⟩ : ∃ z1, vs.get? (j2 - 1) = some z1 := by
                    have hl1 : j2 - 1 < vs.length := by omega
                    exact ⟨vs.get ⟨_, hl1⟩, by rw [List.get?_eq_some]; exact ⟨hl1, rfl⟩⟩
                  have h1 : z1 < w :=
                    (wf_child_bounds hwfall hkk2 hwc).1 z1 hz1 (by omega)
                  have h2 : u ≤ z1 := vs_mono hsort (by omega) hhit.2 hz1
                  omega
          constructor
          · intro v hv
            rw [hfindq] at hv
            cases hv
            refine ⟨([], lowerB vs u - 1), findDesc_hit hsort hz, ?_⟩
            rw [hL0, hc2, if_pos (by omega)]
            have hcast : ((lowerB vs u : Nat) : Int) - 1 =
                ((lowerB vs u - 1 : Nat) : Int) := by omega
            rw [hcast]
          · intro hnone
            rw [hfindq] at hnone
            cases hnone
        · -- u is the first value of this node and there is no left child:
          -- u is the minimum of the whole subtree
          have hfindq : (inorderN (.mk vs cs)).reverse.find? (fun w => w < u) =
              none := by
            rw [find?_pred_none_iff]
            intro w hw
            rw [mem_inorderN] at hw
            rcases hw with hwvs | ⟨j2, cc, hj2, hkk2, hwc⟩
            · obtain ⟨iw, hgw⟩ := get?_of_mem hwvs
              exact vs_mono hsort (by omega) hhit.2 hgw
            · rcases Nat.eq_or_lt_of_le (Nat.zero_le j2) with hcase | hcase
              · rw [← hcase] at hkk2
                rw [show lowerB vs u = 0 from by omega] at hc2
                rw [hc2] at hkk2
                cases hkk2
              · obtain ⟨z1, hz1⟩ : ∃ z1, vs.get? (j2 - 1) = some z1 := by
                  have hj2len : j2 ≤ vs.length := hsl _ _ hkk2
                  have hl1 : j2 - 1 < vs.length := by omega
                  exact ⟨vs.get ⟨_, hl1⟩, by rw [List.get?_eq_some]; exact ⟨hl1, rfl⟩⟩
                have h1 : z1 < w :=
                  (wf_child_bounds hwfall hkk2 hwc).1 z1 hz1 (by omega)
                have h2 : u ≤ z1 := vs_mono hsort (by omega) hhit.2 hz1
                omega
          constructor
          · intro v hv
            rw [hfindq] at hv
            cases hv
          · intro hnone
            rw [hL0, hc2, if_neg (by omega), ascendD]
    · -- the position of u lies below child slot (lowerB vs u)
      obtain ⟨c, pu2, hkid, hfdc, hpu⟩ := findDesc_nohit_decomp hhit hfd
      subst hpu
      dsimp only
      have hwfc := (wf_kid hwfall hkid).1
      obtain ⟨humem, huder⟩ := findDesc_deref hwfc hfdc
      have hslot := lowerB_slot hwfall hkid humem
      obtain ⟨ihs, ihn⟩ := ih _ c hkid pu2 hfdc
      have hchild := @decrI_child vs cs (lowerB vs u) c hkid pu2.1 (pu2.2 : Int) u huder
      have hlenpos : 0 < vs.length := List.length_pos.mpr hne
      have hjle : lowerB vs u ≤ vs.length := hsl _ _ hkid
      cases hfq : (inorderN c).reverse.find? (fun w => w < u) with
      | some v2 =>
        obtain ⟨pv2, hfdv2, hdecr⟩ := ihs v2 hfq
        obtain ⟨hv2mem, hv2u, hmaxc⟩ :=
          (find?_pred_iff (wf_inorder hwfc).1 u v2).mp hfq
        have hfindq : (inorderN (.mk vs cs)).reverse.find? (fun w => w < u) =
            some v2 := by
          rw [find?_pred_iff hio]
          refine ⟨?_, hv2u, ?_⟩
          · rw [mem_inorderN]
            exact Or.inr ⟨_, c, hjle, hkid, hv2mem⟩
          · rintro w hw hwu
            rw [mem_inorderN] at hw
            rcases hw with hwvs | ⟨j2, cc, hj2, hkk2, hwc⟩
            · obtain ⟨iw, hgw⟩ := get?_of_mem hwvs
              have hiwlen : iw < vs.length := by
                rw [List.get?_eq_some] at hgw
                obtain ⟨h1, -⟩ := hgw
                exact h1
              rcases Nat.lt_or_ge iw (lowerB vs u) with hlt | hge
              · obtain ⟨z1, hz1⟩ : ∃ z1, vs.get? (lowerB vs u - 1) = some z1 := by
                  have hl1 : lowerB vs u - 1 < vs.length := by omega
                  exact ⟨vs.get ⟨_, hl1⟩, by rw [List.get?_eq_some]; exact ⟨hl1, rfl⟩⟩
                have h1 : w ≤ z1 := vs_mono hsort (by omega) hgw hz1
                have h2 : z1 < v2 :=
                  (wf_child_bounds hwfall hkid hv2mem).1 z1 hz1 (by omega)
                omega
              · obtain ⟨z0, hz0⟩ : ∃ z0, vs.get? (lowerB vs u) = some z0 := by
                  have hl0 : lowerB vs u < vs.length := by omega
                  exact ⟨vs.get ⟨_, hl0⟩, by rw [List.get?_eq_some]; exact ⟨hl0, rfl⟩⟩
                have h1 : u < z0 := (wf_child_bounds hwfall hkid humem).2 z0 hz0
                have h2 : z0 ≤ w := vs_mono hsort hge hz0 hgw
                omega
            · rcases Nat.lt_trichotomy j2 (lowerB vs u) with hcase | hcase | hcase
              · obtain ⟨z2, hz2⟩ : ∃ z2, vs.get? j2 = some z2 := by
                  have hjl : j2 < vs.length := by omega
                  exact ⟨vs.get ⟨_, hjl⟩, by rw [List.get?_eq_some]; exact ⟨hjl, rfl⟩⟩
                obtain ⟨z1, hz1⟩ : ∃ z1, vs.get? (lowerB vs u - 1) = some z1 := by
                  have hl1 : lowerB vs u - 1 < vs.length := by omega
                  exact ⟨vs.get ⟨_, hl1⟩, by rw [List.get?_eq_some]; exact ⟨hl1, rfl⟩⟩
                have h1 : w < z2 := (wf_child_bounds hwfall hkk2 hwc).2 z2 hz2
                have h2 : z2 ≤ z1 := vs_mono hsort (by omega) hz2 hz1
                have h3 : z1 < v2 :=
                  (wf_child_bounds hwfall hkid hv2mem).1 z1 hz1 (by omega)
                omega
              · subst hcase
                rw [hkid] at hkk2
                cases hkk2
                exact hmaxc w hwc hwu
              · have hj2len : j2 ≤ vs.length := hsl _ _ hkk2
                obtain ⟨z1, hz1⟩ : ∃ z1, vs.get? (j2 - 1) = some z1 := by
                  have hl1 : j2 - 1 < vs.length := by omega
                  exact ⟨vs.get ⟨_, hl1⟩, by rw [List.get?_eq_some]; exact ⟨hl1, rfl⟩⟩
                have h1 : z1 < w :=
                  (wf_child_bounds hwfall hkk2 hwc).1 z1 hz1 (by omega)
                obtain ⟨z0, hz0⟩ : ∃ z0, vs.get? (lowerB vs u) = some z0 := by
                  have hl0 : lowerB vs u < vs.length := by omega
                  exact ⟨vs.get ⟨_, hl0⟩, by rw [List.get?_eq_some]; exact ⟨hl0, rfl⟩⟩
                have h2 : z0 ≤ z1 := vs_mono hsort (by omega) hz0 hz1
                have h3 : u < z0 := (wf_child_bounds hwfall hkid humem).2 z0 hz0
                omega
        constructor
        · intro v hv
          rw [hfindq] at hv
          cases hv
          refine ⟨(lowerB vs u :: pv2.1, pv2.2),
            findDesc_descend hwfall hkid hv2mem hfdv2, ?_⟩
          rw [hchild, hdecr]
          simp
        · intro hnone
          rw [hfindq] at hnone
          cases hnone
      | none =>
        have hminc : ∀ w ∈ inorderN c, u ≤ w := (find?_pred_none_iff _ u).mp hfq
        have hdecr := ihn hfq
        by_cases hj0 : lowerB vs u = 0
        · have hfindq : (inorderN (.mk vs cs)).reverse.find? (fun w => w < u) =
              none := by
            rw [find?_pred_none_iff]
            intro w hw
            rw [mem_inorderN] at hw
            rcases hw with hwvs | ⟨j2, cc, hj2, hkk2, hwc⟩
            · obtain ⟨iw, hgw⟩ := get?_of_mem hwvs
              obtain ⟨z0, hz0⟩ : ∃ z0, vs.get? 0 = some z0 := by
                exact ⟨vs.get ⟨0, hlenpos⟩, by rw [List.get?_eq_some]; exact ⟨hlenpos, rfl⟩⟩
              have h1 : u < z0 := by
                have := (wf_child_bounds hwfall hkid humem).2 z0
                rw [hj0] at this
                exact this hz0
              have h2 : z0 ≤ w := vs_mono hsort (by omega) hz0 hgw
              omega
            · rcases Nat.eq_or_lt_of_le (Nat.zero_le j2) with hcase | hcase
              · rw [← hcase] at hkk2
                rw [hj0] at hkid
                rw [hkid] at hkk2
                cases hkk2
                exact hminc w hwc
              · obtain ⟨z1, hz1⟩ : ∃ z1, vs.get? (j2 - 1) = some z1 := by
                  have hj2len : j2 ≤ vs.length := hsl _ _ hkk2
                  have hl1 : j2 - 1 < vs.length := by omega
                  exact ⟨vs.get ⟨_, hl1⟩, by rw [List.get?_eq_some]; exact ⟨hl1, rfl⟩⟩
                have h1 : z1 < w :=
                  (wf_child_bounds hwfall hkk2 hwc).1 z1 hz1 (by omega)
                obtain ⟨z0, hz0⟩ : ∃ z0, vs.get? 0 = some z0 := by
                  exact ⟨vs.get ⟨0, hlenpos⟩, by rw [List.get?_eq_some]; exact ⟨hlenpos, rfl⟩⟩
                have h2 : z0 ≤ z1 := vs_mono hsort (by omega) hz0 hz1
                have h3 : u < z0 := by
                  have := (wf_child_bounds hwfall hkid humem).2 z0
                  rw [hj0] at this
                  exact this hz0
                omega
          constructor
          · intro v hv
            rw [hfindq] at hv
            cases hv
          · intro hnone
            rw [hchild, hdecr]
            simp only [show (⟨(findMinN c).2, (findMinN c).1 - 1, true⟩ :
              Iter).endF = true from rfl, if_true]
            rw [if_pos hj0]
        · obtain ⟨z1, hz1⟩ : ∃ z1, vs.get? (lowerB vs u - 1) = some z1 := by
            have hl1 : lowerB vs u - 1 < vs.length := by omega
            exact ⟨vs.get ⟨_, hl1⟩, by rw [List.get?_eq_some]; exact ⟨hl1, rfl⟩⟩
          have hz1u : z1 < u :=
            (wf_child_bounds hwfall hkid humem).1 z1 hz1 (by omega)
          have hfindq : (inorderN (.mk vs cs)).reverse.find? (fun w => w < u) =
              some z1 := by
            rw [find?_pred_iff hio]
            refine ⟨?_, hz1u, ?_⟩
            · rw [mem_inorderN]
              refine Or.inl ?_
              rw [List.get?_eq_some] at hz1
              obtain ⟨h1, hz1⟩ := hz1
              exact hz1 ▸ List.get_mem _ _ _
            · rintro w hw hwu
              rw [mem_inorderN] at hw
              rcases hw with hwvs | ⟨j2, cc, hj2, hkk2, hwc⟩
              · obtain ⟨iw, hgw⟩ := get?_of_mem hwvs
                have hiwlen : iw < vs.length := by
                  rw [List.get?_eq_some] at hgw
                  obtain ⟨h1, -⟩ := hgw
                  exact h1
                rcases Nat.lt_or_ge iw (lowerB vs u) with hlt | hge
                · exact vs_mono hsort (by omega) hgw hz1
                · obtain ⟨z0, hz0⟩ : ∃ z0, vs.get? (lowerB vs u) = some z0 := by
                    have hl0 : lowerB vs u < vs.length := by omega
                    exact ⟨vs.get ⟨_, hl0⟩, by rw [List.get?_eq_some]; exact ⟨hl0, rfl⟩⟩
                  have h1 : u < z0 := (wf_child_bounds hwfall hkid humem).2 z0 hz0
                  have h2 : z0 ≤ w := vs_mono hsort hge hz0 hgw
                  omega
              · rcases Nat.lt_trichotomy j2 (lowerB vs u) with hcase | hcase | hcase
                · obtain ⟨z2, hz2⟩ : ∃ z2, vs.get? j2 = some z2 := by
                    have hjl : j2 < vs.length := by omega
                    exact ⟨vs.get ⟨_, hjl⟩, by rw [List.get?_eq_some]; exact ⟨hjl, rfl⟩⟩
                  have h1 : w < z2 := (wf_child_bounds hwfall hkk2 hwc).2 z2 hz2
                  have h2 : z2 ≤ z1 := vs_mono hsort (by omega) hz2 hz1
                  omega
                · subst hcase
                  rw [hkid] at hkk2
                  cases hkk2
                  have := hminc w hwc
                  omega
                · have hj2len : j2 ≤ vs.length := hsl _ _ hkk2
                  obtain ⟨z3, hz3⟩ : ∃ z3, vs.get? (j2 - 1) = some z3 := by
                    have hl1 : j2 - 1 < vs.length := by omega
                    exact ⟨vs.get ⟨_, hl1⟩, by rw [List.get?_eq_some]; exact ⟨hl1, rfl⟩⟩
                  have h1 : z3 < w :=
                    (wf_child_bounds hwfall hkk2 hwc).1 z3 hz3 (by omega)
                  obtain ⟨z0, hz0⟩ : ∃ z0, vs.get? (lowerB vs u) = some z0 := by
                    have hl0 : lowerB vs u < vs.length := by omega
                    exact ⟨vs.get ⟨_, hl0⟩, by rw [List.get?_eq_some]; exact ⟨hl0, rfl⟩⟩
                  have h2 : z0 ≤ z3 := vs_mono hsort (by omega) hz0 hz3
                  have h3 : u < z0 := (wf_child_bounds hwfall hkid humem).2 z0 hz0
                  omega
          constructor
          · intro v hv
            rw [hfindq] at hv
            cases hv
            refine ⟨([], lowerB vs u - 1), findDesc_hit hsort hz1, ?_⟩
            rw [hchild, hdecr]
            simp only [show (⟨(findMinN c).2, (findMinN c).1 - 1, true⟩ :
              Iter).endF = true from rfl, if_true]
            rw [if_neg hj0]
            have hcast : ((lowerB vs u : Nat) : Int) - 1 =
                ((lowerB vs u - 1 : Nat) : Int) := by omega
            rw [hcast]
          · intro hnone
            rw [hfindq] at hnone
            cases hnone

theorem bwdList_zero (t : BTree) (r : RevIter) : bwdList t 0 r = [] := rfl

theorem bwdList_succ (t : BTree) (k : Nat) (r : RevIter) :
    bwdList t (k + 1) r =
      (if r = rendT t then []
       else match revDeref t r with
         | none => []
         | some v => v :: bwdList t k (revIncr t r)) := by
  rw [bwdList]

theorem bwd_walk {M : Nat} {lo hi : Option Int} {n : Bnode} (h : WF M lo hi n) :
    ∀ (A : List Int) (u : Int) (B : List Int), inorderN n = A ++ u :: B →
    ∀ pu : List Nat × Nat, findDesc u n = some pu →
    bwdList ⟨M, n⟩ (A.length + 1) ⟨⟨pu.1, (pu.2 : Int), false⟩⟩ = A.reverse := by
  intro A
  induction A using List.reverseRecOn with
  | nil =>
    intro u B hio pu hfd
    have hpu_begin : (⟨⟨pu.1, (pu.2 : Int), false⟩⟩ : RevIter) = rendT ⟨M, n⟩ := by
      obtain ⟨mn, hhd, hfd2, -⟩ := minpos h
      have hmn : mn = u := by
        rw [hio] at hhd
        simp only [List.nil_append, List.head?_cons, Option.some.injEq] at hhd
        exact hhd.symm
      subst hmn
      rw [hfd2] at hfd
      cases hfd
      show (⟨⟨(findMinN n).2, ((0 : Nat) : Int), false⟩⟩ : RevIter) = ⟨beginT ⟨M, n⟩⟩
      have hbegin_eq : beginT ⟨M, n⟩ = ⟨(findMinN n).2, ((0 : Nat) : Int), false⟩ := by
        rw [beginT]
        rw [show (findMinN (⟨M, n⟩ : BTree).root).1 = 0 from findMinN_fst n]
        rfl
      rw [hbegin_eq]
    rw [List.length_nil, bwdList_succ, if_pos hpu_begin]
    rw [List.reverse_nil]
  | append_singleton A2 w ihA =>
    intro u B hio pu hfd
    have hio2 : inorderN n = A2 ++ w :: (u :: B) := by
      rw [hio]
      simp
    have hwmem : w ∈ inorderN n := by
      rw [hio2]
      simp
    have hsorted := (wf_inorder h).1
    have hsorted2 := hsorted
    rw [hio2] at hsorted2
    obtain ⟨hsA, hsWB, hscross⟩ := List.chain'_append.mp hsorted2
    have hwu : w < u := by
      rw [List.chain'_cons] at hsWB
      exact hsWB.1
    have hpwA : ∀ y ∈ A2, y < w := by
      have hpw := List.chain'_iff_pairwise.mp hsorted2
      rw [List.pairwise_append] at hpw
      intro y hy
      exact hpw.2.2 y hy w (by simp)
    have hpwB : ∀ y ∈ B, u < y := by
      have hpw := List.chain'_iff_pairwise.mp hsWB
      rcases hpw with _ | ⟨-, hpw2⟩
      rcases hpw2 with _ | ⟨hall, -⟩
      intro y hy
      exact hall y hy
    have hfq : (inorderN n).reverse.find? (fun w2 => w2 < u) = some w := by
      rw [find?_pred_iff hsorted]
      refine ⟨hwmem, hwu, ?_⟩
      intro y hy hyu
      rw [hio2] at hy
      rcases List.mem_append.mp hy with hy | hy
      · exact le_of_lt (hpwA y hy)
      · rcases List.mem_cons.mp hy with rfl | hy
        · exact le_rfl
        · rcases List.mem_cons.mp hy with rfl | hy
          · omega
          · have := hpwB y hy
            omega
    obtain ⟨pv, hfdv, hdecr⟩ := (decr_pred h pu hfd).1 w hfq
    have hne_rend : (⟨⟨pu.1, (pu.2 : Int), false⟩⟩ : RevIter) ≠ rendT ⟨M, n⟩ := by
      intro heq
      have hbase : (⟨pu.1, (pu.2 : Int), false⟩ : Iter) = beginT ⟨M, n⟩ :=
        congrArg RevIter.base heq
      obtain ⟨mn, hhd, hfd2, hder2⟩ := minpos h
      have hderu : derefAt n pu.1 (pu.2 : Int) = some u := (findDesc_deref h hfd).2
      have hderb : derefAt n (findMinN n).2 ((0 : Nat) : Int) = some mn := by
        rw [derefAt_nat]
        exact hder2
      have hbegin_eq : beginT ⟨M, n⟩ = ⟨(findMinN n).2, ((0 : Nat) : Int), false⟩ := by
        rw [beginT]
        rw [show (findMinN (⟨M, n⟩ : BTree).root).1 = 0 from findMinN_fst n]
        rfl
      rw [hbegin_eq] at hbase
      have h1 : pu.1 = (findMinN n).2 := congrArg Iter.path hbase
      have h2 : (pu.2 : Int) = ((0 : Nat) : Int) := congrArg Iter.idx hbase
      rw [h1, h2] at hderu
      rw [hderu] at hderb
      have hueq : u = mn := (Option.some.injEq _ _).mp hderb
      have hmnw : mn ≤ w := head_min hsorted hhd w hwmem
      omega
    rw [show (A2 ++ [w]).length = A2.length + 1 from by simp, bwdList_succ,
      if_neg hne_rend]
    have hrd : revDeref ⟨M, n⟩ ⟨⟨pu.1, (pu.2 : Int), false⟩⟩ = some w := by
      rw [revDeref]
      show derefIter n (decrI n ⟨pu.1, (pu.2 : Int), false⟩) = some w
      rw [hdecr]
      show derefAt n pv.1 (pv.2 : Int) = some w
      exact (findDesc_deref h hfdv).2
    rw [hrd]
    have hri : revIncr ⟨M, n⟩ ⟨⟨pu.1, (pu.2 : Int), false⟩⟩ =
        ⟨⟨pv.1, (pv.2 : Int), false⟩⟩ := by
      rw [revIncr]
      show (⟨decrI n ⟨pu.1, (pu.2 : Int), false⟩⟩ : RevIter) = _
      rw [hdecr]
    rw [hri, ihA w (u :: B) hio2 pv hfdv]
    rw [List.reverse_append]
    rfl

theorem walk_all_rev {M : Nat} {n : Bnode} (h : WF M none none n) :
    bwdList ⟨M, n⟩ ((inorderN n).length + 1) (rbeginT ⟨M, n⟩) =
      (inorderN n).reverse := by
  obtain ⟨mx, hlast, hpos, hfdmx, hdermx⟩ := maxpos h
  have hne := (wf_inorder h).2.2
  have hsplit := List.dropLast_append_getLast hne
  have hmx_last : mx = (inorderN n).getLast hne := by
    rw [List.getLast?_eq_getLast _ hne] at hlast
    exact ((Option.some.injEq _ _).mp hlast).symm
  have hio : inorderN n = (inorderN n).dropLast ++ mx :: [] := by
    rw [hmx_last]
    exact hsplit.symm
  have hlen : (inorderN n).length = (inorderN n).dropLast.length + 1 := by
    conv_lhs => rw [hio]
    simp
  have hne_rbeg : rbeginT ⟨M, n⟩ ≠ rendT ⟨M, n⟩ := by
    intro heq
    have hbase : endT ⟨M, n⟩ = beginT ⟨M, n⟩ := congrArg RevIter.base heq
    have : (endT ⟨M, n⟩).endF = (beginT ⟨M, n⟩).endF := congrArg Iter.endF hbase
    rw [show (endT ⟨M, n⟩).endF = true from rfl,
      show (beginT ⟨M, n⟩).endF = false from rfl] at this
    cases this
  have hdecr_end : decrI n (endT ⟨M, n⟩) = ⟨(findMaxN n).2, (findMaxN n).1, false⟩ := by
    rw [show endT ⟨M, n⟩ = ⟨(findMaxN n).2, (findMaxN n).1, true⟩ from rfl]
    rw [decrI, if_pos rfl]
  have hrd : revDeref ⟨M, n⟩ (rbeginT ⟨M, n⟩) = some mx := by
    rw [revDeref]
    show derefIter n (decrI n (endT ⟨M, n⟩)) = some mx
    rw [hdecr_end]
    show derefAt n (findMaxN n).2 (findMaxN n).1 = some mx
    rw [derefAt_nonneg _ _ hpos]
    exact hdermx
  have hri : revIncr ⟨M, n⟩ (rbeginT ⟨M, n⟩) =
      ⟨⟨(findMaxN n).2, (((findMaxN n).1.toNat : Nat) : Int), false⟩⟩ := by
    rw [revIncr]
    show (⟨decrI n (endT ⟨M, n⟩)⟩ : RevIter) = _
    rw [hdecr_end, Int.toNat_of_nonneg hpos]
  have hw := bwd_walk h (inorderN n).dropLast mx [] (by simpa using hio)
    ((findMaxN n).2, (findMaxN n).1.toNat) hfdmx
  rw [hlen, bwdList_succ, if_neg hne_rbeg, hrd, hri, hw]
  conv_rhs => rw [hio]
  rw [List.reverse_append]
  rfl

/-! The ten claims. -/

/-- C1: for every tree built by a sequence of insert calls with capacity at
least 1 and at least one element, the forward traversal from begin() by
repeated operator++ visits exactly the in-order enumeration (a strictly
increasing sequence whose members are exactly the inserted values) and then
reaches end(). -/
theorem claim_C1 (M : Nat) (hM : 1 ≤ M) (e0 : Int) (es : List Int) :
    fwdList (buildT M (e0 :: es)) (inorderN (buildT M (e0 :: es)).root).length
        (beginT (buildT M (e0 :: es))) = inorderN (buildT M (e0 :: es)).root ∧
    stepN (buildT M (e0 :: es)) (inorderN (buildT M (e0 :: es)).root).length
        (beginT (buildT M (e0 :: es))) = endT (buildT M (e0 :: es)) ∧
    List.Chain' (· < ·) (inorderN (buildT M (e0 :: es)).root) ∧
    (∀ x, x ∈ inorderN (buildT M (e0 :: es)).root ↔ x ∈ e0 :: es) := by
  obtain ⟨hMeq, hwf, hmem⟩ := buildT_spec M hM e0 es
  have hteta : buildT M (e0 :: es) = ⟨M, (buildT M (e0 :: es)).root⟩ := by
    calc buildT M (e0 :: es)
        = ⟨(buildT M (e0 :: es)).M, (buildT M (e0 :: es)).root⟩ := rfl
      _ = ⟨M, (buildT M (e0 :: es)).root⟩ := by rw [hMeq]
  rw [hteta]
  refine ⟨?_, ?_, ?_, ?_⟩
  · show fwdList ⟨M, (buildT M (e0 :: es)).root⟩
        (inorderN (buildT M (e0 :: es)).root).length
        (beginT ⟨M, (buildT M (e0 :: es)).root⟩) = inorderN (buildT M (e0 :: es)).root
    exact (walk_all hwf).1
  · show stepN ⟨M, (buildT M (e0 :: es)).root⟩
        (inorderN (buildT M (e0 :: es)).root).length
        (beginT ⟨M, (buildT M (e0 :: es)).root⟩) = endT ⟨M, (buildT M (e0 :: es)).root⟩
    exact (walk_all hwf).2
  · exact (wf_inorder hwf).1
  · exact hmem

theorem claim_C1_witness :
    1 ≤ 1 ∧
    fwdList (buildT 1 [2, 1, 3]) (inorderN (buildT 1 [2, 1, 3]).root).length
      (beginT (buildT 1 [2, 1, 3])) = inorderN (buildT 1 [2, 1, 3]).root :=
  ⟨by decide, (claim_C1 1 (by decide) 2 [1, 3]).1⟩

/-- C2: in every tree reachable by insert calls (capacity at least 1), every
reachable node's value buffer is strictly increasing and every element of the
subtree hanging in child slot i lies strictly between the adjacent values
vals[i-1] and vals[i] (with the missing ends unbounded); consequently no value
is stored twice anywhere in the tree. -/
theorem claim_C2 (M : Nat) (hM : 1 ≤ M) (e0 : Int) (es : List Int) :
    (∀ p m, nodeAt (buildT M (e0 :: es)).root p = some m →
      List.Chain' (· < ·) m.vals ∧
      ∀ i c, childAt m i = some c → i ≤ m.vals.length ∧
        ∀ x ∈ inorderN c,
          (∀ w, m.vals.get? (i - 1) = some w → 1 ≤ i → w < x) ∧
          (∀ w, m.vals.get? i = some w → x < w)) ∧
    (bfsN (buildT M (e0 :: es)).root).Nodup := by
  obtain ⟨-, hwf, -⟩ := buildT_spec M hM e0 es
  constructor
  · intro p m hm
    obtain ⟨lo2, hi2, hwfm⟩ := wf_nodeAt p hwf m hm
    cases m with
    | mk vs cs =>
      refine ⟨wf_sorted hwfm, ?_⟩
      intro i c hc
      have hkide : kidAt cs i = some c := hc
      refine ⟨(wf_kid hwfm hkide).2, ?_⟩
      intro x hx
      exact wf_child_bounds hwfm hkide hx
  · exact (wf_bfs_perm hwf).nodup_iff.mp (chain'_lt_nodup (wf_inorder hwf).1)

theorem claim_C2_witness :
    1 ≤ 1 ∧ (bfsN (buildT 1 [2, 1, 3]).root).Nodup :=
  ⟨by decide, (claim_C2 1 (by decide) 2 [1, 3]).2⟩

/-- C3: on a reachable tree, insert(e) returns the match position with the
flag false, an unchanged tree and an unchanged element count when e is
present; and the position of the newly stored e with the flag true, one more
stored element, and the membership extended by e when it is absent.  In both
cases the returned iterator dereferences to e. -/
theorem claim_C3 (M : Nat) (hM : 1 ≤ M) (e0 : Int) (es : List Int) (e : Int) :
    (e ∈ inorderN (buildT M (e0 :: es)).root →
      (insertT (buildT M (e0 :: es)) e).1 = buildT M (e0 :: es) ∧
      (insertT (buildT M (e0 :: es)) e).2.2 = false ∧
      derefIter ((insertT (buildT M (e0 :: es)) e).1).root
        ((insertT (buildT M (e0 :: es)) e).2.1) = some e ∧
      (bfsN ((insertT (buildT M (e0 :: es)) e).1).root).length =
        (bfsN (buildT M (e0 :: es)).root).length) ∧
    (e ∉ inorderN (buildT M (e0 :: es)).root →
      (insertT (buildT M (e0 :: es)) e).2.2 = true ∧
      derefIter ((insertT (buildT M (e0 :: es)) e).1).root
        ((insertT (buildT M (e0 :: es)) e).2.1) = some e ∧
      (bfsN ((insertT (buildT M (e0 :: es)) e).1).root).length =
        (bfsN (buildT M (e0 :: es)).root).length + 1 ∧
      (∀ x, x ∈ inorderN ((insertT (buildT M (e0 :: es)) e).1).root ↔
        x = e ∨ x ∈ inorderN (buildT M (e0 :: es)).root)) ∧
    (e ∈ inorderN (buildT M (e0 :: es)).root ↔ e ∈ e0 :: es) := by
  obtain ⟨hMeq, hwf, hmem⟩ := buildT_spec M hM e0 es
  have hteta : buildT M (e0 :: es) = ⟨M, (buildT M (e0 :: es)).root⟩ := by
    calc buildT M (e0 :: es)
        = ⟨(buildT M (e0 :: es)).M, (buildT M (e0 :: es)).root⟩ := rfl
      _ = ⟨M, (buildT M (e0 :: es)).root⟩ := by rw [hMeq]
  rw [hteta]
  have hin : inB none none e := ⟨fun l hl => (nomatch hl), fun b hb => nomatch hb⟩
  obtain ⟨hwf2, hfound, habs, hder⟩ := insertNode_spec hwf hM e hin
  refine ⟨?_, ?_, hmem e⟩
  · intro hmemE
    obtain ⟨heq, hflag⟩ := hfound hmemE
    refine ⟨?_, hflag, ?_, ?_⟩
    · show (⟨M, (insertNode M e (buildT M (e0 :: es)).root).1⟩ : BTree) =
        ⟨M, (buildT M (e0 :: es)).root⟩
      rw [heq]
    · show derefAt (insertNode M e (buildT M (e0 :: es)).root).1
        (insertNode M e (buildT M (e0 :: es)).root).2.1.1
        ((insertNode M e (buildT M (e0 :: es)).root).2.1.2 : Int) = some e
      rw [derefAt_nat]
      exact hder
    · show (bfsN (insertNode M e (buildT M (e0 :: es)).root).1).length =
        (bfsN (buildT M (e0 :: es)).root).length
      rw [heq]
  · intro hnot
    obtain ⟨hio, hflag⟩ := habs hnot
    refine ⟨hflag, ?_, ?_, ?_⟩
    · show derefAt (insertNode M e (buildT M (e0 :: es)).root).1
        (insertNode M e (buildT M (e0 :: es)).root).2.1.1
        ((insertNode M e (buildT M (e0 :: es)).root).2.1.2 : Int) = some e
      rw [derefAt_nat]
      exact hder
    · show (bfsN (insertNode M e (buildT M (e0 :: es)).root).1).length =
        (bfsN (buildT M (e0 :: es)).root).length + 1
      calc (bfsN (insertNode M e (buildT M (e0 :: es)).root).1).length
          = (inorderN (insertNode M e (buildT M (e0 :: es)).root).1).length :=
            (wf_bfs_perm hwf2).length_eq.symm
        _ = (ordIns e (inorderN (buildT M (e0 :: es)).root)).length := by rw [hio]
        _ = (inorderN (buildT M (e0 :: es)).root).length + 1 := ordIns_length _ _
        _ = (bfsN (buildT M (e0 :: es)).root).length + 1 := by
            rw [(wf_bfs_perm hwf).length_eq]
    · intro x
      show x ∈ inorderN (insertNode M e (buildT M (e0 :: es)).root).1 ↔
        x = e ∨ x ∈ inorderN (buildT M (e0 :: es)).root
      rw [hio, mem_ordIns]

theorem claim_C3_witness :
    1 ≤ 1 ∧
    ((5 : Int) ∈ inorderN (buildT 1 [2, 1, 3]).root ↔ (5 : Int) ∈ [2, 1, 3]) :=
  ⟨by decide, (claim_C3 1 (by decide) 2 [1, 3] 5).2.2⟩

/-- C4: on a reachable tree, find(e) yields an iterator dereferencing to e
exactly when e was inserted, and compares equal to end() exactly when it was
not; on a freshly constructed tree find always returns end(). -/
theorem claim_C4 (M : Nat) (hM : 1 ≤ M) (e0 : Int) (es : List Int) (e : Int) :
    (findT (buildT M (e0 :: es)) e = endT (buildT M (e0 :: es)) ↔ e ∉ e0 :: es) ∧
    (e ∈ e0 :: es →
      derefIter (buildT M (e0 :: es)).root (findT (buildT M (e0 :: es)) e) =
        some e ∧
      (findT (buildT M (e0 :: es)) e).endF = false) ∧
    (∀ e2 : Int, findT (mkBtree M) e2 = endT (mkBtree M)) := by
  obtain ⟨hMeq, hwf, hmem⟩ := buildT_spec M hM e0 es
  have hempty : ∀ e2 : Int, findT (mkBtree M) e2 = endT (mkBtree M) := by
    intro e2
    have hfd : findDesc e2 (mkBtree M).root = none := by
      rw [show (mkBtree M).root = Bnode.mk [] (List.replicate (M + 1) none) from rfl,
        findDesc, if_neg (by simp [lowerB]), findKids_eq, kidAt_replicate_none]
      rfl
    have hmax : findMaxN (mkBtree M).root = (-1, []) := by
      rw [show (mkBtree M).root = Bnode.mk [] (List.replicate (M + 1) none) from rfl,
        findMaxN_eq,
        show kidAt (List.replicate (M + 1) (none : Option Bnode))
          (List.length ([] : List Int)) = none from kidAt_replicate_none _ _]
      rfl
    have hderNone : derefAt (mkBtree M).root [] (-1) = none := by
      unfold derefAt
      simp only [nodeAt_nil]
      rw [if_pos (by decide)]
    rw [findT, hfd, hmax]
    show (⟨[], -1, decide (derefAt (mkBtree M).root [] (-1) ≠ some e2)⟩ : Iter) =
      endT (mkBtree M)
    rw [decide_eq_true (show derefAt (mkBtree M).root [] (-1) ≠ some e2 from by
      rw [hderNone]; simp)]
    rw [show endT (mkBtree M) =
      ⟨(findMaxN (mkBtree M).root).2, (findMaxN (mkBtree M).root).1, true⟩ from rfl,
      hmax]
  by_cases hinm : e ∈ inorderN (buildT M (e0 :: es)).root
  · obtain ⟨p, d, hfd, hderm⟩ := (findDesc_mem hwf e).1 hinm
    have hfindT : findT (buildT M (e0 :: es)) e = ⟨p, (d : Int), false⟩ := by
      rw [findT, hfd]
    refine ⟨⟨fun heq => ?_, fun hnotes => absurd ((hmem e).mp hinm) hnotes⟩,
      fun hes => ?_, hempty⟩
    · rw [hfindT] at heq
      have hf := congrArg Iter.endF heq
      rw [show (endT (buildT M (e0 :: es))).endF = true from rfl] at hf
      exact Bool.noConfusion hf
    · rw [hfindT]
      refine ⟨?_, rfl⟩
      show derefAt (buildT M (e0 :: es)).root p (d : Int) = some e
      rw [derefAt_nat]
      exact hderm
  · have hfd := (findDesc_mem hwf e).2 hinm
    obtain ⟨mx, hlast, hpos, -, hdermx⟩ := maxpos hwf
    have hmxmem : mx ∈ inorderN (buildT M (e0 :: es)).root :=
      List.mem_of_mem_getLast? (by rw [hlast]; rfl)
    have hne2 : mx ≠ e := fun hcon => hinm (hcon ▸ hmxmem)
    have hdermax : derefAt (buildT M (e0 :: es)).root
        (findMaxN (buildT M (e0 :: es)).root).2
        (findMaxN (buildT M (e0 :: es)).root).1 = some mx := by
      rw [derefAt_nonneg _ _ hpos]
      exact hdermx
    have hfindT : findT (buildT M (e0 :: es)) e =
        ⟨(findMaxN (buildT M (e0 :: es)).root).2,
         (findMaxN (buildT M (e0 :: es)).root).1, true⟩ := by
      rw [findT, hfd]
      show (⟨(findMaxN (buildT M (e0 :: es)).root).2,
          (findMaxN (buildT M (e0 :: es)).root).1,
          decide (derefAt (buildT M (e0 :: es)).root
            (findMaxN (buildT M (e0 :: es)).root).2
            (findMaxN (buildT M (e0 :: es)).root).1 ≠ some e)⟩ : Iter) = _
      rw [decide_eq_true (show derefAt (buildT M (e0 :: es)).root
          (findMaxN (buildT M (e0 :: es)).root).2
          (findMaxN (buildT M (e0 :: es)).root).1 ≠ some e from by
        rw [hdermax]; simp [hne2])]
    refine ⟨⟨fun _ => fun hes => hinm ((hmem e).mpr hes), fun _ => ?_⟩,
      fun hes => absurd ((hmem e).mpr hes) hinm, hempty⟩
    rw [hfindT]
    rfl

theorem claim_C4_witness :
    1 ≤ 1 ∧ (findT (buildT 1 [2, 1, 3]) 5 = endT (buildT 1 [2, 1, 3]) ↔
      (5 : Int) ∉ [2, 1, 3]) :=
  ⟨by decide, (claim_C4 1 (by decide) 2 [1, 3] 5).1⟩

/-- C5: the claim is false of the source.  On a freshly constructed tree the
two iterators differ: begin() sits at the empty root with index 0 and the end
flag clear, while end() calls findMax, whose dist - 1 on the empty value
buffer underflows to index -1 (size_t wrap in C++), and sets the end flag.
Hence begin() != end() on an empty tree, and neither iterator has the claimed
index-0-with-flag-set shape. -/
theorem claim_C5 :
    beginT (mkBtree 40) = ⟨[], 0, false⟩ ∧
    endT (mkBtree 40) = ⟨[], -1, true⟩ ∧
    beginT (mkBtree 40) ≠ endT (mkBtree 40) := by
  decide

/-- C6: the claim is false of the source.  bnode::bfs, despite its name, is a
pre-order depth-first enumeration: on the capacity-1 tree built from
2, 1, 3, 0 the stream receives 2 1 0 3 while the level-order sequence the
spec describes is 2 1 3 0; and operator<< additionally prints the text
"There are N nodes \n" (newline included) to std::cout. -/
theorem claim_C6 :
    (streamOut (buildT 1 [2, 1, 3, 0])).1 = [2, 1, 0, 3] ∧
    levelOrderSpec (buildT 1 [2, 1, 3, 0]).root = [2, 1, 3, 0] ∧
    (streamOut (buildT 1 [2, 1, 3, 0])).1 ≠
      levelOrderSpec (buildT 1 [2, 1, 3, 0]).root ∧
    '\n' ∈ (streamOut (buildT 1 [2, 1, 3, 0])).2 := by
  decide

/-- C7: on a reachable non-empty tree, the reverse traversal from rbegin()
to rend() yields exactly the reverse of the forward traversal, and the
reverse adapter dereferences to the element one decrement before its wrapped
base iterator. -/
theorem claim_C7 (M : Nat) (hM : 1 ≤ M) (e0 : Int) (es : List Int) :
    bwdList (buildT M (e0 :: es)) ((inorderN (buildT M (e0 :: es)).root).length + 1)
        (rbeginT (buildT M (e0 :: es))) =
      (fwdList (buildT M (e0 :: es)) (inorderN (buildT M (e0 :: es)).root).length
        (beginT (buildT M (e0 :: es)))).reverse ∧
    ∀ r : RevIter, revDeref (buildT M (e0 :: es)) r =
      derefIter (buildT M (e0 :: es)).root
        (decrI (buildT M (e0 :: es)).root r.base) := by
  obtain ⟨hMeq, hwf, -⟩ := buildT_spec M hM e0 es
  have hteta : buildT M (e0 :: es) = ⟨M, (buildT M (e0 :: es)).root⟩ := by
    calc buildT M (e0 :: es)
        = ⟨(buildT M (e0 :: es)).M, (buildT M (e0 :: es)).root⟩ := rfl
      _ = ⟨M, (buildT M (e0 :: es)).root⟩ := by rw [hMeq]
  rw [hteta]
  refine ⟨?_, fun r => rfl⟩
  show bwdList ⟨M, (buildT M (e0 :: es)).root⟩
      ((inorderN (buildT M (e0 :: es)).root).length + 1)
      (rbeginT ⟨M, (buildT M (e0 :: es)).root⟩) =
    (fwdList ⟨M, (buildT M (e0 :: es)).root⟩
      (inorderN (buildT M (e0 :: es)).root).length
      (beginT ⟨M, (buildT M (e0 :: es)).root⟩)).reverse
  rw [walk_all_rev hwf, (walk_all hwf).1]

theorem claim_C7_witness :
    1 ≤ 1 ∧
    bwdList (buildT 1 [2, 1, 3]) ((inorderN (buildT 1 [2, 1, 3]).root).length + 1)
        (rbeginT (buildT 1 [2, 1, 3])) =
      (fwdList (buildT 1 [2, 1, 3]) (inorderN (buildT 1 [2, 1, 3]).root).length
        (beginT (buildT 1 [2, 1, 3]))).reverse :=
  ⟨by decide, (claim_C7 1 (by decide) 2 [1, 3]).1⟩

/-- C8: copying a well-formed tree (the copy constructor re-inserts the bfs
listing into a fresh tree of the same capacity) reproduces the very same
tree value: same capacity, same in-order contents, the same forward
iteration, and inserting into the copy affects the original exactly as
little as inserting into the original itself (the model's trees are values,
so no storage is shared by construction). -/
theorem claim_C8 (t : BTree) (h : WFt t) :
    copyT t = t ∧ (copyT t).M = t.M ∧
    inorderN (copyT t).root = inorderN t.root ∧
    (∀ k, fwdList (copyT t) k (beginT (copyT t)) = fwdList t k (beginT t)) ∧
    (∀ e, inorderN ((insertT (copyT t) e).1).root =
      inorderN ((insertT t e).1).root) := by
  have hc := copyT_eq h
  rw [hc]
  exact ⟨rfl, rfl, rfl, fun k => rfl, fun e => rfl⟩

theorem claim_C8_witness : WFt (mkBtree 3) ∧ copyT (mkBtree 3) = mkBtree 3 :=
  ⟨Or.inl rfl, (claim_C8 (mkBtree 3) (Or.inl rfl)).1⟩

/-- C9: self-assignment (which builds a copy of the right-hand side and
move-assigns it into the left) is an observational no-op on well-formed
trees: the value, the capacity, the iteration sequence and all subsequent
operations are unchanged. -/
theorem claim_C9 (t : BTree) (h : WFt t) :
    selfAssignT t = t ∧ (selfAssignT t).M = t.M ∧
    (∀ k, fwdList (selfAssignT t) k (beginT (selfAssignT t)) =
      fwdList t k (beginT t)) ∧
    (∀ e, insertT (selfAssignT t) e = insertT t e) := by
  have hc : selfAssignT t = t := copyT_eq h
  rw [hc]
  exact ⟨rfl, rfl, fun k => rfl, fun e => rfl⟩

theorem claim_C9_witness :
    WFt (mkBtree 3) ∧ selfAssignT (mkBtree 3) = mkBtree 3 :=
  ⟨Or.inl rfl, (claim_C9 (mkBtree 3) (Or.inl rfl)).1⟩

/-- C10: with capacity at least 1 the insert loop terminates on every
well-formed tree -- some finite fuel makes the verbatim loop return, and its
result is the structural-recursion insert -- while with capacity 0 the loop
never returns on the freshly constructed tree no matter how much fuel it is
given (every node stays empty, so the loop descends forever). -/
theorem claim_C10 :
    (∀ (t : BTree) (e : Int), 1 ≤ t.M → WF t.M none none t.root →
      ∃ fuel, insertLoop fuel t.M e t.root = some (insertNode t.M e t.root)) ∧
    (∀ (e : Int) (fuel : Nat), insertLoop fuel 0 e (mkBtree 0).root = none) := by
  constructor
  · intro t e hM hwf
    exact insertLoop_eq hwf e hM
  · intro e fuel
    exact insertLoop_zeroM fuel _ (AllEmpty.mk (fun c hc b hcb => by
      rw [List.eq_of_mem_replicate hc] at hcb
      cases hcb))
